import Mathlib

/-!
Verification development for the `like-aho-corasick-but-different` library:
a token-level Aho-Corasick automaton over Unicode "word and symbol" tokens.

The Rust sources are shallowly embedded:
  * `src/word_split_trait.rs` — the tokenizer (`UnicodeWordBoundaries`,
    `unicode_words_and_syms`, `unicode_words_and_syms_indices`);
  * `src/nfa.rs` — states, transitions, trie construction
    (`Compiler::build_trie`), failure-link construction
    (`Compiler::fill_failure_transitions_standard`), `next_state_unchecked`;
  * `src/automaton.rs` — `standard_find_at`, `overlapping_find_at`;
  * `src/ahocorasick.rs` — `FindOverlappingIter` (offset map and
    coordinate remap);
  * `src/lib.rs` — `Match`, `SimpleFinder`.

Strings are embedded as `List Char` (Rust iterates code points via
`char_indices`/`chars`; byte indices are only used to cut slices at
character boundaries, so the character-list view is faithful).  Machine
integers are `Nat` with explicit `% 2^32` / `% 2^64` where wrap-around
matters (the `u32` offset map arithmetic and the `usize` match
arithmetic).  Loops whose termination is not structural are given explicit
fuel; `none` models a run that panics or does not terminate.
-/

set_option maxHeartbeats 1000000

/-- 2^32, the modulus of Rust `u32` arithmetic. -/
def U32 : Nat := 4294967296

/-- 2^64, the modulus of Rust `usize` arithmetic (64-bit target). -/
def U64 : Nat := 18446744073709551616

/-- `usize::MAX`, the `max_id` of the default `StateID` type `usize`
(`src/state_id.rs`). -/
def USIZE_MAX : Nat := 18446744073709551615

/-- A character classifier: the two predicates the tokenizer consults
(`is_word_character` and `char::is_whitespace` in
`src/word_split_trait.rs`) plus `char::is_alphanumeric`, which the
external `unicode_words` pattern tokenizer consults.  Definitions are
parameterized over an arbitrary classifier, so theorems quantified over
`cc` cover the real Unicode tables; the concrete `asciiCC` instance below
is exact on ASCII, where all concrete inputs of this file live. -/
structure CharClass where
  isWord : Char → Bool
  isWs : Char → Bool
  isAlnum : Char → Bool

/-- `is_word_byte` from `src/word_split_trait.rs`: `_`, `0-9`, `a-z`, `A-Z`. -/
def isWordByte (c : Char) : Bool :=
  c = '_' || ('0' ≤ c && c ≤ '9') || ('a' ≤ c && c ≤ 'z') || ('A' ≤ c && c ≤ 'Z')

/-- Modelled from the spec: `is_word_character` falls back to the
`PERL_WORD` table (module `unicode_tables`, not present under `src/`) for
code points above U+007F; on ASCII the source's fast path `is_word_byte`
decides and is embedded exactly.  Every concrete input in this file is
ASCII, so the `false` fallback above U+007F is never exercised;
universally quantified theorems are stated over an arbitrary `CharClass`
instead. -/
def isWordCharAscii (c : Char) : Bool :=
  if c ≤ ⟨0x7F, by decide⟩ then isWordByte c else false

/-- The ASCII fragment of Rust `char::is_whitespace` (Unicode
`White_Space`): space, `\t`, `\n`, vertical tab, form feed, `\r`.
Exact for code points below U+0080. -/
def isWsAscii (c : Char) : Bool :=
  c = ' ' || c = '\t' || c = '\n' || c = ⟨0x0B, by decide⟩ ||
  c = ⟨0x0C, by decide⟩ || c = '\r'

/-- The ASCII fragment of Rust `char::is_alphanumeric`: letters and
digits (underscore is not alphanumeric).  Exact below U+0080. -/
def isAlnumAscii (c : Char) : Bool :=
  ('0' ≤ c && c ≤ '9') || ('a' ≤ c && c ≤ 'z') || ('A' ≤ c && c ≤ 'Z')

/-- The concrete classifier used for the concrete (all-ASCII) inputs. -/
def asciiCC : CharClass := ⟨isWordCharAscii, isWsAscii, isAlnumAscii⟩

section Tokenizer

variable (cc : CharClass)

/-- The boundary test of `UnicodeWordBoundaries::next`: a split happens
between adjacent characters `a`, `b` when their word-character statuses
differ or their whitespace statuses differ. -/
def breakBetween (a b : Char) : Bool :=
  (cc.isWord a != cc.isWord b) || (cc.isWs a != cc.isWs b)

/-- Accumulator form of the `UnicodeWordBoundaries` iterator: `acc` holds
the characters of the current chunk read so far and `a` the character
under the left of the comparison window.  The iterator repeatedly splits
the remaining string at the first boundary, which yields exactly the
maximal runs of boundary-free adjacent pairs. -/
def boundariesAux (acc : List Char) (a : Char) : List Char → List (List Char)
  | [] => [acc ++ [a]]
  | b :: s =>
    if breakBetween cc a b then (acc ++ [a]) :: boundariesAux [] b s
    else boundariesAux (acc ++ [a]) b s

/-- `UnicodeWordBoundaries` over a whole string: the list of raw chunks
(the empty string yields no chunks). -/
def unicodeWordBoundaries : List Char → List (List Char)
  | [] => []
  | c :: s => boundariesAux cc [] c s

/-- Rust `str::trim_start` restricted to the classifier's whitespace. -/
def trimStart (s : List Char) : List Char := s.dropWhile cc.isWs

/-- Rust `str::trim_end`. -/
def trimEnd (s : List Char) : List Char := (s.reverse.dropWhile cc.isWs).reverse

/-- Rust `str::trim`. -/
def trimBoth (s : List Char) : List Char := trimEnd cc (trimStart cc s)

/-- `unicode_words_and_syms` (`WordBoundarySplitter for str`): split at
boundaries, trim every chunk, drop chunks that trimmed to nothing. -/
def wordsAndSyms (s : List Char) : List (List Char) :=
  ((unicodeWordBoundaries cc s).map (trimBoth cc)).filter (fun t => !t.isEmpty)

/-- The offset accumulation of `UnicodeWordsAndSymsIndicesInner::next`:
each chunk is tagged with the running `u32` character offset, which is
then advanced by the chunk's character count (`as u32` cast and `+=`
both wrap modulo 2^32). -/
def indicesInnerAux : Nat → List (List Char) → List (Nat × List Char)
  | _, [] => []
  | off, chunk :: rest =>
    (off, chunk) :: indicesInnerAux ((off + chunk.length) % U32) rest

/-- The `trim` closure of `unicode_words_and_syms_indices`: trim the
chunk, advancing the offset by the number of characters removed from the
left (a `usize` count cast `as u32`, added with `u32` wrap-around). -/
def trimIdx (p : Nat × List Char) : Nat × List Char :=
  let t := trimStart cc p.2
  let removed := p.2.length - t.length
  ((p.1 + removed % U32) % U32, trimEnd cc t)

/-- `unicode_words_and_syms_indices`: offset-tagged chunks, trimmed with
offset correction, empty tokens dropped. -/
def tokensWithOffsets (s : List Char) : List (Nat × List Char) :=
  ((indicesInnerAux 0 (unicodeWordBoundaries cc s)).map (trimIdx cc)).filter
    (fun p => !p.2.isEmpty)

/-- Maximal runs of word characters of a string, in order (helper for the
pattern tokenizer model; `acc` accumulates the current run). -/
def wordRunsAux (acc : List Char) : List Char → List (List Char)
  | [] => if acc.isEmpty then [] else [acc]
  | c :: s =>
    if cc.isWord c then wordRunsAux (acc ++ [c]) s
    else if acc.isEmpty then wordRunsAux [] s
    else acc :: wordRunsAux [] s

/-- Maximal word-character runs of a string. -/
def wordRuns (s : List Char) : List (List Char) := wordRunsAux cc [] s

/-- Modelled from the spec: `Compiler::compile` (`src/nfa.rs`) tokenizes
each pattern with `unicode_words()` of the external
`unicode-segmentation` crate (UAX #29 word segmentation filtered to
segments containing an alphanumeric character), whose source is not part
of this repository.  For strings without UAX #29 mid-letter/mid-number
context characters between word characters (apostrophes, colons, commas
between digits, etc. — true of every pattern string considered in this
file), UAX #29 segments the word characters into exactly the maximal runs
of letters, digits and underscores, and `unicode_words` keeps exactly the
segments containing at least one alphanumeric character. -/
def unicodeWordsModel (s : List Char) : List (List Char) :=
  (wordRuns cc s).filter (fun r => r.any cc.isAlnum)

end Tokenizer

/-! ## Automaton data model (`src/nfa.rs`) -/

/-- Tokens are the automaton's alphabet symbols: trimmed character runs. -/
abbrev Tok := List Char

/-- A state of the NFA (`State` in `src/nfa.rs`): a sparse transition
list sorted by token, a failure link (initialized to the start state),
and the list of `(pattern_id, pattern_token_length)` outputs (the
source's `matches` field; `matches` is a Lean keyword, so the field is
called `outputs` here). -/
structure ACState where
  trans : List (Tok × Nat)
  fail : Nat
  outputs : List (Nat × Nat)
deriving DecidableEq, Repr

/-- The fresh state pushed by `NFA::add_sparse_state`: no transitions,
failure link at the start state (ID 1), no matches. -/
def freshState : ACState := ⟨[], 1, []⟩

/-- State lookup. The source indexes the state vector directly
(panicking or UB when out of bounds); all accesses are in bounds in the
runs considered, and out-of-bounds reads return the junk `freshState`. -/
def getState (sts : List ACState) (i : Nat) : ACState := sts.getD i freshState

/-- `Transitions::next_state`: linear scan for the exact token, `0`
(the fail sentinel) when absent. -/
def transNextState (ts : List (Tok × Nat)) (input : Tok) : Nat :=
  match ts with
  | [] => 0
  | (b, id) :: rest => if b = input then id else transNextState rest input

/-- Strict lexicographic order on tokens, matching `Ord for &str`
(byte-wise lexicographic order equals code-point-wise order on UTF-8). -/
def tokLt : Tok → Tok → Bool
  | [], [] => false
  | [], _ :: _ => true
  | _ :: _, [] => false
  | a :: as_, b :: bs => if a < b then true else if b < a then false else tokLt as_ bs

/-- `Transitions::set_next_state`: `binary_search_by_key` on the
key-sorted list, replacing the pair when the key is present and
inserting at the sorted position when absent.  On a list sorted by
`tokLt` with distinct keys this ordered insertion computes the same
result as the binary search. -/
def setNextState (ts : List (Tok × Nat)) (input : Tok) (next : Nat) :
    List (Tok × Nat) :=
  match ts with
  | [] => [(input, next)]
  | (b, id) :: rest =>
    if tokLt input b then (input, next) :: (b, id) :: rest
    else if b = input then (input, next) :: rest
    else (b, id) :: setNextState rest input next

/-- The compiled NFA (`NFA` in `src/nfa.rs`; the name `NFA` is taken by
Mathlib).  The informational
`heap_bytes` accounting (`calculate_size`, a `size_of`-based sum) has no
observable effect on searching and is not modelled. -/
structure ACNFA where
  start_id : Nat
  max_pattern_len : Nat
  pattern_count : Nat
  states : List ACState
deriving DecidableEq, Repr

/-! ## Compiler (`Compiler` in `src/nfa.rs`) -/

/-- `Compiler::add_state` / `NFA::add_sparse_state`: append a fresh
state, whose ID is the previous state count, failing on `StateID`
overflow (`usize_to_state_id`). -/
def addState (sts : List ACState) : Option (List ACState × Nat) :=
  if sts.length > USIZE_MAX then none
  else some (sts ++ [freshState], sts.length)

/-- One token step of `Compiler::build_trie`: follow the existing
transition if present, otherwise allocate a fresh state and insert the
transition (sorted). -/
def trieStep (acc : List ACState × Nat) (b : Tok) : Option (List ACState × Nat) :=
  let sts := acc.1
  let prev := acc.2
  let next := transNextState (getState sts prev).trans b
  if next ≠ 0 then some (sts, next)
  else
    match addState sts with
    | none => none
    | some (sts2, id) =>
      let st := getState sts2 prev
      some (sts2.set prev { st with trans := setNextState st.trans b id }, id)

/-- Fold `trieStep` over a pattern's tokens, starting from `prev`. -/
def trieInsertTokens (sts : List ACState) (prev : Nat) :
    List Tok → Option (List ACState × Nat)
  | [] => some (sts, prev)
  | b :: bs =>
    match trieStep (sts, prev) b with
    | none => none
    | some (sts2, prev2) => trieInsertTokens sts2 prev2 bs

/-- Append an output `(pattern_id, pattern_token_length)` to a state
(`State::add_match`). -/
def addMatch (sts : List ACState) (i : Nat) (pid plen : Nat) : List ACState :=
  let st := getState sts i
  sts.set i { st with outputs := st.outputs ++ [(pid, plen)] }

/-- `Compiler::build_trie`: insert every pattern's token path from the
start state (ID 1), recording the match at the path's final state, and
tracking `max_pattern_len` and `pattern_count`.  (The local `saw_match`
variable of the source is computed but never read, and is omitted.) -/
def buildTrie (pati : Nat) (maxLen cnt : Nat) (sts : List ACState) :
    List (List Tok) → Option (List ACState × Nat × Nat)
  | [] => some (sts, maxLen, cnt)
  | pat :: pats =>
    let maxLen2 := max maxLen pat.length
    let cnt2 := cnt + 1
    match trieInsertTokens sts 1 pat with
    | none => none
    | some (sts2, prev) =>
      buildTrie (pati + 1) maxLen2 cnt2 (addMatch sts2 prev pati pat.length) pats

/-- `NFA::copy_matches`: append `src`'s matches to `dst`'s.  The source
splits the state vector with `get_two_mut`, which asserts `src ≠ dst`
(panic modelled as `none`). -/
def copyMatches (sts : List ACState) (src dst : Nat) : Option (List ACState) :=
  if src = dst then none
  else
    let d := getState sts dst
    some (sts.set dst { d with outputs := d.outputs ++ (getState sts src).outputs })

/-- The inner failure walk of `fill_failure_transitions_standard`:
starting from `f`, follow failure links while the state has no transition
on `b`; when the loop exits, return the transition's target.  The source
loop has no exit when the walk reaches a state that is its own failure
link (the start state) and lacks `b` — `none` models that
non-termination (as well as fuel exhaustion). -/
def failWalk (sts : List ACState) (b : Tok) : Nat → Nat → Option Nat
  | fuel, f =>
    let nx := transNextState (getState sts f).trans b
    if nx ≠ 0 then some nx
    else
      match fuel with
      | 0 => none
      | fuel + 1 => failWalk sts b fuel (getState sts f).fail

/-- Process the out-transitions of a dequeued state `id` in order: for
each `(b, next)`, enqueue `next`, compute its failure link by
`failWalk` from `id`'s failure link, and copy the failure target's
matches onto `next`.  Returns the updated states and the enqueued IDs. -/
def processChildren (walkFuel : Nat) (id : Nat) (sts : List ACState) :
    List (Tok × Nat) → Option (List ACState × List Nat)
  | [] => some (sts, [])
  | (b, next) :: rest =>
    match failWalk sts b walkFuel (getState sts id).fail with
    | none => none
    | some f =>
      let st := getState sts next
      let sts2 := sts.set next { st with fail := f }
      match copyMatches sts2 f next with
      | none => none
      | some sts3 =>
        match processChildren walkFuel id sts3 rest with
        | none => none
        | some (sts4, ids) => some (sts4, next :: ids)

/-- The breadth-first loop of `fill_failure_transitions_standard`:
dequeue, process children (enqueuing them), then append the start
state's matches to the dequeued state (`copy_empty_matches`; the
`get_two_mut` assertion makes this a panic if the start state itself
were dequeued).  Fuel bounds the number of dequeues. -/
def bfsLoop (walkFuel : Nat) : Nat → List ACState → List Nat → Option (List ACState)
  | _, sts, [] => some sts
  | 0, _, _ :: _ => none
  | fuel + 1, sts, id :: rest =>
    match processChildren walkFuel id sts (getState sts id).trans with
    | none => none
    | some (sts2, ids) =>
      match copyMatches sts2 1 id with
      | none => none
      | some sts3 => bfsLoop walkFuel fuel sts3 (rest ++ ids)

/-- `fill_failure_transitions_standard` with explicit fuels: seed the
queue with the start state's non-self transition targets followed by the
fail-sentinel state `0` (`queue.push_back(fail_id())`), then run the BFS. -/
def fillFailureWith (walkFuel bfsFuel : Nat) (sts : List ACState) :
    Option (List ACState) :=
  let q0 := ((getState sts 1).trans.map (fun p => p.2)).filter (fun i => i ≠ 1)
  bfsLoop walkFuel bfsFuel sts (q0 ++ [0])

/-- `Compiler::compile` with explicit fuels: allocate states `0` (fail
sentinel) and `1` (start), tokenize the patterns (external
`unicode_words`, see `unicodeWordsModel`), build the trie, then fill the
failure transitions. -/
def compileWith (cc : CharClass) (walkFuel bfsFuel : Nat)
    (patterns : List (List Char)) : Option ACNFA :=
  match addState [] with
  | none => none
  | some (sts0, _) =>
    match addState sts0 with
    | none => none
    | some (sts1, _) =>
      let pats := patterns.map (unicodeWordsModel cc)
      match buildTrie 0 0 0 sts1 pats with
      | none => none
      | some (sts2, maxLen, cnt) =>
        match fillFailureWith walkFuel bfsFuel sts2 with
        | none => none
        | some sts3 => some ⟨1, maxLen, cnt, sts3⟩

/-- Fuel that suffices for every terminating run (established by the
well-formedness development below): the failure walk visits states of
strictly decreasing trie depth, and the BFS dequeues each state at most
once. -/
def compileNFA (cc : CharClass) (patterns : List (List Char)) : Option ACNFA :=
  let n := patterns.foldr (fun p a => a + (unicodeWordsModel cc p).length) 2
  compileWith cc (n + 1) (n + 1) patterns

/-! ## Search engine (`src/automaton.rs`, `NFA::next_state_unchecked`) -/

/-- A raw match in token coordinates (`Match` as produced by
`Automaton::get_match`): pattern id, token length, exclusive token-end. -/
structure RawMatch where
  pattern : Nat
  len : Nat
  endPos : Nat
deriving DecidableEq, Repr

/-- `NFA::next_state_unchecked`: look up the transition; on the fail
sentinel, return the start state if already there, otherwise follow the
failure link and retry.  Fuel bounds the failure-chain walk; `none`
models a walk that never reaches the start state (impossible for the
well-formed automata produced by a successful compile, as proved
below). -/
def nextStateFueled (sts : List ACState) (startId : Nat) (input : Tok) :
    Nat → Nat → Option Nat
  | fuel, current =>
    let next := transNextState (getState sts current).trans input
    if next ≠ 0 then some next
    else if current = startId then some startId
    else
      match fuel with
      | 0 => none
      | fuel + 1 => nextStateFueled sts startId input fuel (getState sts current).fail

/-- The canonical walk fuel: one more than the state count (a
terminating walk visits states of strictly decreasing depth, and depths
are below the state count). -/
def walkFuelOf (sts : List ACState) : Nat := sts.length + 1

/-- One forward scan of `Automaton::standard_find_at`: starting at
absolute token position `at_`, feed tokens until a state with outputs is
entered, returning `get_match(state, 0, idx + at + 1)` and the new
state; `none` when the haystack is exhausted (or a next-state walk
diverges).  The `is_valid` assertion at the head of `standard_find_at`
is checked by the caller wrapper below. -/
def standardScan (sts : List ACState) (startId : Nat) :
    List Tok → Nat → Nat → Option (RawMatch × Nat)
  | [], _, _ => none
  | t :: ts, at_, sid =>
    match nextStateFueled sts startId t (walkFuelOf sts) sid with
    | none => none
    | some sid2 =>
      match (getState sts sid2).outputs with
      | [] => standardScan sts startId ts (at_ + 1) sid2
      | (pid, plen) :: _ => some (⟨pid, plen, at_ + 1⟩, sid2)

/-- `Automaton::standard_find_at` (with the entry `assert!(is_valid)`
modelled as `none` on an invalid state id): scan from position `at_` of
the haystack. -/
def standardFindAt (sts : List ACState) (startId : Nat) (hs : List Tok)
    (at_ : Nat) (sid : Nat) : Option (RawMatch × Nat) :=
  if sid < sts.length then standardScan sts startId (hs.drop at_) at_ sid
  else none

/-- `Automaton::overlapping_find_at`: if the previous state still has
unreported outputs, report `outputs[match_index]` with the current
position as token-end and bump the index; otherwise reset the index and
scan forward, reporting the first output of the next match state with
index 1.  Returns the raw match together with the updated
`(state_id, match_index)`. -/
def overlappingFindAt (sts : List ACState) (startId : Nat) (hs : List Tok)
    (at_ sid mi : Nat) : Option (RawMatch × Nat × Nat) :=
  let outs := (getState sts sid).outputs
  if mi < outs.length then
    let pr := outs.getD mi (0, 0)
    some (⟨pr.1, pr.2, at_⟩, sid, mi + 1)
  else
    match standardFindAt sts startId hs at_ sid with
    | none => none
    | some (m, sid2) => some (m, sid2, 1)

/-- The raw-match stream of repeated `overlapping_find_at` calls, with
the iterator state update of `FindOverlappingIter::next`
(`self.pos = m.end()`).  Fuel bounds the number of emitted matches. -/
def rawStreamAux (sts : List ACState) (startId : Nat) (hs : List Tok) :
    Nat → Nat → Nat → Nat → List RawMatch
  | 0, _, _, _ => []
  | fuel + 1, at_, sid, mi =>
    match overlappingFindAt sts startId hs at_ sid mi with
    | none => []
    | some (m, sid2, mi2) => m :: rawStreamAux sts startId hs fuel m.endPos sid2 mi2

/-! ## Finder facade (`src/ahocorasick.rs`, `src/lib.rs`) -/

/-- A reported match in character coordinates (`Match` in `src/lib.rs`).
`start()` is `end - len` in `usize` arithmetic and `is_empty()` is
`len == 0`. -/
structure CharMatch where
  pattern : Nat
  len : Nat
  endPos : Nat
deriving DecidableEq, Repr

/-- `Match::start`: `self.end - self.len` in `usize` arithmetic. -/
def CharMatch.start (m : CharMatch) : Nat := (m.endPos + U64 - m.len) % U64

/-- `Match::is_empty`: `self.len == 0`. -/
def CharMatch.isEmpty (m : CharMatch) : Bool := m.len == 0

/-- The offset map of `FindOverlappingIter::new`: entry `i` is the `u32`
character offset of haystack token `i`, and the final sentinel entry at
index `N` is `chars().count() + 1` (cast `as u32`).  The `HashMap` with
keys `0..=N` is modelled as the list indexed by key. -/
def offsetsOf (cc : CharClass) (hay : List Char) : List Nat :=
  (tokensWithOffsets cc hay).map (fun p => p.1) ++ [(hay.length + 1) % U32]

/-- The token vector of `FindOverlappingIter::new`. -/
def hayTokens (cc : CharClass) (hay : List Char) : List Tok :=
  (tokensWithOffsets cc hay).map (fun p => p.2)

/-- The coordinate remap in `FindOverlappingIter::next`:
`start_idx = offsets[(end - len) as u32]`,
`end_idx = offsets[end as u32] - 1` (`u32` subtraction),
`len = end_idx - start_idx` (`u32` subtraction); a failed offset lookup
(`?`) ends the iteration. -/
def remap (offsets : List Nat) (m : RawMatch) : Option CharMatch :=
  match offsets.get? (((m.endPos + U64 - m.len) % U64) % U32) with
  | none => none
  | some s =>
    match offsets.get? (m.endPos % U32) with
    | none => none
    | some e0 =>
      let e := (e0 + U32 - 1) % U32
      some ⟨m.pattern, (e + U32 - s) % U32, e⟩

/-- The reported-match stream of `FindOverlappingIter`: each call takes
one raw step, advances `pos` to the raw `end`, and remaps to character
coordinates; a failed remap lookup ends the stream. -/
def findIterAux (sts : List ACState) (startId : Nat) (hs : List Tok)
    (offsets : List Nat) : Nat → Nat → Nat → Nat → List CharMatch
  | 0, _, _, _ => []
  | fuel + 1, at_, sid, mi =>
    match overlappingFindAt sts startId hs at_ sid mi with
    | none => []
    | some (m, sid2, mi2) =>
      match remap offsets m with
      | none => []
      | some m2 => m2 :: findIterAux sts startId hs offsets fuel m.endPos sid2 mi2

/-- The largest per-state output count, used to bound the number of
matches a single position can emit. -/
def maxOutputs (sts : List ACState) : Nat :=
  sts.foldr (fun st a => max st.outputs.length a) 0

/-- Iteration fuel that suffices to drain the whole stream: every raw
step either advances the position or bumps the match index below the
state's output count. -/
def iterFuelOf (sts : List ACState) (hs : List Tok) : Nat :=
  (hs.length + 2) * (maxOutputs sts + 2)

/-- `AhoCorasick::find_overlapping_iter` collected into a list: tokenize
the haystack with offsets, then iterate from position 0, the start
state, and match index 0. -/
def findOverlapping (cc : CharClass) (nfa : ACNFA) (hay : List Char) :
    List CharMatch :=
  let hs := hayTokens cc hay
  findIterAux nfa.states nfa.start_id hs (offsetsOf cc hay)
    (iterFuelOf nfa.states hs) 0 nfa.start_id 0

/-- The same stream before the facade's remap (for relating raw and
reported matches). -/
def findOverlappingRaw (cc : CharClass) (nfa : ACNFA) (hay : List Char) :
    List RawMatch :=
  let hs := hayTokens cc hay
  rawStreamAux nfa.states nfa.start_id hs (iterFuelOf nfa.states hs) 0 nfa.start_id 0

/-- `SimpleFinder::new`: unzip the `(pattern, datum)` pairs, build the
automaton (`build_aho_corasick` unwraps, so a failed build is a panic,
modelled as `none`), and keep the data vector.  The source's
`HashMap<usize, D>` is `(0..pattern_count).zip(datas)` collected, which
maps `pid` to `datas[pid]`; it is modelled by the data list itself. -/
def simpleFinderNew (cc : CharClass) (D : Type) (pats : List (List Char × D)) :
    Option (ACNFA × List D) :=
  match compileNFA cc (pats.map (fun p => p.1)) with
  | none => none
  | some nfa => some (nfa, pats.map (fun p => p.2))

/-- `SimpleFinderIter::next`: attach `data[pattern_id]` to each match;
a missing datum (`?` on the map lookup) ends the iteration. -/
def attachData (D : Type) (datas : List D) : List CharMatch → List (CharMatch × D)
  | [] => []
  | m :: ms =>
    match datas.get? m.pattern with
    | none => []
    | some d => (m, d) :: attachData D datas ms

/-- `SimpleFinder::find_all` collected into a list. -/
def findAll (cc : CharClass) (D : Type) (nfa : ACNFA) (datas : List D)
    (hay : List Char) : List (CharMatch × D) :=
  attachData D datas (findOverlapping cc nfa hay)

/-! ## The spec's next-state procedure (for claim C8) -/

/-- Modelled from the spec (§4.4, step 2): the while loop "from the
current state, while `state.transitions[t]` is absent and `state` is not
the start state, follow `state ← state.fail`".  Per the spec's data
model, the transition lookup returns the fail sentinel `0` to mean "no
transition".  `none` models a loop that runs out of fuel. -/
def specWhileWalk (sts : List ACState) (startId : Nat) (input : Tok) :
    Nat → Nat → Option Nat
  | fuel, s =>
    if transNextState (getState sts s).trans input = 0 ∧ s ≠ startId then
      match fuel with
      | 0 => none
      | fuel + 1 => specWhileWalk sts startId input fuel (getState sts s).fail
    else some s

/-- Modelled from the spec (§4.4, step 2): after the while loop, "if
still absent at the start state, the next state is the start state;
otherwise the next state is `state.transitions[t]`". -/
def specNextState (sts : List ACState) (startId : Nat) (input : Tok)
    (fuel s : Nat) : Option Nat :=
  match specWhileWalk sts startId input fuel s with
  | none => none
  | some f =>
    let nx := transNextState (getState sts f).trans input
    if nx = 0 then some startId else some nx

/-- Claim C8: the search engine's next-state step
(`NFA::next_state_unchecked`, which tries the transition, loops back to
the start state, or follows the failure link) computes exactly the
spec's next-state procedure (follow failure links while the transition
is absent away from the start state, then take the transition or fall
back to the start state), for every state vector, start id, input token,
fuel and current state. -/
theorem c8_next_state_matches_spec_procedure
    (sts : List ACState) (startId : Nat) (input : Tok) :
    ∀ fuel s, nextStateFueled sts startId input fuel s =
      specNextState sts startId input fuel s := by
  intro fuel
  induction fuel with
  | zero =>
    intro s
    rw [nextStateFueled, specNextState, specWhileWalk]
    by_cases h0 : transNextState (getState sts s).trans input = 0
    · by_cases hs : s = startId
      · simp [h0, hs]
      · simp [h0, hs]
    · simp [h0]
  | succ fuel ih =>
    intro s
    by_cases h0 : transNextState (getState sts s).trans input = 0
    · by_cases hs : s = startId
      · rw [nextStateFueled, specNextState, specWhileWalk]; simp [h0, hs]
      · have l : nextStateFueled sts startId input (fuel + 1) s =
            nextStateFueled sts startId input fuel ((getState sts s).fail) := by
          rw [nextStateFueled]; simp [h0, hs]
        have r : specWhileWalk sts startId input (fuel + 1) s =
            specWhileWalk sts startId input fuel ((getState sts s).fail) := by
          rw [specWhileWalk]; simp [h0, hs]
        rw [l, ih, specNextState, specNextState, r]
    · rw [nextStateFueled, specNextState, specWhileWalk]; simp [h0]

/-! ## Claims C3 and C4: concrete runs of the compiler and finder -/

/-- When a state lacks the transition and is its own failure link (the
start state), the failure walk of `fill_failure_transitions_standard`
makes no progress: it returns `none` for every fuel, modelling the
source's infinite loop. -/
theorem failWalk_fixpoint_none (sts : List ACState) (b : Tok) (f : Nat)
    (h0 : transNextState (getState sts f).trans b = 0)
    (hf : (getState sts f).fail = f) :
    ∀ fuel, failWalk sts b fuel f = none := by
  intro fuel
  induction fuel with
  | zero => rw [failWalk]; simp [h0]
  | succ fuel ih => rw [failWalk]; simp [h0, hf, ih]

/-- The trie built for the `test_loops` patterns
`["lol lol_", "lol lol"]`: state 2 after token `lol`, state 3 after
`lol lol_` (output of pattern 0), state 4 after `lol lol` (output of
pattern 1). -/
def loopsTrie : List ACState :=
  [⟨[], 1, []⟩,
   ⟨[(['l', 'o', 'l'], 2)], 1, []⟩,
   ⟨[(['l', 'o', 'l'], 4), (['l', 'o', 'l', '_'], 3)], 1, []⟩,
   ⟨[], 1, [(0, 2)]⟩,
   ⟨[], 1, [(1, 2)]⟩]

/-- The `test_loops` trie after the BFS has processed state 2's first
transition (`lol` to state 4, whose failure link becomes state 2). -/
def loopsTrie2 : List ACState :=
  [⟨[], 1, []⟩,
   ⟨[(['l', 'o', 'l'], 2)], 1, []⟩,
   ⟨[(['l', 'o', 'l'], 4), (['l', 'o', 'l', '_'], 3)], 1, []⟩,
   ⟨[], 1, [(0, 2)]⟩,
   ⟨[], 2, [(1, 2)]⟩]

/-- Claim C3 (the `test_loops` scenario): building the finder for the
patterns `[("lol lol_", 0), ("lol lol", 2)]` does not terminate, for any
amount of fuel — the failure-link BFS, while processing state 2's
transition on token `lol_`, walks failure links from the start state,
which has no `lol_` transition and is its own failure link, so the
source's inner `while` loop never exits.  In particular `find_all` on
`"lol lol lol lol_"` never produces the three matches the repository's
`test_loops` test (and the spec's scenario 2) expect. -/
theorem c3_test_loops_construction_diverges :
    ∀ walkFuel bfsFuel,
      compileWith asciiCC walkFuel bfsFuel
        ["lol lol_".toList, "lol lol".toList] = none := by
  intro walkFuel bfsFuel
  have htrie : compileWith asciiCC walkFuel bfsFuel
      ["lol lol_".toList, "lol lol".toList] =
      (match bfsLoop walkFuel bfsFuel loopsTrie [2, 0] with
        | none => none
        | some sts3 => some ⟨1, 2, 2, sts3⟩) := by rfl
  rw [htrie]
  suffices h : bfsLoop walkFuel bfsFuel loopsTrie [2, 0] = none by rw [h]
  cases bfsFuel with
  | zero => rw [bfsLoop]
  | succ bfsFuel =>
    have hwalk1 : failWalk loopsTrie ['l', 'o', 'l'] walkFuel 1 = some 2 := by
      rw [failWalk.eq_def]; rfl
    have hwalk2 : ∀ fuel sts3, getState sts3 1 = getState loopsTrie 1 →
        failWalk sts3 ['l', 'o', 'l', '_'] fuel 1 = none := by
      intro fuel sts3 h1
      exact failWalk_fixpoint_none sts3 ['l', 'o', 'l', '_'] 1
        (by rw [h1]; rfl) (by rw [h1]; rfl) fuel
    have hproc : processChildren walkFuel 2 loopsTrie
        (getState loopsTrie 2).trans = none := by
      rw [show (getState loopsTrie 2).trans =
        [(['l', 'o', 'l'], 4), (['l', 'o', 'l', '_'], 3)] from rfl]
      rw [processChildren.eq_def]
      simp only []
      rw [show (getState loopsTrie 2).fail = 1 from rfl, hwalk1]
      show (match processChildren walkFuel 2 loopsTrie2 [(['l', 'o', 'l', '_'], 3)] with
            | none => none
            | some (sts4, ids) => some (sts4, 4 :: ids)) = none
      rw [processChildren.eq_def]
      simp only []
      rw [show (getState loopsTrie2 2).fail = 1 from rfl,
        hwalk2 walkFuel loopsTrie2 (by rfl)]
    rw [bfsLoop, hproc]

/-- Claim C4 (the empty-pattern scenario): for the finder built from the
single pattern `("", 9)`, `find_all` on `"a b"` reports as its first
match a `Match` with `len = end = 2^32 - 1` (the `u32` subtraction
`offsets[0] - 1 = 0 - 1` wraps around; a debug build panics on the same
subtraction), so that match has `start() = 0 ≠ end()` and
`is_empty() = false`, contradicting the claim that every emitted match
is empty with `start == end`. -/
theorem c4_empty_pattern_first_match_not_empty :
    (match simpleFinderNew asciiCC Nat [("".toList, 9)] with
      | none => none
      | some (nfa, datas) => (findAll asciiCC Nat nfa datas "a b".toList).head?) =
      some (⟨0, 4294967295, 4294967295⟩, 9) ∧
    (CharMatch.isEmpty ⟨0, 4294967295, 4294967295⟩ = false) ∧
    (CharMatch.start ⟨0, 4294967295, 4294967295⟩ = 0) := by
  refine ⟨by rfl, by rfl, by rfl⟩

/-! ## Claim C1: pattern tokenization vs haystack tokenization -/

/-- Reference form of "maximal word-character runs": take the head run
when the head is a word character, otherwise skip the character. -/
def runsSpine (cc : CharClass) : List Char → List (List Char)
  | [] => []
  | c :: s =>
    if cc.isWord c then (c :: s.takeWhile cc.isWord) :: runsSpine cc (s.dropWhile cc.isWord)
    else runsSpine cc s
termination_by s => s.length
decreasing_by
  · exact Nat.lt_succ_of_le (s.dropWhile_sublist cc.isWord).length_le
  · simp

/-- Accumulator lemma for `wordRunsAux`: with a nonempty accumulated
run, the next emitted run is the accumulator extended by the pending
word characters. -/
theorem wordRunsAux_acc (cc : CharClass) :
    ∀ (s : List Char) (acc : List Char), acc ≠ [] →
      wordRunsAux cc acc s =
        (acc ++ s.takeWhile cc.isWord) :: wordRunsAux cc [] (s.dropWhile cc.isWord) := by
  intro s
  induction s with
  | nil => intro acc hacc; simp [wordRunsAux, hacc]
  | cons d s ih =>
    intro acc hacc
    by_cases hd : cc.isWord d
    · rw [wordRunsAux, if_pos hd, ih (acc ++ [d]) (by simp),
        List.takeWhile_cons_of_pos hd, List.dropWhile_cons_of_pos hd]
      simp
    · rw [wordRunsAux, if_neg hd, if_neg (by simpa using hacc),
        List.takeWhile_cons_of_neg hd, List.dropWhile_cons_of_neg hd,
        List.append_nil, wordRunsAux]
      simp [hd]

/-- `wordRuns` computes the reference run spine (no side conditions). -/
theorem wordRuns_eq_runsSpine (cc : CharClass) :
    ∀ s, wordRuns cc s = runsSpine cc s := by
  have H : ∀ (n : Nat) (s : List Char), s.length ≤ n →
      wordRuns cc s = runsSpine cc s := by
    intro n
    induction n with
    | zero =>
      intro s hs
      rw [List.length_eq_zero.mp (Nat.le_zero.mp hs)]
      rw [wordRuns, wordRunsAux, runsSpine]; rfl
    | succ n ih =>
      intro s hs
      match s with
      | [] => rw [wordRuns, wordRunsAux, runsSpine]; rfl
      | c :: s =>
        by_cases hc : cc.isWord c
        · rw [wordRuns, wordRunsAux, if_pos hc, List.nil_append,
            wordRunsAux_acc cc s [c] (by simp), runsSpine, if_pos hc]
          have hle : (s.dropWhile cc.isWord).length ≤ n :=
            le_trans (s.dropWhile_sublist cc.isWord).length_le
              (Nat.le_of_succ_le_succ hs)
          rw [show wordRunsAux cc [] (s.dropWhile cc.isWord) =
            wordRuns cc (s.dropWhile cc.isWord) from rfl, ih _ hle]
          simp
        · rw [wordRuns, wordRunsAux, if_neg hc, runsSpine, if_neg hc]
          simp only [List.isEmpty_nil, if_true]
          exact ih s (Nat.le_of_succ_le_succ hs)
  exact fun s => H s.length s le_rfl

/-- A whitespace-free list trims to itself. -/
theorem trimBoth_of_no_ws (cc : CharClass) (r : List Char)
    (h : ∀ c ∈ r, cc.isWs c = false) : trimBoth cc r = r := by
  have h1 : trimStart cc r = r := by
    cases r with
    | nil => rfl
    | cons c s => rw [trimStart, List.dropWhile_cons_of_neg (by simp [h c (by simp)])]
  have h2 : trimEnd cc r = r := by
    rw [trimEnd]
    cases hr : r.reverse with
    | nil => simpa using congrArg List.reverse hr
    | cons c s =>
      have hc : c ∈ r := by
        have : c ∈ r.reverse := by rw [hr]; simp
        simpa using this
      rw [List.dropWhile_cons_of_neg (by simp [h c hc]), ← hr, List.reverse_reverse]
  rw [trimBoth, h1, h2]

/-- An all-whitespace list trims to nothing. -/
theorem trimBoth_of_all_ws (cc : CharClass) (r : List Char)
    (h : ∀ c ∈ r, cc.isWs c = true) : trimBoth cc r = [] := by
  have h1 : trimStart cc r = [] := by
    rw [trimStart, List.dropWhile_eq_nil_iff]
    intro c hc; simp [h c hc]
  rw [trimBoth, h1]; rfl

/-- When whitespace is exactly non-word (the two-class setting of the
amended claim C1), the tokenizer's boundary test is just a
word-character transition. -/
theorem breakBetween_two (cc : CharClass) (a b : Char)
    (ha : cc.isWs a = !cc.isWord a) (hb : cc.isWs b = !cc.isWord b) :
    breakBetween cc a b = (cc.isWord a != cc.isWord b) := by
  rw [breakBetween, ha, hb]
  cases cc.isWord a <;> cases cc.isWord b <;> rfl

/-- The boundary-split-trim-filter pipeline on a two-class string
computes the word-run spine, generalized over the accumulated chunk. -/
theorem boundariesAux_two (cc : CharClass) :
    ∀ (s : List Char) (a : Char) (acc : List Char),
      (∀ c ∈ acc ++ a :: s, cc.isWs c = !cc.isWord c) →
      (∀ x ∈ acc, cc.isWord x = cc.isWord a) →
      ((boundariesAux cc acc a s).map (trimBoth cc)).filter (fun t => !t.isEmpty) =
        if cc.isWord a then
          (acc ++ a :: s.takeWhile cc.isWord) :: runsSpine cc (s.dropWhile cc.isWord)
        else runsSpine cc s := by
  intro s
  induction s with
  | nil =>
    intro a acc htwo hacc
    rw [boundariesAux]
    by_cases hw : cc.isWord a
    · have htrim : trimBoth cc (acc ++ [a]) = acc ++ [a] := by
        apply trimBoth_of_no_ws
        intro c hc
        rcases List.mem_append.mp hc with hc | hc
        · rw [htwo c (by simp [hc]), hacc c hc, hw]; rfl
        · rw [List.mem_singleton.mp hc, htwo a (by simp), hw]; rfl
      rw [if_pos hw]
      simp [htrim, runsSpine]
    · have htrim : trimBoth cc (acc ++ [a]) = [] := by
        apply trimBoth_of_all_ws
        intro c hc
        rcases List.mem_append.mp hc with hc | hc
        · rw [htwo c (by simp [hc]), hacc c hc]; simp [hw]
        · rw [List.mem_singleton.mp hc, htwo a (by simp)]; simp [hw]
      rw [if_neg hw]
      simp [htrim, runsSpine]
  | cons b s2 ih =>
    intro a acc htwo hacc
    have hwa : cc.isWs a = !cc.isWord a := htwo a (by simp)
    have hwb : cc.isWs b = !cc.isWord b := htwo b (by simp)
    rw [boundariesAux, breakBetween_two cc a b hwa hwb]
    by_cases heq : cc.isWord b = cc.isWord a
    · rw [if_neg (by simp [heq])]
      have ih2 := ih b (acc ++ [a])
        (by intro c hc; apply htwo c; revert hc; simp; try tauto)
        (by
          intro x hx
          rcases List.mem_append.mp hx with hx | hx
          · rw [hacc x hx, heq]
          · rw [List.mem_singleton.mp hx, heq])
      rw [ih2]
      by_cases hw : cc.isWord a
      · rw [if_pos (by rw [heq]; exact hw), if_pos hw,
          List.takeWhile_cons_of_pos (by rw [heq]; exact hw),
          List.dropWhile_cons_of_pos (by rw [heq]; exact hw)]
        simp
      · rw [if_neg (by rw [heq]; exact hw), if_neg hw, runsSpine,
          if_neg (by rw [heq]; exact hw)]
    · rw [if_pos (by simp [Bool.not_eq_iff] at heq ⊢; exact fun h => heq h.symm)]
      have ih2 := ih b []
        (by intro c hc; apply htwo c; revert hc; simp; try tauto)
        (by intro x hx; cases hx)
      by_cases hw : cc.isWord a
      · have hwb2 : cc.isWord b = false := by
          cases hb2 : cc.isWord b
          · rfl
          · exact absurd (hb2.trans hw.symm) heq
        have htrim : trimBoth cc (acc ++ [a]) = acc ++ [a] := by
          apply trimBoth_of_no_ws
          intro c hc
          rcases List.mem_append.mp hc with hc | hc
          · rw [htwo c (by simp [hc]), hacc c hc, hw]; rfl
          · rw [List.mem_singleton.mp hc, hwa, hw]; rfl
        rw [List.map_cons, List.filter_cons, if_pos (by simp [htrim])]
        rw [ih2, if_neg (by simp [hwb2]), if_pos hw, htrim]
        rw [List.takeWhile_cons_of_neg (by simp [hwb2]),
          List.dropWhile_cons_of_neg (by simp [hwb2])]
        rw [runsSpine, if_neg (by simp [hwb2])]
      · have hwb2 : cc.isWord b = true := by
          cases hb2 : cc.isWord b
          · exact absurd (hb2.trans (by simp [hw])) heq
          · rfl
        have htrim : trimBoth cc (acc ++ [a]) = [] := by
          apply trimBoth_of_all_ws
          intro c hc
          rcases List.mem_append.mp hc with hc | hc
          · rw [htwo c (by simp [hc]), hacc c hc]; simp [hw]
          · rw [List.mem_singleton.mp hc, hwa]; simp [hw]
        rw [List.map_cons, List.filter_cons, if_neg (by simp [htrim])]
        rw [ih2, if_pos hwb2, if_neg hw, runsSpine, if_pos hwb2]
        simp

/-- On a two-class string, `unicode_words_and_syms` computes the word-run
spine. -/
theorem wordsAndSyms_two (cc : CharClass) (s : List Char)
    (htwo : ∀ c ∈ s, cc.isWs c = !cc.isWord c) :
    wordsAndSyms cc s = runsSpine cc s := by
  cases s with
  | nil => rw [wordsAndSyms, unicodeWordBoundaries, runsSpine]; rfl
  | cons c s =>
    rw [wordsAndSyms, unicodeWordBoundaries,
      boundariesAux_two cc s c [] (by simpa using htwo) (by intro x hx; cases hx)]
    rw [runsSpine]
    by_cases hw : cc.isWord c
    · rw [if_pos hw, if_pos hw]; simp
    · rw [if_neg hw, if_neg hw]

/-- The token projection of the indexed tokenizer agrees with the plain
tokenizer (spec §8, "tokenization determinism"); used to transfer claim
C1 to the tokenization the search actually uses. -/
theorem hayTokens_eq_wordsAndSyms (cc : CharClass) (s : List Char) :
    hayTokens cc s = wordsAndSyms cc s := by
  rw [hayTokens, tokensWithOffsets, wordsAndSyms]
  suffices H : ∀ (off : Nat) (chunks : List (List Char)),
      (((indicesInnerAux off chunks).map (trimIdx cc)).filter
        (fun p => !p.2.isEmpty)).map (fun p => p.2) =
      ((chunks.map (trimBoth cc)).filter (fun t => !t.isEmpty)) by
    exact H 0 _
  intro off chunks
  induction chunks generalizing off with
  | nil => rfl
  | cons ch rest ih =>
    rw [show indicesInnerAux off (ch :: rest) =
      (off, ch) :: indicesInnerAux ((off + ch.length) % U32) rest from rfl]
    rw [List.map_cons, List.map_cons, List.filter_cons, List.filter_cons]
    have hsnd : (trimIdx cc (off, ch)).2 = trimBoth cc ch := rfl
    by_cases he : (trimBoth cc ch).isEmpty
    · rw [if_neg (by simp [hsnd, he]), if_neg (by simp [he])]
      exact ih _
    · rw [if_pos (by simp [hsnd, he]), if_pos (by simp [he]), List.map_cons, hsnd,
        ih _]

/-- Characters of a word run are word characters of the source string,
and runs are nonempty. -/
theorem runsSpine_mem (cc : CharClass) :
    ∀ (s : List Char) (r : List Char), r ∈ runsSpine cc s →
      r ≠ [] ∧ ∀ c ∈ r, c ∈ s ∧ cc.isWord c = true := by
  have H : ∀ (n : Nat) (s : List Char), s.length ≤ n → ∀ r, r ∈ runsSpine cc s →
      r ≠ [] ∧ ∀ c ∈ r, c ∈ s ∧ cc.isWord c = true := by
    intro n
    induction n with
    | zero =>
      intro s hs r hr
      rw [List.length_eq_zero.mp (Nat.le_zero.mp hs), runsSpine] at hr
      cases hr
    | succ n ih =>
      intro s hs r hr
      match s with
      | [] => rw [runsSpine] at hr; cases hr
      | c :: s =>
        by_cases hc : cc.isWord c
        · rw [runsSpine, if_pos hc] at hr
          rcases List.mem_cons.mp hr with hr | hr
          · subst hr
            refine ⟨by simp, ?_⟩
            intro d hd
            rcases List.mem_cons.mp hd with hd | hd
            · subst hd; exact ⟨by simp, hc⟩
            · exact ⟨by simp [(s.takeWhile_sublist cc.isWord).subset hd],
                List.mem_takeWhile_imp hd⟩
          · have hle : (s.dropWhile cc.isWord).length ≤ n :=
              le_trans (s.dropWhile_sublist cc.isWord).length_le
                (Nat.le_of_succ_le_succ hs)
            obtain ⟨hne, hmem⟩ := ih _ hle r hr
            exact ⟨hne, fun d hd => ⟨by
              simp [(s.dropWhile_sublist cc.isWord).subset (hmem d hd).1],
              (hmem d hd).2⟩⟩
        · rw [runsSpine, if_neg hc] at hr
          obtain ⟨hne, hmem⟩ := ih s (Nat.le_of_succ_le_succ hs) r hr
          exact ⟨hne, fun d hd => ⟨by simp [(hmem d hd).1], (hmem d hd).2⟩⟩
  exact fun s => H s.length s le_rfl

/-- Claim C1, counterexample: the pattern `"foo,bar"` tokenizes at
automaton-build time (external `unicode_words`, which drops
punctuation-only segments) to `["foo", "bar"]`, while the identical text
in a haystack tokenizes at search time
(`unicode_words_and_syms_indices`) to `["foo", ",", "bar"]` — the two
tokenizations are not the same. -/
theorem c1_counterexample :
    unicodeWordsModel asciiCC "foo,bar".toList = ["foo".toList, "bar".toList] ∧
    hayTokens asciiCC "foo,bar".toList =
      ["foo".toList, ",".toList, "bar".toList] ∧
    unicodeWordsModel asciiCC "foo,bar".toList ≠ hayTokens asciiCC "foo,bar".toList := by
  refine ⟨by rfl, by rfl, by decide⟩

/-- Claim C1, amended: build-time pattern tokenization and search-time
haystack tokenization agree on strings in which every character is
either a word character that is alphanumeric (so not `_`-only runs) or
a whitespace character — in particular on all patterns made of
alphanumeric words separated by whitespace.  (They disagree on patterns
containing punctuation or symbol runs, see the counterexample, and on
word runs made only of underscores, which `unicode_words` drops.) -/
theorem c1_pattern_tokenization_agrees_on_word_ws (cc : CharClass)
    (s : List Char)
    (h : ∀ c ∈ s, (cc.isWord c = true ∧ cc.isWs c = false ∧ cc.isAlnum c = true) ∨
         (cc.isWord c = false ∧ cc.isWs c = true)) :
    unicodeWordsModel cc s = hayTokens cc s := by
  have htwo : ∀ c ∈ s, cc.isWs c = !cc.isWord c := by
    intro c hc
    rcases h c hc with ⟨h1, h2, _⟩ | ⟨h1, h2⟩ <;> simp [h1, h2]
  rw [hayTokens_eq_wordsAndSyms, wordsAndSyms_two cc s htwo, unicodeWordsModel,
    wordRuns_eq_runsSpine]
  apply List.filter_eq_self.mpr
  intro r hr
  obtain ⟨hne, hmem⟩ := runsSpine_mem cc s r hr
  match r, hne with
  | c :: r, _ =>
    have hc := hmem c (by simp)
    rcases h c hc.1 with ⟨_, _, h3⟩ | ⟨h1, _⟩
    · simp [List.any_cons, h3]
    · rw [hc.2] at h1; cases h1

/-- Witness for the amended claim C1 at the concrete pattern
`"lol lol"`. -/
theorem c1_pattern_tokenization_agrees_on_word_ws_witness :
    (∀ c ∈ "lol lol".toList,
      (asciiCC.isWord c = true ∧ asciiCC.isWs c = false ∧ asciiCC.isAlnum c = true) ∨
      (asciiCC.isWord c = false ∧ asciiCC.isWs c = true)) ∧
    unicodeWordsModel asciiCC "lol lol".toList = hayTokens asciiCC "lol lol".toList :=
  ⟨by decide, c1_pattern_tokenization_agrees_on_word_ws asciiCC "lol lol".toList
    (by decide)⟩

/-! ## Trie structure: paths and well-formedness -/

/-- Follow a token word through the goto function from state `u`
(`transNextState`, with `0` read as "no transition"). -/
def follow (sts : List ACState) : Nat → List Tok → Option Nat
  | u, [] => some u
  | u, t :: w =>
    let v := transNextState (getState sts u).trans t
    if v = 0 then none else follow sts v w

/-- Well-formedness of the goto trie produced by `build_trie`:
states `0` and `1` are reserved, transition targets are fresh states
(so edges strictly increase state ids and every state other than the
start has exactly one incoming edge), transition keys are distinct per
state, every state is reachable, and all failure links still hold their
initial value (the start state `1`). -/
structure TrieWF (sts : List ACState) : Prop where
  len2 : 2 ≤ sts.length
  tgt : ∀ u, ∀ p ∈ (getState sts u).trans, 2 ≤ p.2 ∧ p.2 < sts.length ∧ u < p.2
  keys : ∀ u, (getState sts u).trans.Pairwise (fun p q => p.1 ≠ q.1)
  uniq : ∀ u1 u2 p1 p2, p1 ∈ (getState sts u1).trans → p2 ∈ (getState sts u2).trans →
    u1 < sts.length → u2 < sts.length → p1.2 = p2.2 → u1 = u2 ∧ p1 = p2
  reach : ∀ v, 2 ≤ v → v < sts.length →
    ∃ u p, p ∈ (getState sts u).trans ∧ u < sts.length ∧ p.2 = v
  zero : getState sts 0 = ⟨[], 1, []⟩
  fails : ∀ v, (getState sts v).fail = 1

/-- A non-sentinel `transNextState` result is a transition of the list. -/
theorem transNextState_mem (ts : List (Tok × Nat)) (t : Tok) (h : transNextState ts t ≠ 0) :
    (t, transNextState ts t) ∈ ts := by
  induction ts with
  | nil => rw [transNextState] at h; cases h rfl
  | cons p rest ih =>
    match p with
    | (b, id) =>
      rw [transNextState] at h ⊢
      by_cases hb : b = t
      · rw [if_pos hb] at h ⊢; subst hb; exact List.mem_cons_self _ _
      · rw [if_neg hb] at h ⊢; exact List.mem_cons_of_mem _ (ih h)

/-- With pairwise-distinct keys and no sentinel targets, membership
determines the lookup. -/
theorem mem_transNextState (ts : List (Tok × Nat)) (t : Tok) (v : Nat)
    (hk : ts.Pairwise (fun p q => p.1 ≠ q.1)) (hmem : (t, v) ∈ ts) :
    transNextState ts t = v := by
  induction ts with
  | nil => cases hmem
  | cons p rest ih =>
    match p with
    | (b, id) =>
      rw [transNextState]
      rcases List.mem_cons.mp hmem with hp | hp
      · cases hp; rw [if_pos rfl]
      · have hb : b ≠ t := (List.pairwise_cons.mp hk).1 (t, v) hp
        rw [if_neg hb]
        exact ih (List.pairwise_cons.mp hk).2 hp

/-- Inserting a key absent from the list: the members are the old
members plus the new pair. -/
theorem setNextState_mem (ts : List (Tok × Nat)) (b : Tok) (id : Nat)
    (hb : ∀ p ∈ ts, p.1 ≠ b) :
    ∀ q, q ∈ setNextState ts b id ↔ q ∈ ts ∨ q = (b, id) := by
  induction ts with
  | nil => intro q; rw [setNextState]; simp
  | cons p rest ih =>
    intro q
    match p with
    | (c, cid) =>
      rw [setNextState]
      by_cases hlt : tokLt b c
      · rw [if_pos hlt]; simp; tauto
      · rw [if_neg hlt, if_neg (fun hc => hb (c, cid) (by simp) (by simp [hc]))]
        have := ih (fun p hp => hb p (by simp [hp]))
        simp only [List.mem_cons] at this ⊢
        rw [this q]
        tauto

/-- Inserting a fresh key does not change lookups of other keys, and
the fresh key maps to the inserted target. -/
theorem transNextState_setNextState (ts : List (Tok × Nat)) (b : Tok) (id : Nat)
    (hb : ∀ p ∈ ts, p.1 ≠ b) (t : Tok) :
    transNextState (setNextState ts b id) t =
      if t = b then id else transNextState ts t := by
  induction ts with
  | nil =>
    rw [setNextState, transNextState, transNextState]
    by_cases ht : t = b
    · rw [if_pos ht.symm, if_pos ht]
    · rw [if_neg (fun h => ht h.symm), if_neg ht, transNextState]
  | cons p rest ih =>
    obtain ⟨c, cid⟩ := p
    rw [setNextState]
    by_cases hlt : tokLt b c
    · rw [if_pos hlt, transNextState]
      by_cases ht : t = b
      · simp [ht]
      · rw [if_neg (fun h => ht h.symm), if_neg ht]
    · have hcb : ¬c = b := fun hc => hb (c, cid) (by simp) (by simp [hc])
      rw [if_neg hlt, if_neg hcb, transNextState, transNextState]
      by_cases hc : c = t
      · subst hc
        rw [if_pos rfl, if_pos rfl, if_neg (fun h => hcb h)]
      · rw [if_neg hc, if_neg hc, ih (fun p hp => hb p (by simp [hp]))]

/-- Following a concatenation is sequential composition. -/
theorem follow_append (sts : List ACState) (w1 : List Tok) :
    ∀ (u : Nat) (w2 : List Tok),
      follow sts u (w1 ++ w2) = (follow sts u w1).bind (fun x => follow sts x w2) := by
  induction w1 with
  | nil => intro u w2; rw [follow]; rfl
  | cons t w1 ih =>
    intro u w2
    rw [List.cons_append, follow, follow]
    by_cases h0 : transNextState (getState sts u).trans t = 0
    · rw [if_pos h0, if_pos h0]; rfl
    · rw [if_neg h0, if_neg h0, ih]

/-- Reachable states are valid non-sentinel states; away from the
source they are at least 2. -/
theorem follow_tgt (sts : List ACState) (wf : TrieWF sts) :
    ∀ (w : List Tok) (u v : Nat), u ≠ 0 → u < sts.length →
      follow sts u w = some v →
      v ≠ 0 ∧ v < sts.length ∧ (w ≠ [] → 2 ≤ v) := by
  intro w
  induction w with
  | nil =>
    intro u v hu0 hun h
    rw [follow] at h
    cases h
    exact ⟨hu0, hun, fun hne => absurd rfl hne⟩
  | cons t w ih =>
    intro u v hu0 hun h
    rw [follow] at h
    by_cases h0 : transNextState (getState sts u).trans t = 0
    · rw [if_pos h0] at h; cases h
    · rw [if_neg h0] at h
      have hmem := transNextState_mem _ t h0
      obtain ⟨h2, hlt, _⟩ := wf.tgt u _ hmem
      obtain ⟨hv0, hvn, _⟩ := ih _ v (by omega) hlt h
      have h2v : 2 ≤ v ∨ v = transNextState (getState sts u).trans t := by
        cases w with
        | nil => right; rw [follow] at h; cases h; rfl
        | cons t2 w2 =>
          left
          rcases ih _ v (by omega) hlt h with ⟨_, _, hge⟩
          exact hge (by simp)
      refine ⟨hv0, hvn, fun _ => ?_⟩
      rcases h2v with h2v | h2v
      · exact h2v
      · rw [h2v]; exact h2

/-- No nonempty path ends at the start state (targets are at least 2). -/
theorem follow_to_start (sts : List ACState) (wf : TrieWF sts) :
    ∀ (w : List Tok) (u : Nat), u ≠ 0 → u < sts.length →
      follow sts u w = some 1 → w = [] ∧ u = 1 := by
  intro w
  induction w with
  | nil => intro u _ _ h; rw [follow] at h; cases h; exact ⟨rfl, rfl⟩
  | cons t w ih =>
    intro u hu0 hun h
    rw [follow] at h
    by_cases h0 : transNextState (getState sts u).trans t = 0
    · rw [if_pos h0] at h; cases h
    · rw [if_neg h0] at h
      have hmem := transNextState_mem _ t h0
      obtain ⟨h2, hlt, _⟩ := wf.tgt u _ hmem
      obtain ⟨hnil, heq⟩ := ih _ (by omega) hlt h
      omega

/-- Paths from the start state are unique: the trie is a tree. -/
theorem follow_inj (sts : List ACState) (wf : TrieWF sts) :
    ∀ (n : Nat) (w1 w2 : List Tok) (v : Nat), w1.length ≤ n →
      follow sts 1 w1 = some v → follow sts 1 w2 = some v → w1 = w2 := by
  have hlen2 := wf.len2
  intro n
  induction n with
  | zero =>
    intro w1 w2 v h1len h1 h2
    rw [List.length_eq_zero.mp (Nat.le_zero.mp h1len)] at h1 ⊢
    rw [follow] at h1
    cases h1
    exact (follow_to_start sts wf w2 1 (by omega) (by omega) h2).1.symm
  | succ n ih =>
    intro w1 w2 v h1len h1 h2
    rcases List.eq_nil_or_concat w1 with hw1 | ⟨w1h, t1, hw1⟩
    · subst hw1
      rw [follow] at h1
      cases h1
      exact (follow_to_start sts wf w2 1 (by omega) (by omega) h2).1.symm
    · rcases List.eq_nil_or_concat w2 with hw2 | ⟨w2h, t2, hw2⟩
      · subst hw2
        rw [follow] at h2
        cases h2
        obtain ⟨hnil, _⟩ := follow_to_start sts wf _ 1 (by omega) (by omega) h1
        exact hnil
      · subst hw1; subst hw2
        rw [List.concat_eq_append] at h1 ⊢
        rw [List.concat_eq_append] at h2 ⊢
        rw [follow_append] at h1 h2
        match hu1 : follow sts 1 w1h with
        | none => rw [hu1] at h1; cases h1
        | some u1 =>
          match hu2 : follow sts 1 w2h with
          | none => rw [hu2] at h2; cases h2
          | some u2 =>
            rw [hu1] at h1; rw [hu2] at h2
            simp only [Option.some_bind] at h1 h2
            rw [follow] at h1 h2
            by_cases e1 : transNextState (getState sts u1).trans t1 = 0
            · rw [if_pos e1] at h1; cases h1
            · by_cases e2 : transNextState (getState sts u2).trans t2 = 0
              · rw [if_pos e2] at h2; cases h2
              · rw [if_neg e1, follow] at h1
                rw [if_neg e2, follow] at h2
                have hv1 := Option.some.inj h1
                have hv2 := Option.some.inj h2
                have hm1 := transNextState_mem _ t1 e1
                have hm2 := transNextState_mem _ t2 e2
                have hu1n := follow_tgt sts wf w1h 1 u1 (by omega) (by omega) hu1
                have hu2n := follow_tgt sts wf w2h 1 u2 (by omega) (by omega) hu2
                have heq := wf.uniq u1 u2 _ _ hm1 hm2 hu1n.2.1 hu2n.2.1
                  (hv1.trans hv2.symm)
                obtain ⟨rfl, hpq⟩ := heq
                have ht : t1 = t2 := congrArg Prod.fst hpq
                subst ht
                have : w1h = w2h := by
                  apply ih w1h w2h u1 _ hu1 hu2
                  rw [List.concat_eq_append, List.length_append] at h1len
                  simp at h1len
                  omega
                rw [this]

/-- Pairwise key distinctness survives inserting a fresh key. -/
theorem setNextState_pairwise (ts : List (Tok × Nat)) (b : Tok) (id : Nat)
    (hb : ∀ p ∈ ts, p.1 ≠ b) (hk : ts.Pairwise (fun p q => p.1 ≠ q.1)) :
    (setNextState ts b id).Pairwise (fun p q => p.1 ≠ q.1) := by
  induction ts with
  | nil => rw [setNextState]; simp
  | cons p rest ih =>
    obtain ⟨c, cid⟩ := p
    rw [setNextState]
    obtain ⟨hhead, htail⟩ := List.pairwise_cons.mp hk
    by_cases hlt : tokLt b c
    · rw [if_pos hlt]
      refine List.pairwise_cons.mpr ⟨?_, hk⟩
      intro q hq
      rcases List.mem_cons.mp hq with hq | hq
      · subst hq; exact fun h => hb (c, cid) (by simp) h.symm
      · exact fun h => hb q (by simp [hq]) h.symm
    · rw [if_neg hlt, if_neg (fun hc => hb (c, cid) (by simp) (by simp [hc]))]
      refine List.pairwise_cons.mpr ⟨?_, ih (fun p hp => hb p (by simp [hp])) htail⟩
      intro q hq
      rw [setNextState_mem rest b id (fun p hp => hb p (by simp [hp])) q] at hq
      rcases hq with hq | hq
      · exact hhead q hq
      · subst hq; exact fun h => hb (c, cid) (by simp) h

/-- A `0` lookup on a sentinel-free list means the key is absent. -/
theorem absent_of_transNextState_zero (ts : List (Tok × Nat)) (b : Tok)
    (h0 : transNextState ts b = 0) (htgt : ∀ p ∈ ts, p.2 ≠ 0) :
    ∀ p ∈ ts, p.1 ≠ b := by
  induction ts with
  | nil => intro p hp; cases hp
  | cons p rest ih =>
    obtain ⟨c, cid⟩ := p
    rw [transNextState] at h0
    intro q hq
    by_cases hc : c = b
    · rw [if_pos hc] at h0
      exact absurd h0 (htgt (c, cid) (by simp))
    · rw [if_neg hc] at h0
      rcases List.mem_cons.mp hq with hq | hq
      · subst hq; exact hc
      · exact ih h0 (fun p hp => htgt p (by simp [hp])) q hq

/-- Updating a state changes only that slot. -/
theorem getState_set_self (sts : List ACState) (i : Nat) (st : ACState)
    (h : i < sts.length) : getState (sts.set i st) i = st := by
  simp [getState, List.getD, List.getElem?_set_self, h]

theorem getState_set_ne (sts : List ACState) (i j : Nat) (st : ACState)
    (h : i ≠ j) : getState (sts.set i st) j = getState sts j := by
  simp [getState, List.getD, List.getElem?_set_ne h]

theorem getState_append_lt (sts : List ACState) (st : ACState) (u : Nat)
    (h : u < sts.length) : getState (sts ++ [st]) u = getState sts u := by
  simp [getState, List.getD, List.getElem?_append, h]

theorem getState_append_self (sts : List ACState) (st : ACState) :
    getState (sts ++ [st]) sts.length = st := by
  simp [getState, List.getD, List.getElem?_append_right, le_refl]

theorem getState_ge (sts : List ACState) (u : Nat) (h : sts.length ≤ u) :
    getState sts u = freshState := by
  simp [getState, List.getD, List.getElem?_eq_none h]

/-- Soundness of one trie-extension step (`build_trie`'s inner loop
body): well-formedness is preserved, outputs are untouched, established
paths survive, and the step's token now leads from `prev` to the
returned state. -/
theorem trieStep_sound (sts : List ACState) (prev : Nat) (b : Tok)
    (out : List ACState × Nat) (wf : TrieWF sts) (hp0 : prev ≠ 0)
    (hpn : prev < sts.length) (h : trieStep (sts, prev) b = some out) :
    TrieWF out.1 ∧ sts.length ≤ out.1.length ∧ out.2 ≠ 0 ∧ out.2 < out.1.length ∧
    (∀ u, (getState out.1 u).outputs = (getState sts u).outputs) ∧
    (∀ u w0 r, follow sts u w0 = some r → follow out.1 u w0 = some r) ∧
    transNextState (getState out.1 prev).trans b = out.2 ∧
    (∀ u w0 v, follow out.1 u w0 = some v → follow sts u w0 = some v ∨
      ∃ w1, w0 = w1 ++ [b] ∧ follow sts u w1 = some prev ∧ v = out.2) := by
  rw [trieStep] at h
  simp only [] at h
  by_cases hnx : transNextState (getState sts prev).trans b ≠ 0
  · rw [if_pos hnx] at h
    cases h
    have hmem := transNextState_mem _ b hnx
    obtain ⟨h2, hlt, _⟩ := wf.tgt prev _ hmem
    exact ⟨wf, le_refl _, by omega, hlt, fun u => rfl, fun u w0 r hr => hr, rfl,
      fun u w0 v hv => Or.inl hv⟩
  · rw [if_neg hnx] at h
    push_neg at hnx
    rw [addState] at h
    by_cases hover : sts.length > USIZE_MAX
    · rw [if_pos hover] at h; cases h
    · rw [if_neg hover] at h
      simp only [] at h
      cases h
      set id := sts.length with hid
      set sts2 := sts ++ [freshState] with hsts2
      set stp := getState sts2 prev with hstp
      set sts3 := sts2.set prev { stp with trans := setNextState stp.trans b id }
        with hsts3
      have hlen2 : sts2.length = sts.length + 1 := by simp [hsts2]
      have hlen3 : sts3.length = sts.length + 1 := by simp [hsts3, hlen2]
      have hstp_eq : stp = getState sts prev := by
        rw [hstp, hsts2, getState_append_lt sts _ prev hpn]
      have hpid : prev ≠ id := by omega
      have htgt0 : ∀ p ∈ (getState sts prev).trans, p.2 ≠ 0 := by
        intro p hp
        obtain ⟨h2, _, _⟩ := wf.tgt prev p hp
        omega
      have hb : ∀ p ∈ (getState sts prev).trans, p.1 ≠ b :=
        absent_of_transNextState_zero _ b hnx htgt0
      -- state lookups in the updated vector
      have hg_prev : getState sts3 prev =
          { stp with trans := setNextState stp.trans b id } := by
        rw [hsts3]
        exact getState_set_self sts2 prev _ (by omega)
      have hg_other : ∀ u, u ≠ prev → u ≠ id → getState sts3 u = getState sts u := by
        intro u hup huid
        rw [hsts3, getState_set_ne _ _ _ _ (fun hx => hup hx.symm)]
        by_cases hu : u < sts.length
        · rw [hsts2, getState_append_lt sts _ u hu]
        · rw [hsts2, getState_ge _ u (by simp; omega), getState_ge sts u (by omega)]
      have hg_id : getState sts3 id = freshState := by
        rw [hsts3, getState_set_ne sts2 prev id _ hpid, hsts2, hid,
          getState_append_self]
      -- transition lookups in the updated vector
      have htrans3 : ∀ u t, u ≠ prev →
          transNextState (getState sts3 u).trans t =
            transNextState (getState sts u).trans t := by
        intro u t hup
        by_cases huid : u = id
        · rw [huid, hg_id, hid, getState_ge sts _ (le_refl _)]
        · rw [hg_other u hup huid]
      have htransp : ∀ t, transNextState (getState sts3 prev).trans t =
          if t = b then id else transNextState (getState sts prev).trans t := by
        intro t
        rw [hg_prev]
        simp only []
        rw [hstp_eq, transNextState_setNextState _ b id hb t]
      -- membership in the updated transition lists
      have hmem3 : ∀ u p, p ∈ (getState sts3 u).trans ↔
          (p ∈ (getState sts u).trans ∨ (u = prev ∧ p = (b, id))) := by
        intro u p
        by_cases hup : u = prev
        · rw [hup, hg_prev]
          simp only []
          rw [hstp_eq, setNextState_mem _ b id hb p]
          tauto
        · by_cases huid : u = id
          · rw [huid, hg_id, hid, getState_ge sts _ (le_refl _)]
            constructor
            · exact fun h => Or.inl h
            · rintro (h | ⟨h1, h2⟩)
              · exact h
              · exfalso; omega
          · rw [hg_other u hup huid]
            tauto
      have hwf3 : TrieWF sts3 := by
        refine ⟨by omega, ?_, ?_, ?_, ?_, ?_, ?_⟩
        · intro u p hp
          rcases (hmem3 u p).mp hp with hp | ⟨rfl, rfl⟩
          · obtain ⟨ha, hb2, hc⟩ := wf.tgt u p hp
            exact ⟨ha, by omega, hc⟩
          · exact ⟨by omega, by omega, by omega⟩
        · intro u
          by_cases hup : u = prev
          · rw [hup, hg_prev]
            simp only []
            rw [hstp_eq]
            exact setNextState_pairwise _ b id hb (wf.keys prev)
          · by_cases huid : u = id
            · rw [huid, hg_id]; simp [freshState]
            · rw [hg_other u hup huid]; exact wf.keys u
        · intro u1 u2 p1 p2 hp1 hp2 hu1 hu2 hpeq
          rcases (hmem3 u1 p1).mp hp1 with hq1 | ⟨he1, hf1⟩
          · rcases (hmem3 u2 p2).mp hp2 with hq2 | ⟨he2, hf2⟩
            · have hu1b : u1 < sts.length := by
                by_contra hc
                rw [getState_ge sts u1 (by omega)] at hq1
                cases hq1
              have hu2b : u2 < sts.length := by
                by_contra hc
                rw [getState_ge sts u2 (by omega)] at hq2
                cases hq2
              exact wf.uniq u1 u2 p1 p2 hq1 hq2 hu1b hu2b hpeq
            · obtain ⟨_, h1b, _⟩ := wf.tgt u1 p1 hq1
              rw [hf2] at hpeq
              simp only [] at hpeq
              omega
          · rcases (hmem3 u2 p2).mp hp2 with hq2 | ⟨he2, hf2⟩
            · obtain ⟨_, h2b, _⟩ := wf.tgt u2 p2 hq2
              rw [hf1] at hpeq
              simp only [] at hpeq
              omega
            · rw [he1, he2, hf1, hf2]
              exact ⟨rfl, rfl⟩
        · intro v h2v hvlt
          by_cases hvid : v = id
          · exact ⟨prev, (b, id), (hmem3 prev (b, id)).mpr (Or.inr ⟨rfl, rfl⟩),
              by omega, hvid.symm⟩
          · obtain ⟨u, p, hp, hu, hpv⟩ := wf.reach v h2v (by omega)
            exact ⟨u, p, (hmem3 u p).mpr (Or.inl hp), by omega, hpv⟩
        · have h0p : (0 : Nat) ≠ prev := fun hx => hp0 hx.symm
          have h0id : (0 : Nat) ≠ id := by omega
          rw [hg_other 0 h0p h0id, wf.zero]
        · intro v
          by_cases hvp : v = prev
          · rw [hvp, hg_prev]
            simp only []
            rw [hstp_eq]
            exact wf.fails prev
          · by_cases hvid : v = id
            · rw [hvid, hg_id]; rfl
            · rw [hg_other v hvp hvid]; exact wf.fails v
      have houts : ∀ u, (getState sts3 u).outputs = (getState sts u).outputs := by
        intro u
        by_cases hup : u = prev
        · rw [hup, hg_prev]
          simp only []
          rw [hstp_eq]
        · by_cases huid : u = id
          · rw [huid, hg_id, hid, getState_ge sts _ (le_refl _)]
          · rw [hg_other u hup huid]
      have hfollow : ∀ u w0 r, follow sts u w0 = some r → follow sts3 u w0 = some r := by
        intro u w0
        induction w0 generalizing u with
        | nil => intro r hr; rw [follow] at hr ⊢; exact hr
        | cons t w0 ih =>
          intro r hr
          rw [follow] at hr ⊢
          by_cases h0 : transNextState (getState sts u).trans t = 0
          · rw [if_pos h0] at hr; cases hr
          · rw [if_neg h0] at hr
            have ht3 : transNextState (getState sts3 u).trans t =
                transNextState (getState sts u).trans t := by
              by_cases hup : u = prev
              · rw [hup, htransp t]
                by_cases htb : t = b
                · rw [hup, htb] at h0; exact absurd hnx h0
                · rw [if_neg htb]
              · exact htrans3 u t hup
            rw [ht3, if_neg h0]
            exact ih _ _ hr
      have hback : ∀ w0 u v, follow sts3 u w0 = some v → follow sts u w0 = some v ∨
          ∃ w1, w0 = w1 ++ [b] ∧ follow sts u w1 = some prev ∧ v = id := by
        intro w0
        induction w0 with
        | nil =>
          intro u v hv
          rw [follow] at hv
          exact Or.inl (by rw [follow]; exact hv)
        | cons t w0 ihw =>
          intro u v hv
          rw [follow] at hv
          by_cases hnew : u = prev ∧ t = b
          · obtain ⟨rfl, rfl⟩ := hnew
            rw [htransp t, if_pos rfl] at hv
            rw [if_neg (by omega)] at hv
            cases w0 with
            | nil =>
              rw [follow] at hv
              refine Or.inr ⟨[], by simp, ?_, (Option.some.inj hv).symm⟩
              rw [follow]
            | cons t2 w2 =>
              rw [follow, hg_id] at hv
              rw [show transNextState freshState.trans t2 = 0 from rfl] at hv
              rw [if_pos rfl] at hv
              cases hv
          · have hsame : transNextState (getState sts3 u).trans t =
                transNextState (getState sts u).trans t := by
              by_cases hup : u = prev
              · rw [hup, htransp t, if_neg (fun htb => hnew ⟨hup, htb⟩)]
              · exact htrans3 u t hup
            rw [hsame] at hv
            by_cases h0 : transNextState (getState sts u).trans t = 0
            · rw [if_pos h0] at hv; cases hv
            · rw [if_neg h0] at hv
              rcases ihw _ v hv with hold | ⟨w1, hw1, hw2, hw3⟩
              · exact Or.inl (by rw [follow, if_neg h0]; exact hold)
              · exact Or.inr ⟨t :: w1, by rw [hw1]; rfl,
                  by rw [follow, if_neg h0]; exact hw2, hw3⟩
      refine ⟨hwf3, by show sts.length ≤ sts3.length; omega,
        by show id ≠ 0; omega, by show id < sts3.length; omega, houts, hfollow, ?_, ?_⟩
      · show transNextState (getState sts3 prev).trans b = id
        rw [htransp b, if_pos rfl]
      · intro u w0 v
        exact hback w0 u v

/-- Soundness of inserting a whole token word (the inner loop of
`build_trie`): well-formedness and outputs are preserved, established
paths survive, the word now leads from `prev` to the returned state,
and every path of the extended trie is an old path or the path of
`prev` extended by a prefix of the inserted word. -/
theorem trieInsertTokens_sound :
    ∀ (w : List Tok) (sts : List ACState) (prev : Nat) (out : List ACState × Nat),
      TrieWF sts → prev ≠ 0 → prev < sts.length →
      trieInsertTokens sts prev w = some out →
      TrieWF out.1 ∧ sts.length ≤ out.1.length ∧ out.2 ≠ 0 ∧ out.2 < out.1.length ∧
      (∀ u, (getState out.1 u).outputs = (getState sts u).outputs) ∧
      (∀ u w0 r, follow sts u w0 = some r → follow out.1 u w0 = some r) ∧
      follow out.1 prev w = some out.2 ∧
      (∀ wp, follow sts 1 wp = some prev → ∀ w0 v, follow out.1 1 w0 = some v →
        (follow sts 1 w0).isSome ∨ ∃ w2, w2 ≠ [] ∧ w2.IsPrefix w ∧ w0 = wp ++ w2) := by
  intro w
  induction w with
  | nil =>
    intro sts prev out wf hp0 hpn h
    rw [trieInsertTokens] at h
    cases h
    exact ⟨wf, le_refl _, hp0, hpn, fun u => rfl, fun u w0 r hr => hr, rfl,
      fun wp hwp w0 v hv => Or.inl (by rw [hv]; rfl)⟩
  | cons b bs ih =>
    intro sts prev out wf hp0 hpn h
    rw [trieInsertTokens] at h
    match hstep : trieStep (sts, prev) b with
    | none => rw [hstep] at h; cases h
    | some (sts2, prev2) =>
      rw [hstep] at h
      obtain ⟨wf2, hle2, hp20, hp2n, houts2, hfol2, htr2, hback2⟩ :=
        trieStep_sound sts prev b (sts2, prev2) wf hp0 hpn hstep
      have hle2b : sts.length ≤ sts2.length := hle2
      have hp20b : prev2 ≠ 0 := hp20
      have hp2nb : prev2 < sts2.length := hp2n
      obtain ⟨wf3, hle3, hp30, hp3n, houts3, hfol3, hfol_rest, hback3⟩ :=
        ih sts2 prev2 out wf2 hp20b hp2nb h
      have hstep2 : follow sts2 prev [b] = some prev2 := by
        rw [follow, if_neg (by rw [htr2]; exact hp20b), htr2, follow]
      refine ⟨wf3, le_trans hle2b hle3, hp30, hp3n,
        fun u => (houts3 u).trans (houts2 u),
        fun u w0 r hr => hfol3 u w0 r (hfol2 u w0 r hr), ?_, ?_⟩
      · have hstep3 : follow out.1 prev [b] = some prev2 := hfol3 prev [b] prev2 hstep2
        rw [show b :: bs = [b] ++ bs from rfl, follow_append, hstep3, Option.some_bind]
        exact hfol_rest
      · intro wp hwp w0 v hv
        have hwp2 : follow sts2 1 (wp ++ [b]) = some prev2 := by
          rw [follow_append, hfol2 1 wp prev hwp, Option.some_bind]
          exact hstep2
        rcases hback3 (wp ++ [b]) hwp2 w0 v hv with hs2 | ⟨w2, hw2ne, hw2pre, hw2eq⟩
        · match hv2 : follow sts2 1 w0 with
          | none => rw [hv2] at hs2; cases hs2
          | some v2 =>
            rcases hback2 1 w0 v2 hv2 with hold | ⟨w1, hw1, hw1f, _⟩
            · exact Or.inl (by rw [hold]; rfl)
            · have : w1 = wp := follow_inj sts wf w1.length w1 wp prev le_rfl hw1f hwp
              refine Or.inr ⟨[b], by simp, ⟨bs, rfl⟩, ?_⟩
              rw [hw1, this]
        · refine Or.inr ⟨b :: w2, by simp, ?_, ?_⟩
          · rw [List.cons_prefix_cons]
            exact ⟨rfl, hw2pre⟩
          · rw [hw2eq, List.append_assoc, List.singleton_append]
/-- `follow` only reads transition lists. -/
theorem follow_congr (sts2 sts : List ACState)
    (h : ∀ u, (getState sts2 u).trans = (getState sts u).trans) :
    ∀ (w : List Tok) (u : Nat), follow sts2 u w = follow sts u w := by
  intro w
  induction w with
  | nil => intro u; rw [follow, follow]
  | cons t w ih =>
    intro u
    rw [follow, follow, h u]
    by_cases h0 : transNextState (getState sts u).trans t = 0
    · rw [if_pos h0, if_pos h0]
    · rw [if_neg h0, if_neg h0, ih]

/-- `addMatch` only appends to one state's outputs. -/
theorem addMatch_getState (sts : List ACState) (i : Nat) (pid plen : Nat) :
    (∀ u, u ≠ i → getState (addMatch sts i pid plen) u = getState sts u) ∧
    (i < sts.length → getState (addMatch sts i pid plen) i =
      { getState sts i with outputs := (getState sts i).outputs ++ [(pid, plen)] }) := by
  constructor
  · intro u hu
    rw [addMatch]
    exact getState_set_ne sts i u _ (fun hx => hu hx.symm)
  · intro hi
    rw [addMatch]
    exact getState_set_self sts i _ hi

/-- Trie well-formedness survives `addMatch` at a nonzero state. -/
theorem addMatch_wf (sts : List ACState) (i : Nat) (pid plen : Nat)
    (wf : TrieWF sts) (hi0 : i ≠ 0) : TrieWF (addMatch sts i pid plen) := by
  obtain ⟨hne, hself⟩ := addMatch_getState sts i pid plen
  have hlen : (addMatch sts i pid plen).length = sts.length := by
    rw [addMatch]; simp
  have htr : ∀ u, (getState (addMatch sts i pid plen) u).trans = (getState sts u).trans := by
    intro u
    by_cases hu : u = i
    · subst hu
      by_cases hilen : u < sts.length
      · rw [hself hilen]
      · rw [addMatch, List.set_eq_of_length_le (by omega)]
    · rw [hne u hu]
  have hfl : ∀ u, (getState (addMatch sts i pid plen) u).fail = (getState sts u).fail := by
    intro u
    by_cases hu : u = i
    · subst hu
      by_cases hilen : u < sts.length
      · rw [hself hilen]
      · rw [addMatch, List.set_eq_of_length_le (by omega)]
    · rw [hne u hu]
  have hlen2 := wf.len2
  refine ⟨by omega, ?_, ?_, ?_, ?_, ?_, ?_⟩
  · intro u p hp; rw [htr u] at hp
    obtain ⟨a, b, c⟩ := wf.tgt u p hp
    exact ⟨a, by omega, c⟩
  · intro u; rw [htr u]; exact wf.keys u
  · intro u1 u2 p1 p2 hp1 hp2 hu1 hu2 hpeq
    rw [htr u1] at hp1; rw [htr u2] at hp2
    exact wf.uniq u1 u2 p1 p2 hp1 hp2 (by omega) (by omega) hpeq
  · intro v h2 hv
    obtain ⟨u, p, hp, hu, hpv⟩ := wf.reach v h2 (by omega)
    refine ⟨u, p, ?_, by omega, hpv⟩
    rw [htr u]; exact hp
  · rw [hne 0 (fun hx => hi0 hx.symm)]; exact wf.zero
  · intro v; rw [hfl v]; exact wf.fails v

/-- Soundness of `build_trie`: starting from a well-formed trie whose
outputs all have pattern ids below `pati` and record their state's
depth, inserting the remaining patterns preserves well-formedness,
keeps that output discipline (ids now below `pati + pats.length`),
gives every inserted pattern a terminal state holding its output,
counts the patterns, only appends to outputs, and preserves paths. -/
theorem buildTrie_sound :
    ∀ (pats : List (List Tok)) (pati maxLen cnt : Nat) (sts : List ACState)
      (out : List ACState × Nat × Nat),
      TrieWF sts →
      (∀ v e, e ∈ (getState sts v).outputs →
        ∃ w, follow sts 1 w = some v ∧ e.2 = w.length ∧ e.1 < pati) →
      buildTrie pati maxLen cnt sts pats = some out →
      TrieWF out.1 ∧
      (∀ v e, e ∈ (getState out.1 v).outputs →
        ∃ w, follow out.1 1 w = some v ∧ e.2 = w.length ∧ e.1 < pati + pats.length) ∧
      (∀ j (hj : j < pats.length), ∃ v, follow out.1 1 (pats.get ⟨j, hj⟩) = some v ∧
        (pati + j, (pats.get ⟨j, hj⟩).length) ∈ (getState out.1 v).outputs) ∧
      out.2.2 = cnt + pats.length ∧
      sts.length ≤ out.1.length ∧
      (∀ u, ∃ L, (getState out.1 u).outputs = (getState sts u).outputs ++ L) ∧
      (∀ u w0 r, follow sts u w0 = some r → follow out.1 u w0 = some r) ∧
      (∀ w0 v, follow out.1 1 w0 = some v →
        (follow sts 1 w0).isSome ∨ ∃ p ∈ pats, w0.IsPrefix p) := by
  intro pats
  induction pats with
  | nil =>
    intro pati maxLen cnt sts out wf hown h
    rw [buildTrie] at h
    cases h
    refine ⟨wf, ?_, ?_, by simp, le_refl _, fun u => ⟨[], by simp⟩,
      fun u w0 r hr => hr, fun w0 v hv => Or.inl (by rw [hv]; rfl)⟩
    · intro v e he
      obtain ⟨w, h1, h2, h3⟩ := hown v e he
      exact ⟨w, h1, h2, by simpa using h3⟩
    · intro j hj; cases hj
  | cons pat pats2 ih =>
    intro pati maxLen cnt sts out wf hown h
    rw [buildTrie] at h
    match hins : trieInsertTokens sts 1 pat with
    | none => rw [hins] at h; cases h
    | some (sts2, prev) =>
      rw [hins] at h
      have hlen2 := wf.len2
      obtain ⟨wf2, hle2, hp0, hpn, houts2, hfol2, hfolpat, hpaths2⟩ :=
        trieInsertTokens_sound pat sts 1 (sts2, prev) wf (by omega) (by omega) hins
      have hle2b : sts.length ≤ sts2.length := hle2
      have hpnb : prev < sts2.length := hpn
      set sts3 := addMatch sts2 prev pati pat.length with hsts3
      have wf3 : TrieWF sts3 := addMatch_wf sts2 prev pati pat.length wf2 hp0
      obtain ⟨hne3, hself3⟩ := addMatch_getState sts2 prev pati pat.length
      have hlen3 : sts3.length = sts2.length := by rw [hsts3, addMatch]; simp
      have htr3 : ∀ u, (getState sts3 u).trans = (getState sts2 u).trans := by
        intro u
        by_cases hu : u = prev
        · rw [hu, hself3 hpnb]
        · rw [hne3 u hu]
      have hfol3 : ∀ w0 u, follow sts3 u w0 = follow sts2 u w0 :=
        fun w0 u => follow_congr sts3 sts2 htr3 w0 u
      have hown3 : ∀ v e, e ∈ (getState sts3 v).outputs →
          ∃ w, follow sts3 1 w = some v ∧ e.2 = w.length ∧ e.1 < pati + 1 := by
        intro v e he
        by_cases hv : v = prev
        · rw [hv] at he
          rw [hv]
          rw [hself3 hpnb] at he
          simp only [] at he
          rcases List.mem_append.mp he with he | he
          · rw [houts2 prev] at he
            obtain ⟨w, h1, h2, h3⟩ := hown prev e he
            exact ⟨w, by rw [hfol3]; exact hfol2 1 w prev h1, h2, by omega⟩
          · rw [List.mem_singleton.mp he]
            exact ⟨pat, by rw [hfol3]; exact hfolpat, rfl, by omega⟩
        · rw [hne3 v hv, houts2 v] at he
          obtain ⟨w, h1, h2, h3⟩ := hown v e he
          exact ⟨w, by rw [hfol3]; exact hfol2 1 w v h1, h2, by omega⟩
      obtain ⟨wfO, hownO, htermO, hcntO, hleO, happO, hfolO, hpathsO⟩ :=
        ih (pati + 1) (max maxLen pat.length) (cnt + 1) sts3 out wf3 hown3 h
      refine ⟨wfO, ?_, ?_, ?_, ?_, ?_, ?_, ?_⟩
      · intro v e he
        obtain ⟨w, h1, h2, h3⟩ := hownO v e he
        exact ⟨w, h1, h2, by simp; omega⟩
      · intro j hj
        cases j with
        | zero =>
          refine ⟨prev, ?_, ?_⟩
          · show follow out.1 1 pat = some prev
            apply hfolO
            rw [hfol3]
            exact hfolpat
          · obtain ⟨L, hL⟩ := happO prev
            rw [hL, hself3 hpnb]
            simp
        | succ j =>
          obtain ⟨v, hva, hvb⟩ := htermO j (by simpa using hj)
          refine ⟨v, ?_, ?_⟩
          · show follow out.1 1 (pats2.get ⟨j, by simpa using hj⟩) = some v
            exact hva
          · show (pati + (j + 1), (pats2.get ⟨j, by simpa using hj⟩).length) ∈ _
            have : pati + (j + 1) = pati + 1 + j := by omega
            rw [this]
            exact hvb
      · rw [hcntO]; simp; omega
      · have h1 : sts.length ≤ sts3.length := by omega
        have h2 : sts3.length ≤ out.1.length := hleO
        omega
      · intro u
        obtain ⟨L, hL⟩ := happO u
        by_cases hu : u = prev
        · rw [hu] at hL
          rw [hu, hL, hself3 hpnb]
          simp only []
          rw [houts2 prev]
          exact ⟨[(pati, pat.length)] ++ L, by simp⟩
        · rw [hL, hne3 u hu, houts2 u]
          exact ⟨L, rfl⟩
      · intro u w0 r hr
        apply hfolO
        rw [hfol3]
        exact hfol2 u w0 r hr
      · intro w0 v hv
        rcases hpathsO w0 v hv with hs3 | ⟨p, hp, hpre⟩
        · rw [hfol3 w0 1] at hs3
          match hv2 : follow sts2 1 w0 with
          | none => rw [hv2] at hs3; cases hs3
          | some v2 =>
            rcases hpaths2 [] rfl w0 v2 hv2 with hold | ⟨w2, hne, hpre, heq⟩
            · exact Or.inl hold
            · refine Or.inr ⟨pat, by simp, ?_⟩
              rw [heq, List.nil_append]
              exact hpre
        · exact Or.inr ⟨p, by simp [hp], hpre⟩

/-! ## Failure-link specification: longest proper suffix -/

/-- Two suffixes of the same list with equal lengths coincide. -/
theorem suffix_eq_of_length {α : Type} (w1 w2 w : List α) (h1 : w1 <:+ w)
    (h2 : w2 <:+ w) (hl : w1.length = w2.length) : w1 = w2 := by
  obtain ⟨t1, rfl⟩ := h1
  obtain ⟨t2, h⟩ := h2
  have hlen := congrArg List.length h
  simp at hlen
  exact (List.append_inj h (by omega)).2.symm

/-- The defining property of a failure link (spec and `nfa.rs` module
documentation): `f` is the state of the longest proper suffix of `w`
that is still a path of the trie. -/
def LPS (sts : List ACState) (w : List Tok) (f : Nat) : Prop :=
  ∃ wf, follow sts 1 wf = some f ∧ wf ≠ w ∧ wf <:+ w ∧
    ∀ w2, w2 <:+ w → w2 ≠ w → (follow sts 1 w2).isSome → w2.length ≤ wf.length

/-- A proper suffix is strictly shorter. -/
theorem proper_suffix_length_lt {α : Type} (w1 w : List α) (h : w1 <:+ w)
    (hne : w1 ≠ w) : w1.length < w.length := by
  rcases Nat.lt_or_ge w1.length w.length with h2 | h2
  · exact h2
  · exact absurd (List.IsSuffix.eq_of_length h (by
      have := h.length_le
      omega)) hne

/-- The longest-proper-suffix state is unique. -/
theorem LPS_unique (sts : List ACState) (wf0 : TrieWF sts) (w : List Tok)
    (f1 f2 : Nat) (h1 : LPS sts w f1) (h2 : LPS sts w f2) : f1 = f2 := by
  obtain ⟨wa, ha1, ha2, ha3, ha4⟩ := h1
  obtain ⟨wb, hb1, hb2, hb3, hb4⟩ := h2
  have hab : wa = wb := by
    apply suffix_eq_of_length wa wb w ha3 hb3
    have h1 := ha4 wb hb3 hb2 (by rw [hb1]; rfl)
    have h2 := hb4 wa ha3 ha2 (by rw [ha1]; rfl)
    omega
  rw [hab, hb1] at ha1
  exact (Option.some.inj ha1).symm

/-- A prefix of a trie path is a trie path. -/
theorem follow_isSome_front (sts : List ACState) (w1 w2 : List Tok) (u : Nat)
    (h : (follow sts u (w1 ++ w2)).isSome) : (follow sts u w1).isSome := by
  rw [follow_append] at h
  match hv : follow sts u w1 with
  | some v => rfl
  | none => rw [hv] at h; cases h

/-- Every valid non-sentinel state has a path from the start state. -/
theorem exists_path (sts : List ACState) (wf : TrieWF sts) :
    ∀ v, 1 ≤ v → v < sts.length → ∃ w, follow sts 1 w = some v := by
  have H : ∀ (n v : Nat), v ≤ n → 1 ≤ v → v < sts.length →
      ∃ w, follow sts 1 w = some v := by
    intro n
    induction n with
    | zero => intro v hv h1; omega
    | succ n ih =>
      intro v hvn h1 hvl
      by_cases hv1 : v = 1
      · exact ⟨[], by rw [hv1, follow]⟩
      · obtain ⟨u, p, hp, hu, hpv⟩ := wf.reach v (by omega) hvl
        obtain ⟨_, _, hulty⟩ := wf.tgt u p hp
        have hu1 : 1 ≤ u := by
          by_contra hc
          have hu0 : u = 0 := by omega
          rw [hu0, wf.zero] at hp
          cases hp
        obtain ⟨wu, hwu⟩ := ih u (by omega) hu1 hu
        refine ⟨wu ++ [p.1], ?_⟩
        rw [follow_append, hwu, Option.some_bind, follow]
        have : transNextState (getState sts u).trans p.1 = v := by
          have := mem_transNextState _ p.1 p.2 (wf.keys u) (by
            rw [show (p.1, p.2) = p from rfl]; exact hp)
          rw [this, hpv]
        rw [this, if_neg (by omega), follow]
  exact fun v h1 hvl => H v v le_rfl h1 hvl

/-- Decompose a nonempty path at its last edge. -/
theorem path_last (sts : List ACState) (wf : TrieWF sts) (w : List Tok) (v : Nat)
    (h : follow sts 1 w = some v) (hne : w ≠ []) :
    ∃ w1 t u, w = w1 ++ [t] ∧ follow sts 1 w1 = some u ∧ u ≠ 0 ∧ u < sts.length ∧
      (t, v) ∈ (getState sts u).trans ∧
      transNextState (getState sts u).trans t = v := by
  have hlen2 := wf.len2
  rcases List.eq_nil_or_concat w with rfl | ⟨w1, t, rfl⟩
  · exact absurd rfl hne
  · rw [List.concat_eq_append] at h ⊢
    rw [follow_append] at h
    match hu : follow sts 1 w1 with
    | none => rw [hu] at h; cases h
    | some u =>
      rw [hu, Option.some_bind, follow] at h
      by_cases h0 : transNextState (getState sts u).trans t = 0
      · rw [if_pos h0] at h; cases h
      · rw [if_neg h0, follow] at h
        have hv := Option.some.inj h
        obtain ⟨hu0, hun, _⟩ := follow_tgt sts wf w1 1 u (by omega) (by omega) hu
        exact ⟨w1, t, u, rfl, hu, hu0, hun, by rw [← hv]; exact transNextState_mem _ t h0, hv⟩

/-- Pairwise holds when the relation holds for every pair of members. -/
theorem pairwise_of_mem {α : Type} (R : α → α → Prop) (l : List α)
    (h : ∀ a ∈ l, ∀ b ∈ l, R a b) : l.Pairwise R := by
  induction l with
  | nil => exact List.Pairwise.nil
  | cons x xs ih =>
    refine List.pairwise_cons.mpr ⟨fun b hb => h x (by simp) b (by simp [hb]), ?_⟩
    exact ih (fun a ha b hb => h a (by simp [ha]) b (by simp [hb]))

/-! ## The breadth-first failure-link construction: invariant -/

/-- Invariant of `fill_failure_transitions_standard`'s BFS over the
trie `sts0`, relating the evolving state vector `sts`, the queue, and
the list `dn` of already-dequeued states.

Queue and dequeued states are the fail sentinel `0` or real trie states;
transitions never change; the reserved states keep failure link `1`; the
start state's outputs never change; enqueued states already carry their
final failure link (the longest-proper-suffix state of their path) and
at least the outputs of every non-start state whose path is a suffix of
theirs; dequeued states additionally carry the start state's outputs;
every output anywhere comes from the trie outputs of some
suffix-path state; untouched states still have their trie fields; a
state whose unique parent is dequeued (or the start state) has been
enqueued; the queue is sorted by path depth and spans at most two
consecutive depths, queued states are not yet dequeued, are mutually
distinct, and were enqueued by the start state or a dequeued parent. -/
structure BfsInv (sts0 sts : List ACState) (queue dn : List Nat) : Prop where
  len_eq : sts.length = sts0.length
  trans_eq : ∀ u, (getState sts u).trans = (getState sts0 u).trans
  q_ok : ∀ v, v ∈ queue ∨ v ∈ dn → v = 0 ∨ (2 ≤ v ∧ v < sts0.length)
  fail1 : (getState sts 1).fail = 1
  fail0 : (getState sts 0).fail = 1
  out1 : (getState sts 1).outputs = (getState sts0 1).outputs
  out0 : 0 ∈ dn → ∀ e ∈ (getState sts0 1).outputs, e ∈ (getState sts 0).outputs
  failq : ∀ v, (v ∈ queue ∨ v ∈ dn) → v ≠ 0 → ∀ w, follow sts0 1 w = some v →
    LPS sts0 w ((getState sts v).fail) ∧ (getState sts v).fail < sts0.length ∧
      (getState sts v).fail ≠ 0
  lbq : ∀ v, (v ∈ queue ∨ v ∈ dn) → v ≠ 0 → ∀ w, follow sts0 1 w = some v →
    ∀ u wu, follow sts0 1 wu = some u → wu <:+ w → u ≠ 1 →
    ∀ e ∈ (getState sts0 u).outputs, e ∈ (getState sts v).outputs
  lbD1 : ∀ v ∈ dn, v ≠ 0 → ∀ e ∈ (getState sts0 1).outputs, e ∈ (getState sts v).outputs
  ub : ∀ v, v ≠ 0 → ∀ w, follow sts0 1 w = some v → ∀ e ∈ (getState sts v).outputs,
    ∃ u wu, follow sts0 1 wu = some u ∧ wu <:+ w ∧ e ∈ (getState sts0 u).outputs
  untouched : ∀ v, 2 ≤ v → v < sts0.length → ¬(v ∈ queue ∨ v ∈ dn) →
    (getState sts v).outputs = (getState sts0 v).outputs ∧ (getState sts v).fail = 1
  cover : ∀ v, 2 ≤ v → v < sts0.length →
    ∀ u p, p ∈ (getState sts0 u).trans → p.2 = v → u < sts0.length →
    (u = 1 ∨ u ∈ dn) → v ∈ queue ∨ v ∈ dn
  sorted : queue.Pairwise (fun a b => ∀ wa wb, follow sts0 1 wa = some a →
    follow sts0 1 wb = some b → wa.length ≤ wb.length)
  span : ∀ a ∈ queue, ∀ b ∈ queue, ∀ wa wb, follow sts0 1 wa = some a →
    follow sts0 1 wb = some b → wa.length ≤ wb.length + 1
  disj : ∀ x ∈ queue, x ∉ dn
  qnodup : queue.Nodup
  enq_par : ∀ v, (v ∈ queue ∨ v ∈ dn) → v ≠ 0 → ∀ u p,
    p ∈ (getState sts0 u).trans → p.2 = v → u < sts0.length → (u = 1 ∨ u ∈ dn)

/-- While `u` is at the front of the queue, every real state whose path
is no longer than `u`'s is already enqueued or dequeued. -/
theorem depth_cover (sts0 sts : List ACState) (wf0 : TrieWF sts0)
    (u : Nat) (rest dn : List Nat) (inv : BfsInv sts0 sts (u :: rest) dn)
    (wu : List Tok) (hwu : follow sts0 1 wu = some u) :
    ∀ (z : Nat) (wz : List Tok), 2 ≤ z → z < sts0.length →
      follow sts0 1 wz = some z → wz.length ≤ wu.length →
      z ∈ (u :: rest) ∨ z ∈ dn := by
  have hlen2 := wf0.len2
  have H : ∀ (n : Nat) (z : Nat) (wz : List Tok), wz.length ≤ n → 2 ≤ z →
      z < sts0.length → follow sts0 1 wz = some z → wz.length ≤ wu.length →
      z ∈ (u :: rest) ∨ z ∈ dn := by
    intro n
    induction n with
    | zero =>
      intro z wz hn h2 hzl hz hle
      rw [List.length_eq_zero.mp (Nat.le_zero.mp hn)] at hz
      rw [follow] at hz
      cases hz
      omega
    | succ n ih =>
      intro z wz hn h2 hzl hz hle
      have hzne : wz ≠ [] := by
        intro hcon
        rw [hcon, follow] at hz
        cases hz
        omega
      obtain ⟨w1, t, pz, hdec, hw1, hpz0, hpzl, hmem, htr⟩ :=
        path_last sts0 wf0 wz z hz hzne
      by_cases hpz1 : pz = 1
      · exact inv.cover z h2 hzl pz (t, z) hmem rfl (by omega) (Or.inl hpz1)
      · have hpz2 : 2 ≤ pz := by omega
        have hw1len : w1.length ≤ wu.length := by
          have := congrArg List.length hdec
          simp at this
          omega
        rcases ih pz w1 (by
            have := congrArg List.length hdec
            simp at this
            omega) hpz2 hpzl hw1 hw1len with hq | hd
        · rcases List.mem_cons.mp hq with rfl | hr
          · have heq : wu = w1 := follow_inj sts0 wf0 wu.length wu w1 pz le_rfl hwu hw1
            have hlen0 := congrArg List.length heq
            have hlen := congrArg List.length hdec
            simp at hlen hlen0
            omega
          · have := (List.pairwise_cons.mp inv.sorted).1 pz hr wu w1 hwu hw1
            have hlen := congrArg List.length hdec
            simp at hlen
            omega
        · exact inv.cover z h2 hzl pz (t, z) hmem rfl (by omega) (Or.inr hd)
  exact fun z wz h2 hzl hz hle => H wz.length z wz le_rfl h2 hzl hz hle

/-- Suffixes are preserved by appending on the right. -/
theorem suffix_append_right {α : Type} (l1 l2 t : List α) (h : l1 <:+ l2) :
    l1 ++ t <:+ l2 ++ t := by
  obtain ⟨s, rfl⟩ := h
  exact ⟨s, by simp⟩

/-- A nonempty suffix of `w ++ [t]` ends in `t` and its front is a
suffix of `w`. -/
theorem suffix_snoc_decomp {α : Type} (w2 w : List α) (t : α)
    (hsuf : w2 <:+ w ++ [t]) (hne : w2 ≠ []) :
    ∃ w2h, w2 = w2h ++ [t] ∧ w2h <:+ w := by
  obtain ⟨s, hs⟩ := hsuf
  rcases List.eq_nil_or_concat w2 with rfl | ⟨w2h, tl, rfl⟩
  · exact absurd rfl hne
  · rw [List.concat_eq_append, ← List.append_assoc] at hs
    obtain ⟨hfront, hlast⟩ := List.append_inj' hs (by rfl)
    have htl : tl = t := (List.cons.inj hlast).1
    exact ⟨w2h, by rw [List.concat_eq_append, htl], ⟨s, hfront⟩⟩

/-- The exit step of the failure walk: when the chain state `f` (a
proper-suffix state of `wu` such that no longer proper suffix of `wu`
continues by `t`) has a transition on `t`, its target is the
longest-proper-suffix state of `wu ++ [t]`. -/
theorem failWalk_found (sts0 : List ACState) (wf0 : TrieWF sts0)
    (wu : List Tok) (t : Tok) (f : Nat) (wf : List Tok) (r : Nat)
    (hwf : follow sts0 1 wf = some f) (hsuf : wf <:+ wu) (hne : wf ≠ wu)
    (hB : ∀ w2, w2 <:+ wu → w2 ≠ wu → (follow sts0 1 w2).isSome →
      w2.length > wf.length → follow sts0 1 (w2 ++ [t]) = none)
    (htr : transNextState (getState sts0 f).trans t = r) (hr0 : r ≠ 0) :
    LPS sts0 (wu ++ [t]) r ∧ r ≠ 0 ∧ r < sts0.length ∧ 2 ≤ r ∧
    ∃ wr, follow sts0 1 wr = some r ∧ wr <:+ wu ++ [t] ∧ wr ≠ wu ++ [t] := by
  have hlen2 := wf0.len2
  have hfr : follow sts0 1 (wf ++ [t]) = some r := by
    rw [follow_append, hwf, Option.some_bind, follow, if_neg (by rw [htr]; exact hr0),
      htr, follow]
  obtain ⟨hr0b, hrlt, hr2p⟩ :=
    follow_tgt sts0 wf0 (wf ++ [t]) 1 r (by omega) (by omega) hfr
  have hr2 : 2 ≤ r := hr2p (by simp)
  have hlenlt : wf.length < wu.length := proper_suffix_length_lt wf wu hsuf hne
  have hsuf2 : wf ++ [t] <:+ wu ++ [t] := suffix_append_right wf wu [t] hsuf
  have hne2 : wf ++ [t] ≠ wu ++ [t] := by
    intro hcon
    have := congrArg List.length hcon
    simp at this
    omega
  refine ⟨⟨wf ++ [t], hfr, hne2, hsuf2, ?_⟩, hr0b, hrlt, hr2, wf ++ [t], hfr, hsuf2, hne2⟩
  intro w2 hw2suf hw2ne hw2some
  by_cases hw2nil : w2 = []
  · rw [hw2nil]
    simp
  · obtain ⟨w2h, rfl, hw2hsuf⟩ := suffix_snoc_decomp w2 wu t hw2suf hw2nil
    have hw2hne : w2h ≠ wu := by
      intro hcon
      rw [hcon] at hw2ne
      exact hw2ne rfl
    have hw2hsome : (follow sts0 1 w2h).isSome := follow_isSome_front sts0 w2h [t] 1 hw2some
    rcases Nat.lt_or_ge wf.length w2h.length with hlt | hge
    · have := hB w2h hw2hsuf hw2hne hw2hsome hlt
      rw [this] at hw2some
      cases hw2some
    · simp only [List.length_append, List.length_cons, List.length_nil]
      omega

/-- Soundness of the failure walk of
`fill_failure_transitions_standard`: starting at a state on the failure
chain below the dequeued state's path `wu` (with the "no longer suffix
continues by `t`" bookkeeping), a successful walk returns exactly the
longest-proper-suffix state of `wu ++ [t]`. -/
theorem failWalk_sound (sts0 sts1 : List ACState) (wf0 : TrieWF sts0)
    (htr1 : ∀ x, (getState sts1 x).trans = (getState sts0 x).trans)
    (wu : List Tok) (t : Tok)
    (hfailq : ∀ f wf, follow sts0 1 wf = some f → f ≠ 1 → wf <:+ wu → wf ≠ wu →
      LPS sts0 wf ((getState sts1 f).fail))
    (hfail1 : (getState sts1 1).fail = 1) :
    ∀ fuel f wf, follow sts0 1 wf = some f → wf <:+ wu → wf ≠ wu →
      (∀ w2, w2 <:+ wu → w2 ≠ wu → (follow sts0 1 w2).isSome →
        w2.length > wf.length → follow sts0 1 (w2 ++ [t]) = none) →
      ∀ r, failWalk sts1 t fuel f = some r →
        LPS sts0 (wu ++ [t]) r ∧ r ≠ 0 ∧ r < sts0.length ∧ 2 ≤ r ∧
        ∃ wr, follow sts0 1 wr = some r ∧ wr <:+ wu ++ [t] ∧ wr ≠ wu ++ [t] := by
  have hlen2 := wf0.len2
  intro fuel
  induction fuel with
  | zero =>
    intro f wf hwf hsuf hne hB r hr
    rw [failWalk] at hr
    by_cases h0 : transNextState (getState sts1 f).trans t ≠ 0
    · rw [if_pos h0] at hr
      have hv := Option.some.inj hr
      rw [htr1 f] at h0 hv
      exact failWalk_found sts0 wf0 wu t f wf r hwf hsuf hne hB hv (by omega)
    · rw [if_neg h0] at hr
      cases hr
  | succ fuel ih =>
    intro f wf hwf hsuf hne hB r hr
    rw [failWalk] at hr
    by_cases h0 : transNextState (getState sts1 f).trans t ≠ 0
    · rw [if_pos h0] at hr
      have hv := Option.some.inj hr
      rw [htr1 f] at h0 hv
      exact failWalk_found sts0 wf0 wu t f wf r hwf hsuf hne hB hv (by omega)
    · rw [if_neg h0] at hr
      push_neg at h0
      rw [htr1 f] at h0
      by_cases hf1 : f = 1
      · exfalso
        have hfix : ∀ fl, failWalk sts1 t fl 1 = none := by
          intro fl
          apply failWalk_fixpoint_none sts1 t 1 _ hfail1 fl
          rw [htr1 1]
          rw [hf1] at h0
          exact h0
        rw [hf1, hfail1, hfix fuel] at hr
        cases hr
      · obtain ⟨wfx, hwfx, hwfxne, hwfxsuf, hwfxmax⟩ :=
          hfailq f wf hwf hf1 hsuf hne
        have hwflt : wfx.length < wf.length := proper_suffix_length_lt wfx wf hwfxsuf hwfxne
        have hwfwulen : wf.length < wu.length := proper_suffix_length_lt wf wu hsuf hne
        apply ih ((getState sts1 f).fail) wfx hwfx (hwfxsuf.trans hsuf)
          (by
            intro hcon
            rw [hcon] at hwflt
            omega)
          _ r hr
        intro w2 hw2suf hw2ne hw2some hw2len
        rcases Nat.lt_or_ge wf.length w2.length with hgt | hle
        · exact hB w2 hw2suf hw2ne hw2some hgt
        · rcases Nat.eq_or_lt_of_le hle with heq2 | hlt2
          · have hw2wf : w2 = wf := suffix_eq_of_length w2 wf wu hw2suf hsuf heq2
            rw [hw2wf, follow_append, hwf, Option.some_bind, follow, if_pos h0]
          · have hw2wfsuf : w2 <:+ wf :=
              List.suffix_of_suffix_length_le hw2suf hsuf (by omega)
            have hw2wfne : w2 ≠ wf := by
              intro hcon
              rw [hcon] at hlt2
              omega
            have := hwfxmax w2 hw2wfsuf hw2wfne hw2some
            omega

/-- The facts established for a child `c = (t, v)` of a dequeued state
once the BFS has processed its transition: `v`'s failure link is the
longest-proper-suffix state of `v`'s path, and `v`'s outputs contain
exactly contributions of suffix-path states (all non-start suffix-path
owns from below, some suffix-path own from above). -/
def ChildDone (sts0 sts1 : List ACState) (c : Tok × Nat) : Prop :=
  ∀ wv, follow sts0 1 wv = some c.2 →
    (LPS sts0 wv ((getState sts1 c.2).fail) ∧
      (getState sts1 c.2).fail < sts0.length ∧ (getState sts1 c.2).fail ≠ 0) ∧
    (∀ u2 wu2, follow sts0 1 wu2 = some u2 → wu2 <:+ wv → u2 ≠ 1 →
      ∀ e ∈ (getState sts0 u2).outputs, e ∈ (getState sts1 c.2).outputs) ∧
    (∀ e ∈ (getState sts1 c.2).outputs,
      ∃ u2 wu2, follow sts0 1 wu2 = some u2 ∧ wu2 <:+ wv ∧
        e ∈ (getState sts0 u2).outputs)

/-- Soundness of `processChildren` (the inner loop of the BFS step):
processing the remaining transitions `cs` of the dequeued state `u`
(after already-processed prefix `cs0`) enqueues exactly the transition
targets, touches only those targets, and establishes `ChildDone` for
them. -/
theorem processChildren_sound (sts0 sts : List ACState) (wf0 : TrieWF sts0)
    (u : Nat) (rest dn : List Nat) (inv : BfsInv sts0 sts (u :: rest) dn)
    (hu0 : u ≠ 0) (wu : List Tok) (hwu : follow sts0 1 wu = some u) (wfuel : Nat) :
    ∀ (cs cs0 : List (Tok × Nat)) (sts1 : List ACState),
      cs0 ++ cs = (getState sts0 u).trans →
      sts1.length = sts.length →
      (∀ x, (getState sts1 x).trans = (getState sts x).trans) →
      (∀ x, x ∉ cs0.map (fun c => c.2) → getState sts1 x = getState sts x) →
      (∀ c ∈ cs0, ChildDone sts0 sts1 c) →
      ∀ out, processChildren wfuel u sts1 cs = some out →
        out.2 = cs.map (fun c => c.2) ∧
        out.1.length = sts.length ∧
        (∀ x, (getState out.1 x).trans = (getState sts x).trans) ∧
        (∀ x, x ∉ (cs0 ++ cs).map (fun c => c.2) → getState out.1 x = getState sts x) ∧
        (∀ c ∈ cs0 ++ cs, ChildDone sts0 out.1 c) := by
  have hlen2 := wf0.len2
  have hu2n : 2 ≤ u ∧ u < sts0.length := by
    rcases inv.q_ok u (Or.inl (by simp)) with h | h
    · exact absurd h hu0
    · exact h
  have hu2 : 2 ≤ u := hu2n.1
  have hulen : u < sts0.length := hu2n.2
  -- a target of an edge out of `u` is never `u` itself, the start, the
  -- sentinel, a queue or dequeued member, and its unique path is the
  -- path of `u` extended by the edge's token
  have hchild : ∀ c, c ∈ (getState sts0 u).trans →
      2 ≤ c.2 ∧ c.2 < sts0.length ∧ u < c.2 ∧ ¬(c.2 ∈ (u :: rest) ∨ c.2 ∈ dn) ∧
      follow sts0 1 (wu ++ [c.1]) = some c.2 := by
    intro c hc
    obtain ⟨h2, hlt, hgt⟩ := wf0.tgt u c hc
    have hpath : follow sts0 1 (wu ++ [c.1]) = some c.2 := by
      rw [follow_append, hwu, Option.some_bind, follow,
        mem_transNextState _ c.1 c.2 (wf0.keys u) (by
          rw [show (c.1, c.2) = c from rfl]; exact hc),
        if_neg (by omega), follow]
    refine ⟨h2, hlt, hgt, ?_, hpath⟩
    intro hin
    rcases inv.enq_par c.2 hin (by omega) u c hc rfl hulen with h1 | hd
    · omega
    · exact (inv.disj u (by simp)) hd
  -- two distinct positions in the transition list have distinct targets
  have hdistinct : ∀ cs cs0 c c2, cs0 ++ cs = (getState sts0 u).trans →
      c ∈ cs0 → c2 ∈ cs → c.2 ≠ c2.2 := by
    intro cs cs0 c c2 hsplit hc hc2
    intro hceq
    have hc' : c ∈ (getState sts0 u).trans := by rw [← hsplit]; simp [hc]
    have hc2' : c2 ∈ (getState sts0 u).trans := by rw [← hsplit]; simp [hc2]
    obtain ⟨_, hpq⟩ := wf0.uniq u u c c2 hc' hc2' hulen hulen hceq
    have hkeys := wf0.keys u
    rw [← hsplit] at hkeys
    obtain ⟨_, _, hcross⟩ := List.pairwise_append.mp hkeys
    exact hcross c hc c2 hc2 (by rw [hpq])
  intro cs
  induction cs with
  | nil =>
    intro cs0 sts1 hsplit hlen htr hold hdone out hpc
    rw [processChildren] at hpc
    cases hpc
    exact ⟨rfl, hlen, htr, by simpa using hold, by simpa using hdone⟩
  | cons c cs ih =>
    intro cs0 sts1 hsplit hlen htr hold hdone out hpc
    obtain ⟨t, v⟩ := c
    have hcmem : (t, v) ∈ (getState sts0 u).trans := by rw [← hsplit]; simp
    obtain ⟨hv2, hvlt, hvgt, hvnotin, hvpath⟩ := hchild (t, v) hcmem
    have hvnotdone : v ∉ cs0.map (fun c => c.2) := by
      intro hin
      obtain ⟨c', hc', hc'2⟩ := List.mem_map.mp hin
      exact hdistinct ((t, v) :: cs) cs0 c' (t, v) hsplit hc' (by simp) hc'2
    have hunotdone : u ∉ cs0.map (fun c => c.2) := by
      intro hin
      obtain ⟨c', hc', hc'2⟩ := List.mem_map.mp hin
      obtain ⟨_, _, hcgt, _, _⟩ := hchild c' (by rw [← hsplit]; simp [hc'])
      omega
    rw [processChildren] at hpc
    -- the failure walk of this child
    match hwalk : failWalk sts1 t wfuel (getState sts1 u).fail with
    | none => rw [hwalk] at hpc; cases hpc
    | some f =>
      rw [hwalk] at hpc
      -- `u`'s failure link is untouched and correct
      have hufail : (getState sts1 u).fail = (getState sts u).fail := by
        rw [hold u hunotdone]
      obtain ⟨hulps, _, _⟩ := inv.failq u (Or.inl (by simp)) hu0 wu hwu
      obtain ⟨wfx, hwfx1, hwfx2, hwfx3, hwfx4⟩ := hulps
      -- chain states below `u` are untouched, enqueued or dequeued, and correct
      have hchain : ∀ g wg, follow sts0 1 wg = some g → g ≠ 1 → wg <:+ wu →
          wg ≠ wu → LPS sts0 wg ((getState sts1 g).fail) := by
        intro g wg hg hg1 hgsuf hgne
        obtain ⟨hg0, hglt, _⟩ := follow_tgt sts0 wf0 wg 1 g (by omega) (by omega) hg
        have hg2 : 2 ≤ g := by
          rcases Nat.lt_or_ge g 2 with hlt2 | hge2
          · interval_cases g
            · omega
            · omega
          · exact hge2
        have hgin : g ∈ (u :: rest) ∨ g ∈ dn :=
          depth_cover sts0 sts wf0 u rest dn inv wu hwu g wg hg2 hglt hg
            (le_of_lt (proper_suffix_length_lt wg wu hgsuf hgne))
        have hgnotdone : g ∉ cs0.map (fun c => c.2) := by
          intro hin
          obtain ⟨c', hc', hc'2⟩ := List.mem_map.mp hin
          obtain ⟨_, _, _, _, hc'path⟩ := hchild c' (by rw [← hsplit]; simp [hc'])
          rw [hc'2] at hc'path
          have := follow_inj sts0 wf0 wg.length wg (wu ++ [c'.1]) g le_rfl hg hc'path
          have hlg := congrArg List.length this
          simp at hlg
          have := proper_suffix_length_lt wg wu hgsuf hgne
          omega
        rw [hold g hgnotdone]
        exact (inv.failq g hgin (by omega) wg hg).1
      have hfail1b : (getState sts1 1).fail = 1 := by
        rw [hold 1 (by
          intro hin
          obtain ⟨c', hc', hc'2⟩ := List.mem_map.mp hin
          obtain ⟨hc2, _, _, _, _⟩ := hchild c' (by rw [← hsplit]; simp [hc'])
          omega)]
        exact inv.fail1
      have htr1 : ∀ x, (getState sts1 x).trans = (getState sts0 x).trans := by
        intro x
        rw [htr x, inv.trans_eq x]
      obtain ⟨hflps, hf0, hflt, hf2, wr, hwr, hwrsuf, hwrne⟩ :=
        failWalk_sound sts0 sts1 wf0 htr1 wu t hchain hfail1b wfuel
          ((getState sts1 u).fail) wfx (by rw [hufail]; exact hwfx1)
          hwfx3 hwfx2
          (by
            intro w2 hs hne hsome hgt
            exact absurd (hwfx4 w2 hs hne hsome) (by omega))
          f hwalk
      -- lengths transported to the current fold state
      have hlenv : v < sts1.length := by
        rw [hlen, inv.len_eq]; exact hvlt
      -- the walk target has a path no longer than the dequeued state's
      have hwrlen : wr.length ≤ wu.length := by
        have hlt := proper_suffix_length_lt wr (wu ++ [t]) hwrsuf hwrne
        simp at hlt
        omega
      -- the walk target is distinct from the freshly linked child
      have hfv : f ≠ v := by
        intro hcon
        rw [hcon] at hwr
        have heq := follow_inj sts0 wf0 wr.length wr (wu ++ [t]) v le_rfl hwr hvpath
        have hlg := congrArg List.length heq
        simp at hlg
        omega
      -- the walk target was not touched by the fold so far
      have hfnotdone : f ∉ cs0.map (fun c => c.2) := by
        intro hin
        obtain ⟨c', hc', hc'2⟩ := List.mem_map.mp hin
        obtain ⟨_, _, _, _, hc'path⟩ := hchild c' (by rw [← hsplit]; simp [hc'])
        rw [hc'2] at hc'path
        have heq := follow_inj sts0 wf0 wr.length wr (wu ++ [c'.1]) f le_rfl hwr hc'path
        have hlg := congrArg List.length heq
        simp at hlg
        omega
      have hfsts : getState sts1 f = getState sts f := hold f hfnotdone
      -- the walk target is already enqueued or dequeued, so the invariant
      -- describes its outputs and paths
      have hfin : f ∈ (u :: rest) ∨ f ∈ dn :=
        depth_cover sts0 sts wf0 u rest dn inv wu hwu f wr hf2 hflt hwr hwrlen
      have hvsts : getState sts1 v = getState sts v := hold v hvnotdone
      have hvuntouched := inv.untouched v hv2 hvlt hvnotin
      obtain ⟨wf', hwf'1, hwf'2, hwf'3, hwf'4⟩ := hflps
      have hpc2 : (match copyMatches (sts1.set v { getState sts1 v with fail := f }) f v with
          | none => none
          | some sts3 =>
            match processChildren wfuel u sts3 cs with
            | none => none
            | some (sts4, ids) => some (sts4, v :: ids)) = some out := hpc
      match hcm : copyMatches (sts1.set v { getState sts1 v with fail := f }) f v with
      | none => rw [hcm] at hpc2; cases hpc2
      | some sts1b =>
        rw [hcm] at hpc2
        have hpc3 : (match processChildren wfuel u sts1b cs with
            | none => none
            | some (sts4, ids) => some (sts4, v :: ids)) = some out := hpc2
        simp only [copyMatches, if_neg hfv] at hcm
        have hb : sts1b = (sts1.set v { getState sts1 v with fail := f }).set v
            { getState (sts1.set v { getState sts1 v with fail := f }) v with
              outputs := (getState (sts1.set v { getState sts1 v with fail := f }) v).outputs
                ++ (getState (sts1.set v { getState sts1 v with fail := f }) f).outputs } :=
          (Option.some.inj hcm).symm
        have hga : getState (sts1.set v { getState sts1 v with fail := f }) v
            = { getState sts1 v with fail := f } := getState_set_self sts1 v _ hlenv
        have hgaf : getState (sts1.set v { getState sts1 v with fail := f }) f
            = getState sts1 f := getState_set_ne sts1 v f _ (Ne.symm hfv)
        have hlenv2 : v < (sts1.set v { getState sts1 v with fail := f }).length := by
          simpa using hlenv
        have hbv : getState sts1b v = { getState sts1 v with
            fail := f
            outputs := (getState sts1 v).outputs ++ (getState sts1 f).outputs } := by
          rw [hb, getState_set_self _ v _ hlenv2, hga, hgaf]
        have hbx : ∀ x, x ≠ v → getState sts1b x = getState sts1 x := by
          intro x hx
          rw [hb, getState_set_ne _ v x _ (Ne.symm hx), getState_set_ne _ v x _ (Ne.symm hx)]
        have hfailb : LPS sts0 (wu ++ [t]) ((getState sts1b v).fail) ∧
            (getState sts1b v).fail < sts0.length ∧ (getState sts1b v).fail ≠ 0 := by
          have hfb : (getState sts1b v).fail = f := by rw [hbv]
          rw [hfb]
          exact ⟨⟨wf', hwf'1, hwf'2, hwf'3, hwf'4⟩, hflt, hf0⟩
        have hob : (getState sts1b v).outputs =
            (getState sts0 v).outputs ++ (getState sts f).outputs := by
          rw [hbv]
          show (getState sts1 v).outputs ++ (getState sts1 f).outputs = _
          rw [hvsts, hvuntouched.1, hfsts]
        have hlbb : ∀ u2 wu2, follow sts0 1 wu2 = some u2 → wu2 <:+ wu ++ [t] → u2 ≠ 1 →
            ∀ e ∈ (getState sts0 u2).outputs, e ∈ (getState sts1b v).outputs := by
          intro u2 wu2 hu2 hsuf hu21 e he
          rw [hob]
          by_cases hweq : wu2 = wu ++ [t]
          · have hu2v : u2 = v := by
              rw [hweq] at hu2
              exact Option.some.inj (hu2.symm.trans hvpath)
            rw [hu2v] at he
            exact List.mem_append.mpr (Or.inl he)
          · have hlenle : wu2.length ≤ wf'.length :=
              hwf'4 wu2 hsuf hweq (by rw [hu2]; rfl)
            have hsuf2 : wu2 <:+ wf' :=
              List.suffix_of_suffix_length_le hsuf hwf'3 hlenle
            exact List.mem_append.mpr
              (Or.inr (inv.lbq f hfin hf0 wf' hwf'1 u2 wu2 hu2 hsuf2 hu21 e he))
        have hubb : ∀ e ∈ (getState sts1b v).outputs,
            ∃ u2 wu2, follow sts0 1 wu2 = some u2 ∧ wu2 <:+ wu ++ [t] ∧
              e ∈ (getState sts0 u2).outputs := by
          intro e he
          rw [hob] at he
          rcases List.mem_append.mp he with h1 | h2
          · exact ⟨v, wu ++ [t], hvpath, List.suffix_refl _, h1⟩
          · obtain ⟨u2, wu2, hp2, hs2, he2⟩ := inv.ub f hf0 wf' hwf'1 e h2
            exact ⟨u2, wu2, hp2, hs2.trans hwf'3, he2⟩
        have hnewdone : ChildDone sts0 sts1b (t, v) := by
          intro wv hwv
          have hwveq : wv = wu ++ [t] :=
            follow_inj sts0 wf0 wv.length wv (wu ++ [t]) v le_rfl hwv hvpath
          rw [hwveq]
          exact ⟨hfailb, hlbb, hubb⟩
        have holddone : ∀ c ∈ cs0, ChildDone sts0 sts1b c := by
          intro c hc
          have hcv : c.2 ≠ v :=
            hdistinct ((t, v) :: cs) cs0 c (t, v) hsplit hc (by simp)
          have hgc : getState sts1b c.2 = getState sts1 c.2 := hbx c.2 hcv
          intro wv hwv
          rw [hgc]
          exact hdone c hc wv hwv
        match hrec : processChildren wfuel u sts1b cs with
        | none => rw [hrec] at hpc3; cases hpc3
        | some (sts4, ids) =>
          rw [hrec] at hpc3
          have hout : (sts4, v :: ids) = out := Option.some.inj hpc3
          have hlenb : sts1b.length = sts.length := by
            rw [hb]; simp [hlen]
          have htrb : ∀ x, (getState sts1b x).trans = (getState sts x).trans := by
            intro x
            by_cases hx : x = v
            · rw [hx, hbv]
              show (getState sts1 v).trans = _
              exact htr v
            · rw [hbx x hx, htr x]
          have holdb : ∀ x, x ∉ (cs0 ++ [(t, v)]).map (fun c => c.2) →
              getState sts1b x = getState sts x := by
            intro x hx
            have hx1 : x ∉ cs0.map (fun c => c.2) := fun h => hx (by simp [h])
            have hx2 : x ≠ v := fun h => hx (by simp [h])
            rw [hbx x hx2]
            exact hold x hx1
          have hdoneb : ∀ c ∈ cs0 ++ [(t, v)], ChildDone sts0 sts1b c := by
            intro c hc
            rcases List.mem_append.mp hc with h1 | h2
            · exact holddone c h1
            · have hc2 : c = (t, v) := by simpa using h2
              rw [hc2]
              exact hnewdone
          have hsplitb : (cs0 ++ [(t, v)]) ++ cs = (getState sts0 u).trans := by
            rw [List.append_assoc]
            simpa using hsplit
          obtain ⟨hids, hlen4, htr4, hold4, hdone4⟩ :=
            ih (cs0 ++ [(t, v)]) sts1b hsplitb hlenb htrb holdb hdoneb (sts4, ids) hrec
          have hlist : (cs0 ++ [(t, v)]) ++ cs = cs0 ++ (t, v) :: cs := by simp
          rw [← hout]
          refine ⟨?_, hlen4, htr4, ?_, ?_⟩
          · show v :: ids = v :: cs.map (fun c => c.2)
            exact congrArg (v :: ·) hids
          · intro x hx
            exact hold4 x (by rw [hlist]; exact hx)
          · intro c hc
            exact hdone4 c (by rw [hlist]; exact hc)

/-- Soundness of one dequeue step of the BFS: processing the dequeued
state's children and then appending the start state's outputs to it
(`copy_empty_matches`) preserves the invariant, with the children
enqueued and the state moved to the dequeued list. -/
theorem bfs_pop_sound (sts0 sts : List ACState) (wf0 : TrieWF sts0)
    (u : Nat) (rest dn : List Nat) (inv : BfsInv sts0 sts (u :: rest) dn)
    (wfuel : Nat) (sts2 : List ACState) (ids : List Nat)
    (hpc : processChildren wfuel u sts (getState sts u).trans = some (sts2, ids))
    (sts3 : List ACState) (hcm : copyMatches sts2 1 u = some sts3) :
    BfsInv sts0 sts3 (rest ++ ids) (dn ++ [u]) := by
  have hlen2 := wf0.len2
  have hrest_nodup : rest.Nodup := (List.nodup_cons.mp inv.qnodup).2
  have hu_notin_rest : u ∉ rest := (List.nodup_cons.mp inv.qnodup).1
  have hu_notin_dn : u ∉ dn := inv.disj u (by simp)
  by_cases hu0 : u = 0
  · -- the fail sentinel: no transitions, only its outputs grow
    subst hu0
    have htru : (getState sts 0).trans = [] := by
      rw [inv.trans_eq 0, wf0.zero]
    rw [htru, processChildren] at hpc
    have hp2 := Option.some.inj hpc
    have hsts2 : sts2 = sts := (congrArg Prod.fst hp2).symm
    have hids0 : ids = [] := (congrArg Prod.snd hp2).symm
    rw [hsts2] at hcm
    rw [hids0, List.append_nil]
    simp only [copyMatches, if_neg (show ¬(1 : Nat) = 0 by omega)] at hcm
    have hb : sts3 = sts.set 0 { getState sts 0 with
        outputs := (getState sts 0).outputs ++ (getState sts 1).outputs } :=
      (Option.some.inj hcm).symm
    have g30 : getState sts3 0 = { getState sts 0 with
        outputs := (getState sts 0).outputs ++ (getState sts 1).outputs } := by
      rw [hb]
      exact getState_set_self sts 0 _ (by rw [inv.len_eq]; omega)
    have g3x : ∀ x, x ≠ 0 → getState sts3 x = getState sts x := by
      intro x hx
      rw [hb, getState_set_ne sts 0 x _ (Ne.symm hx)]
    refine ⟨?_, ?_, ?_, ?_, ?_, ?_, ?_, ?_, ?_, ?_, ?_, ?_, ?_, ?_, ?_, ?_, ?_, ?_⟩
    · rw [hb]
      simp [inv.len_eq]
    · intro x
      by_cases hx : x = 0
      · rw [hx, g30]
        show (getState sts 0).trans = _
        exact inv.trans_eq 0
      · rw [g3x x hx]
        exact inv.trans_eq x
    · intro v hv
      rcases hv with hv | hv
      · exact inv.q_ok v (Or.inl (List.mem_cons_of_mem _ hv))
      · rcases List.mem_append.mp hv with hv | hv
        · exact inv.q_ok v (Or.inr hv)
        · left
          simpa using hv
    · rw [g3x 1 (by omega)]
      exact inv.fail1
    · rw [g30]
      show (getState sts 0).fail = 1
      exact inv.fail0
    · rw [g3x 1 (by omega)]
      exact inv.out1
    · intro _ e he
      rw [g30]
      show e ∈ (getState sts 0).outputs ++ (getState sts 1).outputs
      exact List.mem_append.mpr (Or.inr (by rw [inv.out1]; exact he))
    · intro v hv hv0 w hw
      have hvold : v ∈ (0 :: rest) ∨ v ∈ dn := by
        rcases hv with hv | hv
        · exact Or.inl (List.mem_cons_of_mem _ hv)
        · rcases List.mem_append.mp hv with hv | hv
          · exact Or.inr hv
          · exact absurd (by simpa using hv) hv0
      rw [g3x v hv0]
      exact inv.failq v hvold hv0 w hw
    · intro v hv hv0 w hw
      have hvold : v ∈ (0 :: rest) ∨ v ∈ dn := by
        rcases hv with hv | hv
        · exact Or.inl (List.mem_cons_of_mem _ hv)
        · rcases List.mem_append.mp hv with hv | hv
          · exact Or.inr hv
          · exact absurd (by simpa using hv) hv0
      rw [g3x v hv0]
      exact inv.lbq v hvold hv0 w hw
    · intro v hv hv0 e he
      rcases List.mem_append.mp hv with hv | hv
      · rw [g3x v hv0]
        exact inv.lbD1 v hv hv0 e he
      · exact absurd (by simpa using hv) hv0
    · intro v hv0 w hw e he
      rw [g3x v hv0] at he
      exact inv.ub v hv0 w hw e he
    · intro v h2 hlt hnin
      have hnin' : ¬(v ∈ (0 :: rest) ∨ v ∈ dn) := by
        intro hc
        rcases hc with hc | hc
        · rcases List.mem_cons.mp hc with rfl | hc
          · exact absurd h2 (by omega)
          · exact hnin (Or.inl hc)
        · exact hnin (Or.inr (List.mem_append.mpr (Or.inl hc)))
      rw [g3x v (by omega)]
      exact inv.untouched v h2 hlt hnin'
    · intro v h2 hlt u' p hp hpv hu'lt hsrc
      have hext : v ∈ (0 :: rest) ∨ v ∈ dn → v ∈ rest ∨ v ∈ dn ++ [0] := by
        intro hc
        rcases hc with hc | hc
        · rcases List.mem_cons.mp hc with rfl | hc
          · exact absurd h2 (by omega)
          · exact Or.inl hc
        · exact Or.inr (List.mem_append.mpr (Or.inl hc))
      rcases hsrc with h1 | hd
      · exact hext (inv.cover v h2 hlt u' p hp hpv hu'lt (Or.inl h1))
      · rcases List.mem_append.mp hd with hd | hd
        · exact hext (inv.cover v h2 hlt u' p hp hpv hu'lt (Or.inr hd))
        · have hu'0 : u' = 0 := by simpa using hd
          rw [hu'0, wf0.zero] at hp
          cases hp
    · exact (List.pairwise_cons.mp inv.sorted).2
    · intro a ha b hb wa wb hwa hwb
      exact inv.span a (List.mem_cons_of_mem _ ha) b (List.mem_cons_of_mem _ hb)
        wa wb hwa hwb
    · intro x hx hc
      rcases List.mem_append.mp hc with hc | hc
      · exact inv.disj x (List.mem_cons_of_mem _ hx) hc
      · have hx0 : x = 0 := by simpa using hc
        rw [hx0] at hx
        exact hu_notin_rest hx
    · exact hrest_nodup
    · intro v hv hv0 u' p hp hpv hu'lt
      have hvold : v ∈ (0 :: rest) ∨ v ∈ dn := by
        rcases hv with hv | hv
        · exact Or.inl (List.mem_cons_of_mem _ hv)
        · rcases List.mem_append.mp hv with hv | hv
          · exact Or.inr hv
          · exact absurd (by simpa using hv) hv0
      rcases inv.enq_par v hvold hv0 u' p hp hpv hu'lt with h1 | hd
      · exact Or.inl h1
      · exact Or.inr (List.mem_append.mpr (Or.inl hd))
  · -- a real state: every child gets its failure link and is enqueued
    have hu2n : 2 ≤ u ∧ u < sts0.length := by
      rcases inv.q_ok u (Or.inl (by simp)) with h | h
      · exact absurd h hu0
      · exact h
    obtain ⟨wu, hwu⟩ := exists_path sts0 wf0 u (by omega) hu2n.2
    rw [inv.trans_eq u] at hpc
    obtain ⟨hids, hlen2', htr2, hold2, hdone2⟩ :=
      processChildren_sound sts0 sts wf0 u rest dn inv hu0 wu hwu wfuel
        ((getState sts0 u).trans) [] sts rfl rfl (fun x => rfl) (fun x _ => rfl)
        (by intro c hc; cases hc) (sts2, ids) hpc
    have hids' : ids = ((getState sts0 u).trans).map (fun c => c.2) := hids
    have hlen2'' : sts2.length = sts.length := hlen2'
    have htr2' : ∀ x, (getState sts2 x).trans = (getState sts x).trans := htr2
    have hold2' : ∀ x, x ∉ ((getState sts0 u).trans).map (fun c => c.2) →
        getState sts2 x = getState sts x := fun x hx => hold2 x (by simpa using hx)
    have hdone2' : ∀ c ∈ (getState sts0 u).trans, ChildDone sts0 sts2 c :=
      fun c hc => hdone2 c (by simpa using hc)
    have hchild : ∀ c, c ∈ (getState sts0 u).trans →
        2 ≤ c.2 ∧ c.2 < sts0.length ∧ u < c.2 ∧ ¬(c.2 ∈ (u :: rest) ∨ c.2 ∈ dn) ∧
        follow sts0 1 (wu ++ [c.1]) = some c.2 := by
      intro c hc
      obtain ⟨h2, hlt, hgt⟩ := wf0.tgt u c hc
      have hpath : follow sts0 1 (wu ++ [c.1]) = some c.2 := by
        rw [follow_append, hwu, Option.some_bind, follow,
          mem_transNextState _ c.1 c.2 (wf0.keys u) (by
            rw [show (c.1, c.2) = c from rfl]; exact hc),
          if_neg (by omega), follow]
      refine ⟨h2, hlt, hgt, ?_, hpath⟩
      intro hin
      rcases inv.enq_par c.2 hin (by omega) u c hc rfl hu2n.2 with h1 | hd
      · omega
      · exact (inv.disj u (by simp)) hd
    simp only [copyMatches, if_neg (show ¬(1 : Nat) = u by omega)] at hcm
    have hb : sts3 = sts2.set u { getState sts2 u with
        outputs := (getState sts2 u).outputs ++ (getState sts2 1).outputs } :=
      (Option.some.inj hcm).symm
    have hu_nottgt : u ∉ ((getState sts0 u).trans).map (fun c => c.2) := by
      intro hin
      obtain ⟨c, hc, hc2⟩ := List.mem_map.mp hin
      obtain ⟨_, _, hgt, _, _⟩ := hchild c hc
      omega
    have h1_nottgt : (1 : Nat) ∉ ((getState sts0 u).trans).map (fun c => c.2) := by
      intro hin
      obtain ⟨c, hc, hc2⟩ := List.mem_map.mp hin
      obtain ⟨h2c, _, _, _, _⟩ := hchild c hc
      omega
    have h0_nottgt : (0 : Nat) ∉ ((getState sts0 u).trans).map (fun c => c.2) := by
      intro hin
      obtain ⟨c, hc, hc2⟩ := List.mem_map.mp hin
      obtain ⟨h2c, _, _, _, _⟩ := hchild c hc
      omega
    have g2u : getState sts2 u = getState sts u := hold2' u hu_nottgt
    have g21 : getState sts2 1 = getState sts 1 := hold2' 1 h1_nottgt
    have g3u : getState sts3 u = { getState sts u with
        outputs := (getState sts u).outputs ++ (getState sts 1).outputs } := by
      rw [hb, getState_set_self sts2 u _ (by rw [hlen2'', inv.len_eq]; exact hu2n.2),
        g2u, g21]
    have g3x : ∀ x, x ≠ u → getState sts3 x = getState sts2 x := by
      intro x hx
      rw [hb, getState_set_ne sts2 u x _ (Ne.symm hx)]
    have hg3old : ∀ v, v ∈ rest ∨ v ∈ dn → getState sts3 v = getState sts v := by
      intro v hv
      have hvne : v ≠ u := by
        rcases hv with hv | hv
        · intro h; rw [h] at hv; exact hu_notin_rest hv
        · intro h; rw [h] at hv; exact hu_notin_dn hv
      have hvnot : v ∉ ((getState sts0 u).trans).map (fun c => c.2) := by
        intro hin
        obtain ⟨c, hc, hc2⟩ := List.mem_map.mp hin
        obtain ⟨_, _, _, hnin, _⟩ := hchild c hc
        rw [hc2] at hnin
        rcases hv with hv | hv
        · exact hnin (Or.inl (List.mem_cons_of_mem _ hv))
        · exact hnin (Or.inr hv)
      rw [g3x v hvne, hold2' v hvnot]
    have hg3ids : ∀ v, v ∈ ids → getState sts3 v = getState sts2 v := by
      intro v hv
      rw [hids'] at hv
      obtain ⟨c, hc, hc2⟩ := List.mem_map.mp hv
      obtain ⟨_, _, hgt, _, _⟩ := hchild c hc
      exact g3x v (by omega)
    have hidlen : ∀ x ∈ ids, ∀ wx, follow sts0 1 wx = some x →
        wx.length = wu.length + 1 := by
      intro x hx wx hwx
      have hx' := hx
      rw [hids'] at hx'
      obtain ⟨c, hc, hc2⟩ := List.mem_map.mp hx'
      obtain ⟨_, _, _, _, hcp⟩ := hchild c hc
      have hweq : wx = wu ++ [c.1] :=
        follow_inj sts0 wf0 wx.length wx (wu ++ [c.1]) x le_rfl hwx
          (by rw [← hc2]; exact hcp)
      rw [hweq]
      simp
    refine ⟨?_, ?_, ?_, ?_, ?_, ?_, ?_, ?_, ?_, ?_, ?_, ?_, ?_, ?_, ?_, ?_, ?_, ?_⟩
    · rw [hb]
      simp [hlen2'', inv.len_eq]
    · intro x
      by_cases hx : x = u
      · rw [hx, g3u]
        show (getState sts u).trans = _
        exact inv.trans_eq u
      · rw [g3x x hx, htr2' x]
        exact inv.trans_eq x
    · intro v hv
      rcases hv with hv | hv
      · rcases List.mem_append.mp hv with hv | hv
        · exact inv.q_ok v (Or.inl (List.mem_cons_of_mem _ hv))
        · rw [hids'] at hv
          obtain ⟨c, hc, hc2⟩ := List.mem_map.mp hv
          obtain ⟨h2c, hltc, _, _, _⟩ := hchild c hc
          right
          omega
      · rcases List.mem_append.mp hv with hv | hv
        · exact inv.q_ok v (Or.inr hv)
        · have hvu : v = u := by simpa using hv
          rw [hvu]
          exact inv.q_ok u (Or.inl (by simp))
    · rw [g3x 1 (by omega), hold2' 1 h1_nottgt]
      exact inv.fail1
    · rw [g3x 0 (by omega), hold2' 0 h0_nottgt]
      exact inv.fail0
    · rw [g3x 1 (by omega), hold2' 1 h1_nottgt]
      exact inv.out1
    · intro h0dn e he
      rcases List.mem_append.mp h0dn with h0dn | h0dn
      · rw [g3x 0 (by omega), hold2' 0 h0_nottgt]
        exact inv.out0 h0dn e he
      · exact absurd (by simpa using h0dn) (by omega : ¬(0 : Nat) = u)
    · intro v hv hv0 w hw
      rcases hv with hv | hv
      · rcases List.mem_append.mp hv with hv | hv
        · rw [hg3old v (Or.inl hv)]
          exact inv.failq v (Or.inl (List.mem_cons_of_mem _ hv)) hv0 w hw
        · rw [hg3ids v hv]
          have hv' := hv
          rw [hids'] at hv'
          obtain ⟨c, hc, hc2⟩ := List.mem_map.mp hv'
          have hcd := hdone2' c hc w (by rw [hc2]; exact hw)
          rw [← hc2]
          exact hcd.1
      · rcases List.mem_append.mp hv with hv | hv
        · rw [hg3old v (Or.inr hv)]
          exact inv.failq v (Or.inr hv) hv0 w hw
        · have hvu : v = u := by simpa using hv
          have hfl : (getState sts3 v).fail = (getState sts v).fail := by
            rw [hvu, g3u]
          rw [hfl]
          exact inv.failq v (by rw [hvu]; exact Or.inl (by simp)) hv0 w hw
    · intro v hv hv0 w hw u2 wu2 hu2p hsuf hu21 e he
      rcases hv with hv | hv
      · rcases List.mem_append.mp hv with hv | hv
        · rw [hg3old v (Or.inl hv)]
          exact inv.lbq v (Or.inl (List.mem_cons_of_mem _ hv)) hv0 w hw
            u2 wu2 hu2p hsuf hu21 e he
        · rw [hg3ids v hv]
          have hv' := hv
          rw [hids'] at hv'
          obtain ⟨c, hc, hc2⟩ := List.mem_map.mp hv'
          have hcd := hdone2' c hc w (by rw [hc2]; exact hw)
          rw [← hc2]
          exact hcd.2.1 u2 wu2 hu2p hsuf hu21 e he
      · rcases List.mem_append.mp hv with hv | hv
        · rw [hg3old v (Or.inr hv)]
          exact inv.lbq v (Or.inr hv) hv0 w hw u2 wu2 hu2p hsuf hu21 e he
        · have hvu : v = u := by simpa using hv
          have hob3 : (getState sts3 v).outputs =
              (getState sts u).outputs ++ (getState sts 1).outputs := by
            rw [hvu, g3u]
          rw [hob3]
          exact List.mem_append.mpr (Or.inl
            (inv.lbq u (Or.inl (by simp)) hu0 w (by rw [← hvu]; exact hw)
              u2 wu2 hu2p hsuf hu21 e he))
    · intro v hv hv0 e he
      rcases List.mem_append.mp hv with hv | hv
      · rw [hg3old v (Or.inr hv)]
        exact inv.lbD1 v hv hv0 e he
      · have hvu : v = u := by simpa using hv
        have hob3 : (getState sts3 v).outputs =
            (getState sts u).outputs ++ (getState sts 1).outputs := by
          rw [hvu, g3u]
        rw [hob3]
        refine List.mem_append.mpr (Or.inr ?_)
        rw [inv.out1]
        exact he
    · intro v hv0 w hw e he
      by_cases hvu : v = u
      · rw [hvu, g3u] at he
        rcases List.mem_append.mp he with h | h
        · exact inv.ub v hv0 w hw e (by rw [hvu]; exact h)
        · refine ⟨1, [], by rw [follow], List.nil_suffix, ?_⟩
          rw [← inv.out1]
          exact h
      · by_cases hvids : v ∈ ids
        · rw [hg3ids v hvids] at he
          have hv' := hvids
          rw [hids'] at hv'
          obtain ⟨c, hc, hc2⟩ := List.mem_map.mp hv'
          have hcd := hdone2' c hc w (by rw [hc2]; exact hw)
          exact hcd.2.2 e (by rw [hc2]; exact he)
        · rw [g3x v hvu, hold2' v (by rw [← hids']; exact hvids)] at he
          exact inv.ub v hv0 w hw e he
    · intro v h2 hlt hnin
      have hnotu : v ≠ u := fun h =>
        hnin (Or.inr (List.mem_append.mpr (Or.inr (by simp [h]))))
      have hnotids : v ∉ ids := fun h => hnin (Or.inl (List.mem_append.mpr (Or.inr h)))
      have hnotrest : v ∉ rest := fun h => hnin (Or.inl (List.mem_append.mpr (Or.inl h)))
      have hnotdn : v ∉ dn := fun h => hnin (Or.inr (List.mem_append.mpr (Or.inl h)))
      rw [g3x v hnotu, hold2' v (by rw [← hids']; exact hnotids)]
      refine inv.untouched v h2 hlt ?_
      intro hc
      rcases hc with hc | hc
      · rcases List.mem_cons.mp hc with rfl | hc
        · exact hnotu rfl
        · exact hnotrest hc
      · exact hnotdn hc
    · intro v h2 hlt u' p hp hpv hu'lt hsrc
      have hext : v ∈ (u :: rest) ∨ v ∈ dn → v ∈ rest ++ ids ∨ v ∈ dn ++ [u] := by
        intro hc
        rcases hc with hc | hc
        · rcases List.mem_cons.mp hc with rfl | hc
          · exact Or.inr (List.mem_append.mpr (Or.inr (by simp)))
          · exact Or.inl (List.mem_append.mpr (Or.inl hc))
        · exact Or.inr (List.mem_append.mpr (Or.inl hc))
      rcases hsrc with h1 | hd
      · exact hext (inv.cover v h2 hlt u' p hp hpv hu'lt (Or.inl h1))
      · rcases List.mem_append.mp hd with hd | hd
        · exact hext (inv.cover v h2 hlt u' p hp hpv hu'lt (Or.inr hd))
        · have hu'u : u' = u := by simpa using hd
          left
          refine List.mem_append.mpr (Or.inr ?_)
          rw [hids']
          exact List.mem_map.mpr ⟨p, by rw [← hu'u]; exact hp, hpv⟩
    · refine List.pairwise_append.mpr
        ⟨(List.pairwise_cons.mp inv.sorted).2, ?_, ?_⟩
      · refine pairwise_of_mem _ _ ?_
        intro a ha b hb wa wb hwa hwb
        have hla := hidlen a ha wa hwa
        have hlb := hidlen b hb wb hwb
        omega
      · intro a ha b hb wa wb hwa hwb
        have hlb := hidlen b hb wb hwb
        have hsp := inv.span a (List.mem_cons_of_mem _ ha) u (by simp) wa wu hwa hwu
        omega
    · intro a ha b hb wa wb hwa hwb
      rcases List.mem_append.mp ha with ha | ha
      · rcases List.mem_append.mp hb with hb | hb
        · exact inv.span a (List.mem_cons_of_mem _ ha) b (List.mem_cons_of_mem _ hb)
            wa wb hwa hwb
        · have hlb := hidlen b hb wb hwb
          have hsp := inv.span a (List.mem_cons_of_mem _ ha) u (by simp) wa wu hwa hwu
          omega
      · have hla := hidlen a ha wa hwa
        rcases List.mem_append.mp hb with hb | hb
        · have hso := (List.pairwise_cons.mp inv.sorted).1 b hb wu wb hwu hwb
          omega
        · have hlb := hidlen b hb wb hwb
          omega
    · intro x hx hcontra
      rcases List.mem_append.mp hx with hx | hx
      · rcases List.mem_append.mp hcontra with hc | hc
        · exact inv.disj x (List.mem_cons_of_mem _ hx) hc
        · have hxu : x = u := by simpa using hc
          rw [hxu] at hx
          exact hu_notin_rest hx
      · have hx' := hx
        rw [hids'] at hx'
        obtain ⟨c, hcmem, hc2⟩ := List.mem_map.mp hx'
        obtain ⟨_, _, _, hnin, _⟩ := hchild c hcmem
        rw [hc2] at hnin
        rcases List.mem_append.mp hcontra with hc | hc
        · exact hnin (Or.inr hc)
        · have hxu : x = u := by simpa using hc
          exact hnin (Or.inl (by rw [hxu]; simp))
    · have hidsnodup : ids.Nodup := by
        rw [hids']
        have hpw2 : ((getState sts0 u).trans).Pairwise (fun a b => a.2 ≠ b.2) := by
          refine (wf0.keys u).imp_of_mem ?_
          intro a b hamem hbmem hab h2eq
          obtain ⟨_, habeq⟩ := wf0.uniq u u a b hamem hbmem hu2n.2 hu2n.2 h2eq
          exact hab (by rw [habeq])
        exact List.pairwise_map.mpr hpw2
      refine List.nodup_append.mpr ⟨hrest_nodup, hidsnodup, ?_⟩
      intro x hx hxid
      have hx' := hxid
      rw [hids'] at hx'
      obtain ⟨c, hcmem, hc2⟩ := List.mem_map.mp hx'
      obtain ⟨_, _, _, hnin, _⟩ := hchild c hcmem
      rw [hc2] at hnin
      exact hnin (Or.inl (List.mem_cons_of_mem _ hx))
    · intro v hv hv0 u' p hp hpv hu'lt
      have hold_case : v ∈ (u :: rest) ∨ v ∈ dn → u' = 1 ∨ u' ∈ dn ++ [u] := by
        intro hc
        rcases inv.enq_par v hc hv0 u' p hp hpv hu'lt with h1 | hd
        · exact Or.inl h1
        · exact Or.inr (List.mem_append.mpr (Or.inl hd))
      rcases hv with hv | hv
      · rcases List.mem_append.mp hv with hv | hv
        · exact hold_case (Or.inl (List.mem_cons_of_mem _ hv))
        · have hv' := hv
          rw [hids'] at hv'
          obtain ⟨c, hcmem, hc2⟩ := List.mem_map.mp hv'
          have huu' : u = u' ∧ c = p :=
            wf0.uniq u u' c p hcmem hp hu2n.2 hu'lt (by rw [hc2, hpv])
          right
          exact List.mem_append.mpr (Or.inr (by simp [huu'.1]))
      · rcases List.mem_append.mp hv with hv | hv
        · exact hold_case (Or.inr hv)
        · have hvu : v = u := by simpa using hv
          exact hold_case (Or.inl (by rw [hvu]; simp))

/-- Soundness of the whole BFS loop: from any invariant state it reaches
the empty queue with the invariant intact, having dequeued every queued
and previously dequeued state. -/
theorem bfsLoop_sound (sts0 : List ACState) (wf0 : TrieWF sts0) (wfuel : Nat) :
    ∀ (fuel : Nat) (queue : List Nat) (sts : List ACState) (dn : List Nat),
      BfsInv sts0 sts queue dn →
      ∀ sts', bfsLoop wfuel fuel sts queue = some sts' →
      ∃ dn', BfsInv sts0 sts' [] dn' ∧ (∀ x, x ∈ queue ∨ x ∈ dn → x ∈ dn') := by
  intro fuel
  induction fuel with
  | zero =>
    intro queue sts dn inv sts' hbl
    cases queue with
    | nil =>
      rw [bfsLoop] at hbl
      have hs : sts = sts' := Option.some.inj hbl
      refine ⟨dn, by rw [← hs]; exact inv, ?_⟩
      intro x hx
      rcases hx with hx | hx
      · cases hx
      · exact hx
    | cons u rest =>
      rw [bfsLoop] at hbl
      cases hbl
  | succ fuel ih =>
    intro queue sts dn inv sts' hbl
    cases queue with
    | nil =>
      rw [bfsLoop] at hbl
      have hs : sts = sts' := Option.some.inj hbl
      refine ⟨dn, by rw [← hs]; exact inv, ?_⟩
      intro x hx
      rcases hx with hx | hx
      · cases hx
      · exact hx
    | cons u rest =>
      rw [bfsLoop] at hbl
      match hpc : processChildren wfuel u sts (getState sts u).trans with
      | none => rw [hpc] at hbl; cases hbl
      | some (sts2, ids) =>
        rw [hpc] at hbl
        have hbl2 : (match copyMatches sts2 1 u with
            | none => none
            | some sts3 => bfsLoop wfuel fuel sts3 (rest ++ ids)) = some sts' := hbl
        match hcm : copyMatches sts2 1 u with
        | none => rw [hcm] at hbl2; cases hbl2
        | some sts3 =>
          rw [hcm] at hbl2
          have hbl3 : bfsLoop wfuel fuel sts3 (rest ++ ids) = some sts' := hbl2
          have inv2 := bfs_pop_sound sts0 sts wf0 u rest dn inv wfuel sts2 ids hpc sts3 hcm
          obtain ⟨dn', hinv', hsub⟩ := ih (rest ++ ids) sts3 (dn ++ [u]) inv2 sts' hbl3
          refine ⟨dn', hinv', ?_⟩
          intro x hx
          rcases hx with hx | hx
          · rcases List.mem_cons.mp hx with rfl | hx
            · exact hsub x (Or.inr (List.mem_append.mpr (Or.inr (by simp))))
            · exact hsub x (Or.inl (List.mem_append.mpr (Or.inl hx)))
          · exact hsub x (Or.inr (List.mem_append.mpr (Or.inl hx)))

/-- When the queue has emptied, every real trie state has been dequeued
(by induction on its path, via the coverage field of the invariant). -/
theorem final_all_done (sts0 sts : List ACState) (wf0 : TrieWF sts0) (dn : List Nat)
    (inv : BfsInv sts0 sts [] dn) :
    ∀ v, 2 ≤ v → v < sts0.length → v ∈ dn := by
  have hlen2 := wf0.len2
  have H : ∀ (n v : Nat) (wv : List Tok), wv.length ≤ n → 2 ≤ v → v < sts0.length →
      follow sts0 1 wv = some v → v ∈ dn := by
    intro n
    induction n with
    | zero =>
      intro v wv hn h2 hlt hv
      rw [List.length_eq_zero.mp (Nat.le_zero.mp hn)] at hv
      rw [follow] at hv
      have h1v := Option.some.inj hv
      exact absurd h2 (by omega)
    | succ n ih =>
      intro v wv hn h2 hlt hv
      have hvne : wv ≠ [] := by
        intro hcon
        rw [hcon, follow] at hv
        have h1v := Option.some.inj hv
        omega
      obtain ⟨w1, t, pz, hdec, hw1, hpz0, hpzl, hmem, htr⟩ :=
        path_last sts0 wf0 wv v hv hvne
      have hw1len : w1.length ≤ n := by
        have := congrArg List.length hdec
        simp at this
        omega
      by_cases hpz1 : pz = 1
      · rcases inv.cover v h2 hlt pz (t, v) hmem rfl hpzl (Or.inl hpz1) with hq | hd
        · cases hq
        · exact hd
      · have hpz2 : 2 ≤ pz := by omega
        have hpdn := ih pz w1 hw1len hpz2 hpzl hw1
        rcases inv.cover v h2 hlt pz (t, v) hmem rfl hpzl (Or.inr hpdn) with hq | hd
        · cases hq
        · exact hd
  intro v h2 hlt
  obtain ⟨wv, hwv⟩ := exists_path sts0 wf0 v (by omega) hlt
  exact H wv.length v wv le_rfl h2 hlt hwv

/-- The invariant holds when the BFS starts: the queue holds the start
state's transition targets followed by the fail sentinel, nothing has
been dequeued, and the state vector is the freshly built trie. -/
theorem initial_inv (sts0 : List ACState) (wf0 : TrieWF sts0) :
    BfsInv sts0 sts0
      ((((getState sts0 1).trans.map (fun p => p.2)).filter (fun i => i ≠ 1)) ++ [0])
      [] := by
  have hlen2 := wf0.len2
  have hq0filter : (((getState sts0 1).trans.map (fun p => p.2)).filter (fun i => i ≠ 1))
      = (getState sts0 1).trans.map (fun p => p.2) := by
    apply List.filter_eq_self.mpr
    intro a ha
    obtain ⟨c, hc, hc2⟩ := List.mem_map.mp ha
    obtain ⟨h2, _, _⟩ := wf0.tgt 1 c hc
    simp
    omega
  rw [hq0filter]
  have hq0path : ∀ x, x ∈ (getState sts0 1).trans.map (fun p => p.2) →
      2 ≤ x ∧ x < sts0.length ∧ ∃ c, c ∈ (getState sts0 1).trans ∧ c.2 = x ∧
        follow sts0 1 [c.1] = some x := by
    intro x hx
    obtain ⟨c, hc, hc2⟩ := List.mem_map.mp hx
    obtain ⟨h2, hlt, _⟩ := wf0.tgt 1 c hc
    refine ⟨by omega, by omega, c, hc, hc2, ?_⟩
    rw [follow, mem_transNextState _ c.1 c.2 (wf0.keys 1) (by
        rw [show (c.1, c.2) = c from rfl]; exact hc),
      if_neg (by omega), follow, hc2]
  have hnopath0 : ∀ w, follow sts0 1 w = some 0 → False := by
    intro w hw
    exact (follow_tgt sts0 wf0 w 1 0 (by omega) (by omega) hw).1 rfl
  have hq0len : ∀ x ∈ (getState sts0 1).trans.map (fun p => p.2),
      ∀ wx, follow sts0 1 wx = some x → wx.length = 1 := by
    intro x hx wx hwx
    obtain ⟨h2, hlt, c, hc, hc2, hcpath⟩ := hq0path x hx
    have hweq := follow_inj sts0 wf0 wx.length wx [c.1] x le_rfl hwx hcpath
    rw [hweq]
    rfl
  have hLPS1 : ∀ (t : Tok), LPS sts0 [t] 1 := by
    intro t
    refine ⟨[], by rw [follow], by simp, ⟨[t], by simp⟩, ?_⟩
    intro w2 hs hne _
    have hlt := proper_suffix_length_lt w2 [t] hs hne
    have h1 : w2.length < 1 := by simpa using hlt
    simp only [List.length_nil]
    omega
  have hsufsing : ∀ (w2 : List Tok) (t : Tok), w2 <:+ [t] → w2 = [] ∨ w2 = [t] := by
    intro w2 t hs
    by_cases he : w2 = [t]
    · exact Or.inr he
    · have hlt := proper_suffix_length_lt w2 [t] hs he
      have h1 : w2.length < 1 := by simpa using hlt
      exact Or.inl (List.length_eq_zero.mp (by omega))
  have hq0nodup : List.Nodup ((getState sts0 1).trans.map (fun p => p.2)) := by
    have hpw2 : ((getState sts0 1).trans).Pairwise (fun a b => a.2 ≠ b.2) := by
      refine (wf0.keys 1).imp_of_mem ?_
      intro a b hamem hbmem hab h2eq
      obtain ⟨_, habeq⟩ := wf0.uniq 1 1 a b hamem hbmem (by omega) (by omega) h2eq
      exact hab (by rw [habeq])
    exact List.pairwise_map.mpr hpw2
  refine ⟨?_, ?_, ?_, ?_, ?_, ?_, ?_, ?_, ?_, ?_, ?_, ?_, ?_, ?_, ?_, ?_, ?_, ?_⟩
  · rfl
  · exact fun u => rfl
  · intro v hv
    rcases hv with hv | hv
    · rcases List.mem_append.mp hv with hv | hv
      · obtain ⟨h2, hlt, _⟩ := hq0path v hv
        right
        omega
      · left
        simpa using hv
    · cases hv
  · exact wf0.fails 1
  · exact wf0.fails 0
  · rfl
  · intro h
    cases h
  · intro v hv hv0 w hw
    have hvq : v ∈ (getState sts0 1).trans.map (fun p => p.2) := by
      rcases hv with hv | hv
      · rcases List.mem_append.mp hv with hv | hv
        · exact hv
        · exact absurd (by simpa using hv) hv0
      · cases hv
    obtain ⟨h2, hlt, c, hc, hc2, hcpath⟩ := hq0path v hvq
    have hweq := follow_inj sts0 wf0 w.length w [c.1] v le_rfl hw hcpath
    rw [hweq, wf0.fails v]
    exact ⟨hLPS1 c.1, by omega, by omega⟩
  · intro v hv hv0 w hw u2 wu2 hu2p hsuf hu21 e he
    have hvq : v ∈ (getState sts0 1).trans.map (fun p => p.2) := by
      rcases hv with hv | hv
      · rcases List.mem_append.mp hv with hv | hv
        · exact hv
        · exact absurd (by simpa using hv) hv0
      · cases hv
    obtain ⟨h2, hlt, c, hc, hc2, hcpath⟩ := hq0path v hvq
    have hweq := follow_inj sts0 wf0 w.length w [c.1] v le_rfl hw hcpath
    rw [hweq] at hsuf
    rcases hsufsing wu2 c.1 hsuf with h | h
    · rw [h, follow] at hu2p
      exact absurd (Option.some.inj hu2p).symm hu21
    · rw [h] at hu2p
      have hv2 : u2 = v := Option.some.inj (hu2p.symm.trans hcpath)
      rw [hv2] at he
      exact he
  · intro v hv
    cases hv
  · intro v hv0 w hw e he
    exact ⟨v, w, hw, List.suffix_refl w, he⟩
  · intro v _ _ _
    exact ⟨rfl, wf0.fails v⟩
  · intro v h2 hlt u' p hp hpv hu'lt hsrc
    rcases hsrc with h1 | hd
    · left
      refine List.mem_append.mpr (Or.inl ?_)
      exact List.mem_map.mpr ⟨p, by rw [← h1]; exact hp, hpv⟩
    · cases hd
  · refine List.pairwise_append.mpr ⟨?_, by simp, ?_⟩
    · refine pairwise_of_mem _ _ ?_
      intro a ha b hb wa wb hwa hwb
      have hla := hq0len a ha wa hwa
      have hlb := hq0len b hb wb hwb
      omega
    · intro a ha b hb wa wb hwa hwb
      have hb0 : b = 0 := by simpa using hb
      rw [hb0] at hwb
      exact (hnopath0 wb hwb).elim
  · intro a ha b hb wa wb hwa hwb
    rcases List.mem_append.mp ha with ha | ha
    · rcases List.mem_append.mp hb with hb | hb
      · have hla := hq0len a ha wa hwa
        have hlb := hq0len b hb wb hwb
        omega
      · have hb0 : b = 0 := by simpa using hb
        rw [hb0] at hwb
        exact (hnopath0 wb hwb).elim
    · have ha0 : a = 0 := by simpa using ha
      rw [ha0] at hwa
      exact (hnopath0 wa hwa).elim
  · intro x hx hc
    cases hc
  · refine List.nodup_append.mpr ⟨hq0nodup, by simp, ?_⟩
    intro x hx hx0
    have hx0' : x = 0 := by simpa using hx0
    obtain ⟨h2, _, _⟩ := hq0path x hx
    omega
  · intro v hv hv0 u' p hp hpv hu'lt
    have hvq : v ∈ (getState sts0 1).trans.map (fun p => p.2) := by
      rcases hv with hv | hv
      · rcases List.mem_append.mp hv with hv | hv
        · exact hv
        · exact absurd (by simpa using hv) hv0
      · cases hv
    obtain ⟨h2, hlt, c, hc, hc2, hcpath⟩ := hq0path v hvq
    have huu' := wf0.uniq 1 u' c p hc hp (by omega) hu'lt (by rw [hc2, hpv])
    exact Or.inl huu'.1.symm

/-- Soundness of `fill_failure_transitions_standard`: on success, the
invariant holds with an empty queue, the fail sentinel and every real
trie state having been dequeued. -/
theorem fillFailure_sound (sts0 : List ACState) (wf0 : TrieWF sts0)
    (wfuel bfuel : Nat) (sts' : List ACState)
    (h : fillFailureWith wfuel bfuel sts0 = some sts') :
    ∃ dn, BfsInv sts0 sts' [] dn ∧ 0 ∈ dn ∧
      ∀ v, 2 ≤ v → v < sts0.length → v ∈ dn := by
  rw [fillFailureWith] at h
  obtain ⟨dn, hinv, hsub⟩ :=
    bfsLoop_sound sts0 wf0 wfuel bfuel
      ((((getState sts0 1).trans.map (fun p => p.2)).filter (fun i => i ≠ 1)) ++ [0])
      sts0 [] (initial_inv sts0 wf0) sts' h
  refine ⟨dn, hinv, ?_, final_all_done sts0 sts' wf0 dn hinv⟩
  exact hsub 0 (Or.inl (List.mem_append.mpr (Or.inr (by simp))))

/-- Origin of trie outputs: every output of the built trie was already
present, or is exactly the `(pattern_id, token_length)` record of one of
the inserted patterns, sitting at that pattern's terminal state.  Paths
are preserved. -/
theorem buildTrie_outputs_origin :
    ∀ (pats : List (List Tok)) (pati maxLen cnt : Nat) (sts : List ACState)
      (out : List ACState × Nat × Nat),
      TrieWF sts →
      buildTrie pati maxLen cnt sts pats = some out →
      (∀ u w0 r, follow sts u w0 = some r → follow out.1 u w0 = some r) ∧
      ∀ v e, e ∈ (getState out.1 v).outputs →
        e ∈ (getState sts v).outputs ∨
        ∃ j, ∃ hj : j < pats.length, e.1 = pati + j ∧
          e.2 = (pats.get ⟨j, hj⟩).length ∧
          follow out.1 1 (pats.get ⟨j, hj⟩) = some v := by
  intro pats
  induction pats with
  | nil =>
    intro pati maxLen cnt sts out wf h
    rw [buildTrie] at h
    cases h
    exact ⟨fun u w0 r hr => hr, fun v e he => Or.inl he⟩
  | cons pat pats2 ih =>
    intro pati maxLen cnt sts out wf h
    rw [buildTrie] at h
    match hins : trieInsertTokens sts 1 pat with
    | none => rw [hins] at h; cases h
    | some (sts2, prev) =>
      rw [hins] at h
      obtain ⟨wf2, hle2, hp20, hp2n, houts2, hfol2, htr2, _⟩ :=
        trieInsertTokens_sound pat sts 1 (sts2, prev) wf (by omega)
          (by have := wf.len2; omega) hins
      have hp20b : prev ≠ 0 := hp20
      have hp2nb : prev < sts2.length := hp2n
      have wfmid : TrieWF (addMatch sts2 prev pati pat.length) :=
        addMatch_wf sts2 prev pati pat.length wf2 hp20b
      obtain ⟨hmid_ne, hmid_self⟩ := addMatch_getState sts2 prev pati pat.length
      have hmid_tr : ∀ u, (getState (addMatch sts2 prev pati pat.length) u).trans
          = (getState sts2 u).trans := by
        intro u
        by_cases hu : u = prev
        · rw [hu, hmid_self hp2nb]
        · rw [hmid_ne u hu]
      have hmid_fol : ∀ w0 u, follow (addMatch sts2 prev pati pat.length) u w0
          = follow sts2 u w0 := by
        intro w0 u
        exact follow_congr _ sts2 hmid_tr w0 u
      obtain ⟨hfol3, horg3⟩ := ih (pati + 1) (max maxLen pat.length) (cnt + 1)
        (addMatch sts2 prev pati pat.length) out wfmid h
      constructor
      · intro u w0 r hr
        exact hfol3 u w0 r (by rw [hmid_fol]; exact hfol2 u w0 r hr)
      · intro v e he
        rcases horg3 v e he with hmid | ⟨j, hj, he1, he2, hef⟩
        · by_cases hv : v = prev
          · rw [hv, hmid_self hp2nb] at hmid
            rcases List.mem_append.mp hmid with h1 | h1
            · rw [houts2 prev] at h1
              exact Or.inl (by rw [hv]; exact h1)
            · have hee : e = (pati, pat.length) := by simpa using h1
              right
              refine ⟨0, by simp, by simp [hee], by simp [hee], ?_⟩
              show follow out.1 1 pat = some v
              rw [hv]
              exact hfol3 1 pat prev (by rw [hmid_fol]; exact htr2)
          · rw [hmid_ne v hv, houts2 v] at hmid
            exact Or.inl hmid
        · right
          exact ⟨j + 1, by simpa using hj, by omega, he2, hef⟩

/-- Every lookup in the initial two-state vector (fail sentinel and start
state) yields the fresh state. -/
theorem initial_all_fresh : ∀ u, getState [freshState, freshState] u = freshState := by
  intro u
  match u with
  | 0 => rfl
  | 1 => rfl
  | (n + 2) => rfl

/-- The initial two-state vector is a well-formed (empty) trie. -/
theorem initial_trie_wf : TrieWF [freshState, freshState] := by
  refine ⟨by simp, ?_, ?_, ?_, ?_, rfl, ?_⟩
  · intro u p hp
    rw [initial_all_fresh u] at hp
    cases hp
  · intro u
    rw [initial_all_fresh u]
    exact List.Pairwise.nil
  · intro u1 u2 p1 p2 hp1
    rw [initial_all_fresh u1] at hp1
    cases hp1
  · intro v h2 hlt
    simp at hlt
    exact absurd h2 (by omega)
  · intro v
    rw [initial_all_fresh v]
    rfl

/-- In the initial two-state vector, the only path from the start state
is the empty one. -/
theorem initial_trie_path : ∀ w0 : List Tok,
    (follow [freshState, freshState] 1 w0).isSome → w0 = [] := by
  intro w0 h
  cases w0 with
  | nil => rfl
  | cons t ts =>
    rw [follow] at h
    have h0 : transNextState (getState [freshState, freshState] 1).trans t = 0 := rfl
    rw [if_pos h0] at h
    cases h

/-- Everything a successful `Compiler::compile` guarantees: the start id
and pattern count, and the existence of the underlying goto trie `sts0`
(sharing all transitions with the final states via the invariant) with
the BFS completed over it: every real state dequeued, every trie output
the terminal record of one of the patterns, every pattern ending at a
terminal state carrying its record, and every path a prefix of some
pattern's token sequence. -/
theorem compileWith_sound (cc : CharClass) (wfuel bfuel : Nat)
    (patterns : List (List Char)) (nfa : ACNFA)
    (h : compileWith cc wfuel bfuel patterns = some nfa) :
    nfa.start_id = 1 ∧ nfa.pattern_count = patterns.length ∧
    ∃ sts0 dn, TrieWF sts0 ∧ nfa.states.length = sts0.length ∧
      BfsInv sts0 nfa.states [] dn ∧ 0 ∈ dn ∧
      (∀ v, 2 ≤ v → v < sts0.length → v ∈ dn) ∧
      (∀ v e, e ∈ (getState sts0 v).outputs →
        ∃ j, ∃ hj : j < patterns.length, e.1 = j ∧
          e.2 = (unicodeWordsModel cc (patterns.get ⟨j, hj⟩)).length ∧
          follow sts0 1 (unicodeWordsModel cc (patterns.get ⟨j, hj⟩)) = some v) ∧
      (∀ j, ∀ hj : j < patterns.length, ∃ v,
        follow sts0 1 (unicodeWordsModel cc (patterns.get ⟨j, hj⟩)) = some v ∧
        (j, (unicodeWordsModel cc (patterns.get ⟨j, hj⟩)).length) ∈
          (getState sts0 v).outputs) ∧
      (∀ w0 v, follow sts0 1 w0 = some v →
        w0 = [] ∨ ∃ p ∈ patterns.map (unicodeWordsModel cc), w0 <+: p) := by
  have h2 : (match buildTrie 0 0 0 [freshState, freshState]
        (patterns.map (unicodeWordsModel cc)) with
      | none => none
      | some (sts2, maxLen, cnt) =>
        match fillFailureWith wfuel bfuel sts2 with
        | none => none
        | some sts3 => some (⟨1, maxLen, cnt, sts3⟩ : ACNFA)) = some nfa := h
  match hbt : buildTrie 0 0 0 [freshState, freshState]
      (patterns.map (unicodeWordsModel cc)) with
  | none => rw [hbt] at h2; cases h2
  | some (sts2, maxLen, cnt) =>
    rw [hbt] at h2
    have h3 : (match fillFailureWith wfuel bfuel sts2 with
        | none => none
        | some sts3 => some (⟨1, maxLen, cnt, sts3⟩ : ACNFA)) = some nfa := h2
    match hff : fillFailureWith wfuel bfuel sts2 with
    | none => rw [hff] at h3; cases h3
    | some sts3 =>
      rw [hff] at h3
      have hnfa : nfa = ⟨1, maxLen, cnt, sts3⟩ := (Option.some.inj h3).symm
      obtain ⟨wfT, hdisc, hterm, hcnt, hlen0, houtL, hfolpres, horigin⟩ :=
        buildTrie_sound (patterns.map (unicodeWordsModel cc)) 0 0 0
          [freshState, freshState] (sts2, maxLen, cnt) initial_trie_wf
          (by intro v e he; rw [initial_all_fresh v] at he; cases he) hbt
      obtain ⟨_, horg⟩ :=
        buildTrie_outputs_origin (patterns.map (unicodeWordsModel cc)) 0 0 0
          [freshState, freshState] (sts2, maxLen, cnt) initial_trie_wf hbt
      have wfT' : TrieWF sts2 := wfT
      obtain ⟨dn, hinv, h0dn, halldn⟩ := fillFailure_sound sts2 wfT' wfuel bfuel sts3 hff
      refine ⟨by rw [hnfa], ?_, sts2, dn, wfT', ?_, ?_, h0dn, halldn, ?_, ?_, ?_⟩
      · rw [hnfa]
        show cnt = patterns.length
        have hc : cnt = 0 + (patterns.map (unicodeWordsModel cc)).length := hcnt
        simpa using hc
      · rw [hnfa]
        show sts3.length = sts2.length
        exact hinv.len_eq
      · rw [hnfa]
        exact hinv
      · intro v e he
        rcases horg v e he with hinit | ⟨j, hj, he1, he2, hef⟩
        · rw [initial_all_fresh v] at hinit
          cases hinit
        · have hj2 : j < patterns.length := by simpa using hj
          have hget : (patterns.map (unicodeWordsModel cc)).get ⟨j, hj⟩ =
              unicodeWordsModel cc (patterns.get ⟨j, hj2⟩) := by
            simp [List.get_eq_getElem]
          refine ⟨j, hj2, by omega, ?_, ?_⟩
          · rw [← hget]
            exact he2
          · rw [← hget]
            exact hef
      · intro j hj2
        have hj : j < (patterns.map (unicodeWordsModel cc)).length := by simpa using hj2
        obtain ⟨v, hv1, hv2⟩ := hterm j hj
        have hget : (patterns.map (unicodeWordsModel cc)).get ⟨j, hj⟩ =
            unicodeWordsModel cc (patterns.get ⟨j, hj2⟩) := by
          simp [List.get_eq_getElem]
        refine ⟨v, by rw [← hget]; exact hv1, ?_⟩
        rw [← hget]
        have hv2b : (0 + j, ((patterns.map (unicodeWordsModel cc)).get ⟨j, hj⟩).length)
            ∈ (getState sts2 v).outputs := hv2
        simpa using hv2b
      · intro w0 v hw0
        rcases horigin w0 v hw0 with hs | hp
        · exact Or.inl (initial_trie_path w0 hs)
        · exact Or.inr hp

/-- The only path from the start state to itself is the empty one. -/
theorem path_to_one (sts0 : List ACState) (wf0 : TrieWF sts0) (w : List Tok)
    (h : follow sts0 1 w = some 1) : w = [] := by
  by_cases hnil : w = []
  · exact hnil
  · obtain ⟨w1, t, u, _, _, _, _, hmem, _⟩ := path_last sts0 wf0 w 1 h hnil
    obtain ⟨h2, _, _⟩ := wf0.tgt u (t, 1) hmem
    exact absurd (show 2 ≤ 1 from h2) (by omega)

/-- If no suffix-path of `w` longer than `ws` continues by `t`, then
every suffix-path of `w ++ [t]` is at most one longer than `ws`. -/
theorem snoc_suffix_max (sts0 : List ACState) (w ws : List Tok) (t : Tok)
    (hB : ∀ w2, w2 <:+ w → (follow sts0 1 w2).isSome → w2.length > ws.length →
      follow sts0 1 (w2 ++ [t]) = none) :
    ∀ w2, w2 <:+ w ++ [t] → (follow sts0 1 w2).isSome → w2.length ≤ ws.length + 1 := by
  intro w2 hs2 hsome
  by_cases hnil : w2 = []
  · rw [hnil]
    simp
  · obtain ⟨w2h, heq, hw2hs⟩ := suffix_snoc_decomp w2 w t hs2 hnil
    by_cases hlen : w2h.length > ws.length
    · have hn := hB w2h hw2hs
        (follow_isSome_front sts0 w2h [t] 1 (by rw [← heq]; exact hsome)) hlen
      rw [heq, hn] at hsome
      cases hsome
    · have hl := congrArg List.length heq
      simp at hl
      omega

/-- When additionally the start state has no transition on `t` and no
nonempty suffix-path of `w` continues by `t`, no nonempty suffix of
`w ++ [t]` is a path at all. -/
theorem snoc_suffix_max0 (sts0 : List ACState) (w : List Tok) (t : Tok)
    (hB : ∀ w2, w2 <:+ w → (follow sts0 1 w2).isSome → w2.length > 0 →
      follow sts0 1 (w2 ++ [t]) = none)
    (hnx : transNextState (getState sts0 1).trans t = 0) :
    ∀ w2, w2 <:+ w ++ [t] → (follow sts0 1 w2).isSome → w2.length ≤ 0 := by
  intro w2 hs2 hsome
  by_cases hnil : w2 = []
  · rw [hnil]
    simp
  · obtain ⟨w2h, heq, hw2hs⟩ := suffix_snoc_decomp w2 w t hs2 hnil
    by_cases hlen : w2h.length > 0
    · have hn := hB w2h hw2hs
        (follow_isSome_front sts0 w2h [t] 1 (by rw [← heq]; exact hsome)) hlen
      rw [heq, hn] at hsome
      cases hsome
    · have hw2hnil : w2h = [] := List.length_eq_zero.mp (by omega)
      rw [heq, hw2hnil, List.nil_append, follow, if_pos hnx] at hsome
      cases hsome

/-- Soundness and totality of `NFA::next_state_unchecked` on a compiled
automaton: from the state of the longest suffix-path of the consumed
input `w`, reading `t` lands on the state of the longest suffix-path of
`w ++ [t]` (the start state when no nonempty suffix of `w ++ [t]` is a
path), for any fuel exceeding the current path length. -/
theorem nextState_walk (sts0 sts : List ACState) (wf0 : TrieWF sts0) (dn : List Nat)
    (inv : BfsInv sts0 sts [] dn) (hall : ∀ v, 2 ≤ v → v < sts0.length → v ∈ dn)
    (t : Tok) (w : List Tok) :
    ∀ (k : Nat) (s : Nat) (ws : List Tok) (fuel : Nat), ws.length ≤ k →
      follow sts0 1 ws = some s → ws <:+ w →
      (∀ w2, w2 <:+ w → (follow sts0 1 w2).isSome → w2.length > ws.length →
        follow sts0 1 (w2 ++ [t]) = none) →
      k < fuel →
      ∃ r wr, nextStateFueled sts 1 t fuel s = some r ∧
        follow sts0 1 wr = some r ∧ wr <:+ w ++ [t] ∧
        ∀ w2, w2 <:+ w ++ [t] → (follow sts0 1 w2).isSome → w2.length ≤ wr.length := by
  have hlen2 := wf0.len2
  intro k
  induction k with
  | zero =>
    intro s ws fuel hk hws hsuf hB hfuel
    have hwsnil : ws = [] := List.length_eq_zero.mp (by omega)
    subst hwsnil
    have hs1 : s = 1 := by
      rw [follow] at hws
      exact (Option.some.inj hws).symm
    subst hs1
    by_cases hnx0 : transNextState (getState sts0 1).trans t = 0
    · refine ⟨1, [], ?_, by rw [follow], ⟨w ++ [t], by simp⟩, ?_⟩
      · rw [nextStateFueled.eq_def]
        simp [inv.trans_eq 1, hnx0]
      · exact snoc_suffix_max0 sts0 w t (by simpa using hB) hnx0
    · refine ⟨transNextState (getState sts0 1).trans t, [] ++ [t], ?_, ?_, ?_, ?_⟩
      · rw [nextStateFueled.eq_def]
        simp [inv.trans_eq 1, hnx0]
      · rw [List.nil_append, follow, if_neg hnx0, follow]
      · exact suffix_append_right [] w [t] hsuf
      · simpa using snoc_suffix_max sts0 w [] t (by simpa using hB)
  | succ k ih =>
    intro s ws fuel hk hws hsuf hB hfuel
    by_cases hnx0 : transNextState (getState sts0 s).trans t = 0
    · by_cases hs1 : s = 1
      · subst hs1
        have hwsnil : ws = [] := path_to_one sts0 wf0 ws hws
        subst hwsnil
        refine ⟨1, [], ?_, by rw [follow], ⟨w ++ [t], by simp⟩, ?_⟩
        · rw [nextStateFueled.eq_def]
          simp [inv.trans_eq 1, hnx0]
        · exact snoc_suffix_max0 sts0 w t (by simpa using hB) hnx0
      · -- follow the failure link to the longest-proper-suffix state
        obtain ⟨hsne0, hslt, _⟩ := follow_tgt sts0 wf0 ws 1 s (by omega) (by omega) hws
        have hwsne : ws ≠ [] := by
          intro hcon
          rw [hcon, follow] at hws
          exact hs1 (Option.some.inj hws).symm
        have hs2 : 2 ≤ s := by
          rcases Nat.lt_or_ge s 2 with hlt | hge
          · interval_cases s
            · exact absurd rfl hsne0
            · exact absurd rfl hs1
          · exact hge
        have hsdn : s ∈ dn := hall s hs2 hslt
        obtain ⟨hlps, hfl, hfl0⟩ := inv.failq s (Or.inr hsdn) hsne0 ws hws
        obtain ⟨wf', hwf1, hwf2, hwf3, hwf4⟩ := hlps
        have hwflen : wf'.length < ws.length := proper_suffix_length_lt wf' ws hwf3 hwf2
        have hB' : ∀ w2, w2 <:+ w → (follow sts0 1 w2).isSome → w2.length > wf'.length →
            follow sts0 1 (w2 ++ [t]) = none := by
          intro w2 hsw hsme hgt
          by_cases hw2big : w2.length > ws.length
          · exact hB w2 hsw hsme hw2big
          · by_cases hw2eq : w2 = ws
            · rw [hw2eq, follow_append, hws, Option.some_bind, follow, if_pos hnx0]
            · have hw2s : w2 <:+ ws :=
                List.suffix_of_suffix_length_le hsw hsuf (by omega)
              have := hwf4 w2 hw2s hw2eq hsme
              omega
        cases fuel with
        | zero => exact absurd hfuel (by omega)
        | succ f2 =>
          obtain ⟨r, wr, hstep, hr, hrsuf, hrmax⟩ :=
            ih ((getState sts s).fail) wf' f2 (by omega) hwf1
              (hwf3.trans hsuf) hB' (by omega)
          refine ⟨r, wr, ?_, hr, hrsuf, hrmax⟩
          rw [nextStateFueled.eq_def]
          simp only [inv.trans_eq s, hnx0]
          simp [hs1]
          exact hstep
    · refine ⟨transNextState (getState sts0 s).trans t, ws ++ [t], ?_, ?_, ?_, ?_⟩
      · rw [nextStateFueled.eq_def]
        simp [inv.trans_eq s, hnx0]
      · rw [follow_append, hws, Option.some_bind, follow, if_neg hnx0, follow]
      · exact suffix_append_right ws w [t] hsuf
      · intro w2 ha hb
        have hmax := snoc_suffix_max sts0 w ws t hB w2 ha hb
        simpa using hmax

/-- Trie edges go to strictly larger state ids, so a path of length `l`
from `u` ends at a state of id at least `u + l`. -/
theorem path_length_le (sts0 : List ACState) (wf0 : TrieWF sts0) :
    ∀ (w : List Tok) (u v : Nat), u ≠ 0 → u < sts0.length → follow sts0 u w = some v →
      u + w.length ≤ v := by
  intro w
  induction w with
  | nil =>
    intro u v _ _ h
    rw [follow] at h
    have := Option.some.inj h
    simp
    omega
  | cons t ts ih =>
    intro u v hu0 hulen h
    rw [follow] at h
    by_cases h0 : transNextState (getState sts0 u).trans t = 0
    · rw [if_pos h0] at h
      cases h
    · rw [if_neg h0] at h
      have hmem := transNextState_mem _ t h0
      obtain ⟨h2, hlt, hgt⟩ := wf0.tgt u (t, transNextState (getState sts0 u).trans t) hmem
      have h2b : 2 ≤ transNextState (getState sts0 u).trans t := h2
      have hltb : transNextState (getState sts0 u).trans t < sts0.length := hlt
      have hgtb : u < transNextState (getState sts0 u).trans t := hgt
      have hih := ih (transNextState (getState sts0 u).trans t) v (by omega) (by omega) h
      simp at hih ⊢
      omega

/-- A small concrete pattern set (the patterns "ab cd" and "cd") and its
compiled automaton, used by the concrete witnesses below. -/
def demoPats : List (List Char) := [['a', 'b', ' ', 'c', 'd'], ['c', 'd']]

/-- The automaton compiled from `demoPats` (start 1; state 2 after token
`ab`, state 3 after `ab cd` — outputs of both patterns — and state 4
after `cd`). -/
def demoNFA : ACNFA :=
  ⟨1, 2, 2,
   [⟨[], 1, []⟩,
    ⟨[(['a', 'b'], 2), (['c', 'd'], 4)], 1, []⟩,
    ⟨[(['c', 'd'], 3)], 1, []⟩,
    ⟨[], 4, [(0, 2), (1, 1)]⟩,
    ⟨[], 1, [(1, 1)]⟩]⟩

/-- The compiler produces `demoNFA` from `demoPats`. -/
theorem demo_compiles : compileWith asciiCC 9 9 demoPats = some demoNFA := by rfl

/-- Claim C10: on a successfully built automaton, for every state and
every input token, the next-state function (with its canonical fuel)
terminates with a result that is a valid state id and never the fail
sentinel `0` — so the search iterator can never enter state `0` or index
out of bounds. -/
theorem c10_next_state_total_valid_nonfail
    (cc : CharClass) (wfuel bfuel : Nat) (patterns : List (List Char)) (nfa : ACNFA)
    (h : compileWith cc wfuel bfuel patterns = some nfa) :
    ∀ s, s < nfa.states.length → ∀ t : Tok,
      ∃ r, nextStateFueled nfa.states nfa.start_id t (walkFuelOf nfa.states) s = some r ∧
        r ≠ 0 ∧ r < nfa.states.length := by
  obtain ⟨hstart, hcount, sts0, dn, wf0, hlen, hinv, h0dn, halldn, horg, hterm, hpre⟩ :=
    compileWith_sound cc wfuel bfuel patterns nfa h
  have hlen2 := wf0.len2
  have hwfuel : walkFuelOf nfa.states = sts0.length + 1 := by
    rw [walkFuelOf, hlen]
  intro s hslt t
  have main : ∀ s2 ws fuel, follow sts0 1 ws = some s2 → ws.length < fuel →
      ∃ r, nextStateFueled nfa.states 1 t fuel s2 = some r ∧
        r ≠ 0 ∧ r < sts0.length := by
    intro s2 ws fuel hp hf
    obtain ⟨r, wr, hstep, hr, _, _⟩ :=
      nextState_walk sts0 nfa.states wf0 dn hinv halldn t ws ws.length s2 ws fuel
        le_rfl hp (List.suffix_refl ws)
        (by
          intro w2 hsw _ hgt
          exact absurd (List.IsSuffix.length_le hsw) (by omega))
        hf
    exact ⟨r, hstep,
      (follow_tgt sts0 wf0 wr 1 r (by omega) (by omega) hr).1,
      (follow_tgt sts0 wf0 wr 1 r (by omega) (by omega) hr).2.1⟩
  rw [hstart, hwfuel]
  by_cases hs0 : s = 0
  · -- the fail sentinel steps to its failure link, the start state
    subst hs0
    have hstep0 : nextStateFueled nfa.states 1 t (sts0.length + 1) 0 =
        nextStateFueled nfa.states 1 t sts0.length ((getState nfa.states 0).fail) := by
      rw [nextStateFueled.eq_def]
      have htr0 : transNextState (getState nfa.states 0).trans t = 0 := by
        rw [hinv.trans_eq 0, wf0.zero]
        rfl
      simp [htr0]
    rw [hstep0, hinv.fail0]
    obtain ⟨r, hstep, hr0, hrlt⟩ := main 1 [] sts0.length (by rw [follow]) (by simp; omega)
    exact ⟨r, hstep, hr0, by omega⟩
  · by_cases hs1 : s = 1
    · obtain ⟨r, hstep, hr0, hrlt⟩ :=
        main 1 [] (sts0.length + 1) (by rw [follow]) (by simp)
      rw [hs1]
      exact ⟨r, hstep, hr0, by omega⟩
    · have hs2 : 2 ≤ s := by omega
      have hslt0 : s < sts0.length := by rw [← hlen]; exact hslt
      obtain ⟨ws, hws⟩ := exists_path sts0 wf0 s (by omega) hslt0
      have hwslen : 1 + ws.length ≤ s := path_length_le sts0 wf0 ws 1 s (by omega) (by omega) hws
      obtain ⟨r, hstep, hr0, hrlt⟩ := main s ws (sts0.length + 1) hws (by omega)
      exact ⟨r, hstep, hr0, by omega⟩

/-! ## The run of the scanner over a token stream (for claims C5, C6) -/

/-- The state of the scanner after consuming a list of tokens from state
`s` (iterated `next_state_unchecked_no_fail` of `standard_find_at`). -/
def runState (sts : List ACState) (startId : Nat) : List Tok → Nat → Option Nat
  | [], s => some s
  | t :: ts, s =>
    match nextStateFueled sts startId t (walkFuelOf sts) s with
    | none => none
    | some s2 => runState sts startId ts s2

/-- `runState` splits over appending. -/
theorem runState_append (sts : List ACState) (startId : Nat) :
    ∀ (w1 w2 : List Tok) (s : Nat),
      runState sts startId (w1 ++ w2) s =
        match runState sts startId w1 s with
        | none => none
        | some s2 => runState sts startId w2 s2 := by
  intro w1
  induction w1 with
  | nil =>
    intro w2 s
    rw [List.nil_append, runState]
  | cons t ts ih =>
    intro w2 s
    rw [List.cons_append, runState, runState]
    match nextStateFueled sts startId t (walkFuelOf sts) s with
    | none => rfl
    | some s2 => exact ih w2 s2

/-- A scanner state is good for the consumed prefix `pre` when it is the
state of the longest suffix of `pre` that is a trie path. -/
def GoodState (sts0 : List ACState) (pre : List Tok) (s : Nat) : Prop :=
  ∃ ws, follow sts0 1 ws = some s ∧ ws <:+ pre ∧
    ∀ x, x <:+ pre → (follow sts0 1 x).isSome → x.length ≤ ws.length

/-- The start state is good for the empty prefix. -/
theorem goodState_init (sts0 : List ACState) : GoodState sts0 [] 1 := by
  refine ⟨[], by rw [follow], List.nil_suffix, ?_⟩
  intro x hx _
  have := List.IsSuffix.length_le hx
  simpa using this

/-- A good state is a valid non-sentinel state with path length below
the state count. -/
theorem goodState_valid (sts0 : List ACState) (wf0 : TrieWF sts0)
    (pre : List Tok) (s : Nat) (h : GoodState sts0 pre s) :
    s ≠ 0 ∧ s < sts0.length ∧
      ∃ ws, follow sts0 1 ws = some s ∧ ws.length < sts0.length ∧ ws.length ≤ pre.length := by
  have hlen2 := wf0.len2
  obtain ⟨ws, hws, hsuf, _⟩ := h
  obtain ⟨hs0, hslt, _⟩ := follow_tgt sts0 wf0 ws 1 s (by omega) (by omega) hws
  refine ⟨hs0, hslt, ws, hws, ?_, List.IsSuffix.length_le hsuf⟩
  by_cases hs1 : s = 1
  · rw [hs1] at hws
    have hnil : ws = [] := path_to_one sts0 wf0 ws hws
    rw [hnil]
    show ([] : List Tok).length < sts0.length
    simp
    omega
  · have := path_length_le sts0 wf0 ws 1 s (by omega) (by omega) hws
    omega

/-- One scanner step from a good state succeeds (with the canonical walk
fuel) and lands on a good state for the extended prefix. -/
theorem goodState_step (sts0 sts : List ACState) (wf0 : TrieWF sts0) (dn : List Nat)
    (inv : BfsInv sts0 sts [] dn) (hall : ∀ v, 2 ≤ v → v < sts0.length → v ∈ dn)
    (hlen : sts.length = sts0.length)
    (pre : List Tok) (s : Nat) (h : GoodState sts0 pre s) (t : Tok) :
    ∃ r, nextStateFueled sts 1 t (walkFuelOf sts) s = some r ∧
      GoodState sts0 (pre ++ [t]) r := by
  obtain ⟨ws, hws, hsuf, hmax⟩ := h
  obtain ⟨_, _, ws2, hws2, hwslt, _⟩ := goodState_valid sts0 wf0 pre s ⟨ws, hws, hsuf, hmax⟩
  have hwseq : ws2 = ws := follow_inj sts0 wf0 ws2.length ws2 ws s le_rfl hws2 hws
  have hwslt2 : ws.length < sts0.length := by rw [← hwseq]; exact hwslt
  obtain ⟨r, wr, hstep, hr, hrsuf, hrmax⟩ :=
    nextState_walk sts0 sts wf0 dn inv hall t pre ws.length s ws (walkFuelOf sts)
      le_rfl hws hsuf
      (by
        intro x hx hsome hgt
        exact absurd (hmax x hx hsome) (by omega))
      (by rw [walkFuelOf, hlen]; omega)
  exact ⟨r, hstep, wr, hr, hrsuf, hrmax⟩

/-- Scanning a token list from a good state succeeds and ends in a good
state. -/
theorem runState_good (sts0 sts : List ACState) (wf0 : TrieWF sts0) (dn : List Nat)
    (inv : BfsInv sts0 sts [] dn) (hall : ∀ v, 2 ≤ v → v < sts0.length → v ∈ dn)
    (hlen : sts.length = sts0.length) :
    ∀ (w pre : List Tok) (s : Nat), GoodState sts0 pre s →
      ∃ s2, runState sts 1 w s = some s2 ∧ GoodState sts0 (pre ++ w) s2 := by
  intro w
  induction w with
  | nil =>
    intro pre s h
    refine ⟨s, by rw [runState], by simpa using h⟩
  | cons t ts ih =>
    intro pre s h
    obtain ⟨r, hstep, hr⟩ := goodState_step sts0 sts wf0 dn inv hall hlen pre s h t
    obtain ⟨s2, hs2, hg2⟩ := ih (pre ++ [t]) r hr
    refine ⟨s2, ?_, by rw [show pre ++ t :: ts = (pre ++ [t]) ++ ts by simp]; exact hg2⟩
    rw [runState, hstep]
    exact hs2

/-- Every state's output list is bounded by `maxOutputs`. -/
theorem outputs_le_maxOutputs : ∀ (sts : List ACState) (i : Nat),
    (getState sts i).outputs.length ≤ maxOutputs sts := by
  intro sts
  induction sts with
  | nil =>
    intro i
    have : getState [] i = freshState := by
      cases i <;> rfl
    rw [this]
    exact Nat.le_refl _
  | cons st rest ih =>
    intro i
    cases i with
    | zero =>
      show st.outputs.length ≤ max st.outputs.length (maxOutputs rest)
      exact le_max_left _ _
    | succ n =>
      have hg : getState (st :: rest) (n + 1) = getState rest n := rfl
      rw [hg]
      calc (getState rest n).outputs.length ≤ maxOutputs rest := ih n
        _ ≤ max st.outputs.length (maxOutputs rest) := le_max_right _ _

/-- The outputs of the scanner state at position `j`, tagged as raw
matches with token-end `j`. -/
def posMatches (sts : List ACState) (startId : Nat) (hs : List Tok) (j : Nat) :
    List RawMatch :=
  match runState sts startId (hs.take j) startId with
  | none => []
  | some s => (getState sts s).outputs.map (fun e => ⟨e.1, e.2, j⟩)

/-- All raw matches of the scan, position by position, from position
`a` to the end of the stream. -/
def specStreamFrom (sts : List ACState) (startId : Nat) (hs : List Tok) (a : Nat) :
    List RawMatch :=
  (List.range' a (hs.length + 1 - a)).flatMap (posMatches sts startId hs)

/-- Peeling one position off the position-by-position match stream. -/
theorem specStreamFrom_cons (sts : List ACState) (startId : Nat) (hs : List Tok)
    (a : Nat) (ha : a ≤ hs.length) :
    specStreamFrom sts startId hs a =
      posMatches sts startId hs a ++ specStreamFrom sts startId hs (a + 1) := by
  rw [specStreamFrom, specStreamFrom]
  have hn : hs.length + 1 - a = (hs.length + 1 - (a + 1)) + 1 := by omega
  rw [hn, List.range'_succ, List.flatMap_cons]

/-- The position-by-position stream past the end of the haystack is
empty. -/
theorem specStreamFrom_end (sts : List ACState) (startId : Nat) (hs : List Tok) :
    specStreamFrom sts startId hs (hs.length + 1) = [] := by
  rw [specStreamFrom]
  have hn : hs.length + 1 - (hs.length + 1) = 0 := by omega
  rw [hn]
  rfl

/-- Closed form of `standard_find_at`'s forward scan: it returns `none`
exactly when no later position's state has outputs (and then the
position stream ahead is empty), and otherwise the first output of the
first later position with outputs, which heads the position stream. -/
theorem scan_closed (sts0 sts : List ACState) (wf0 : TrieWF sts0) (dn : List Nat)
    (inv : BfsInv sts0 sts [] dn) (hall : ∀ v, 2 ≤ v → v < sts0.length → v ∈ dn)
    (hlen : sts.length = sts0.length) (hs : List Tok) :
    ∀ (ts : List Tok) (at_ sid : Nat),
      hs.drop at_ = ts → at_ ≤ hs.length →
      runState sts 1 (hs.take at_) 1 = some sid →
      GoodState sts0 (hs.take at_) sid →
      (standardScan sts 1 ts at_ sid = none ∧
        specStreamFrom sts 1 hs (at_ + 1) = []) ∨
      (∃ j sid2 e tl,
        standardScan sts 1 ts at_ sid = some (⟨e.1, e.2, j⟩, sid2) ∧
        runState sts 1 (hs.take j) 1 = some sid2 ∧
        GoodState sts0 (hs.take j) sid2 ∧
        j ≤ hs.length ∧ at_ < j ∧
        (getState sts sid2).outputs = e :: tl ∧
        specStreamFrom sts 1 hs (at_ + 1) =
          (⟨e.1, e.2, j⟩ : RawMatch) ::
            (tl.map (fun e2 => (⟨e2.1, e2.2, j⟩ : RawMatch)) ++
              specStreamFrom sts 1 hs (j + 1))) := by
  intro ts
  induction ts with
  | nil =>
    intro at_ sid hdrop hat hrun hgood
    left
    refine ⟨by rw [standardScan], ?_⟩
    have hateq : at_ = hs.length := by
      rw [List.drop_eq_nil_iff] at hdrop
      omega
    rw [hateq]
    exact specStreamFrom_end sts 1 hs
  | cons t ts2 ih =>
    intro at_ sid hdrop hat hrun hgood
    have hlt : at_ < hs.length := by
      have := congrArg List.length hdrop
      simp at this
      omega
    have hdrop2 := List.drop_eq_getElem_cons hlt
    rw [hdrop] at hdrop2
    have ht : hs[at_] = t := ((List.cons.inj hdrop2).1).symm
    have hts2 : hs.drop (at_ + 1) = ts2 := ((List.cons.inj hdrop2).2).symm
    obtain ⟨r, hstep, hgood2⟩ :=
      goodState_step sts0 sts wf0 dn inv hall hlen (hs.take at_) sid hgood t
    have htake : hs.take (at_ + 1) = hs.take at_ ++ [t] := by
      rw [List.take_succ]
      simp [List.getElem?_eq_getElem hlt, ht]
    have hrun2 : runState sts 1 (hs.take (at_ + 1)) 1 = some r := by
      rw [htake, runState_append sts 1 (hs.take at_) [t] 1, hrun]
      show (match nextStateFueled sts 1 t (walkFuelOf sts) sid with
        | none => none
        | some s2 => runState sts 1 [] s2) = some r
      rw [hstep]
      rfl
    rw [← htake] at hgood2
    match houts : (getState sts r).outputs with
    | [] =>
      have hscan : standardScan sts 1 (t :: ts2) at_ sid =
          standardScan sts 1 ts2 (at_ + 1) r := by
        rw [standardScan, hstep]
        show (match (getState sts r).outputs with
          | [] => standardScan sts 1 ts2 (at_ + 1) r
          | (pid, plen) :: _ => some (⟨pid, plen, at_ + 1⟩, r)) = _
        rw [houts]
      have hposnil : posMatches sts 1 hs (at_ + 1) = [] := by
        have hpm : posMatches sts 1 hs (at_ + 1) =
            (match runState sts 1 (hs.take (at_ + 1)) 1 with
              | none => []
              | some s => (getState sts s).outputs.map
                  (fun e => (⟨e.1, e.2, at_ + 1⟩ : RawMatch))) := rfl
        rw [hpm, hrun2]
        show (getState sts r).outputs.map (fun e => (⟨e.1, e.2, at_ + 1⟩ : RawMatch)) = []
        rw [houts]
        rfl
      have hdecomp := specStreamFrom_cons sts 1 hs (at_ + 1) (by omega)
      rcases ih (at_ + 1) r hts2 (by omega) hrun2 hgood2 with ⟨hnone, hempty⟩ |
        ⟨j, sid2, e, tl, hscan2, hrun3, hgood3, hjle, hjgt, houts2, hspec⟩
      · left
        refine ⟨by rw [hscan]; exact hnone, ?_⟩
        rw [hdecomp, hposnil, hempty]
        rfl
      · right
        refine ⟨j, sid2, e, tl, by rw [hscan]; exact hscan2, hrun3, hgood3, hjle,
          by omega, houts2, ?_⟩
        rw [hdecomp, hposnil, hspec]
        rfl
    | e0 :: tl0 =>
      right
      refine ⟨at_ + 1, r, e0, tl0, ?_, hrun2, hgood2, by omega, by omega, houts, ?_⟩
      · rw [standardScan, hstep]
        show (match (getState sts r).outputs with
          | [] => standardScan sts 1 ts2 (at_ + 1) r
          | (pid, plen) :: _ => some (⟨pid, plen, at_ + 1⟩, r)) = _
        rw [houts]
      · have hdecomp := specStreamFrom_cons sts 1 hs (at_ + 1) (by omega)
        rw [hdecomp]
        have hpm : posMatches sts 1 hs (at_ + 1) =
            (match runState sts 1 (hs.take (at_ + 1)) 1 with
              | none => []
              | some s => (getState sts s).outputs.map
                  (fun e => (⟨e.1, e.2, at_ + 1⟩ : RawMatch))) := rfl
        rw [hpm, hrun2]
        show (getState sts r).outputs.map (fun e => (⟨e.1, e.2, at_ + 1⟩ : RawMatch))
            ++ specStreamFrom sts 1 hs (at_ + 1 + 1) = _
        rw [houts]
        rfl

/-- Closed form of the raw overlapping-match stream: with the iterator
at a good state, it is the truncation (by the remaining fuel) of the
remaining outputs of the current position followed by the
position-by-position stream of all later positions. -/
theorem rawStream_closed (sts0 sts : List ACState) (wf0 : TrieWF sts0) (dn : List Nat)
    (inv : BfsInv sts0 sts [] dn) (hall : ∀ v, 2 ≤ v → v < sts0.length → v ∈ dn)
    (hlen : sts.length = sts0.length) (hs : List Tok) :
    ∀ (fuel at_ sid mi : Nat),
      at_ ≤ hs.length →
      runState sts 1 (hs.take at_) 1 = some sid →
      GoodState sts0 (hs.take at_) sid →
      mi ≤ (getState sts sid).outputs.length →
      rawStreamAux sts 1 hs fuel at_ sid mi =
        ((((getState sts sid).outputs.drop mi).map
            (fun e => (⟨e.1, e.2, at_⟩ : RawMatch)))
          ++ specStreamFrom sts 1 hs (at_ + 1)).take fuel := by
  intro fuel
  induction fuel with
  | zero =>
    intro at_ sid mi _ _ _ _
    rw [rawStreamAux]
    rfl
  | succ fuel ih =>
    intro at_ sid mi hat hrun hgood hmi
    have hov : overlappingFindAt sts 1 hs at_ sid mi =
        (if mi < (getState sts sid).outputs.length then
          some (⟨((getState sts sid).outputs.getD mi (0, 0)).1,
                 ((getState sts sid).outputs.getD mi (0, 0)).2, at_⟩, sid, mi + 1)
        else
          match standardFindAt sts 1 hs at_ sid with
          | none => none
          | some (m, sid2) => some (m, sid2, 1)) := rfl
    by_cases hmil : mi < (getState sts sid).outputs.length
    · rw [if_pos hmil] at hov
      rw [rawStreamAux, hov]
      have hdrop := List.drop_eq_getElem_cons hmil
      rw [List.getD_eq_getElem _ _ hmil]
      rw [hdrop]
      have hih := ih at_ sid (mi + 1) hat hrun hgood (by omega)
      show (⟨((getState sts sid).outputs[mi]).1, ((getState sts sid).outputs[mi]).2, at_⟩
          : RawMatch) :: rawStreamAux sts 1 hs fuel at_ sid (mi + 1) = _
      rw [hih, List.map_cons, List.cons_append, List.take_succ_cons]
    · rw [if_neg hmil] at hov
      have hmieq : (getState sts sid).outputs.drop mi = [] :=
        List.drop_eq_nil_of_le (by omega)
      have hsidlt : sid < sts.length := by
        obtain ⟨_, hslt, _⟩ := goodState_valid sts0 wf0 (hs.take at_) sid hgood
        omega
      have hsf : standardFindAt sts 1 hs at_ sid = standardScan sts 1 (hs.drop at_) at_ sid := by
        rw [standardFindAt, if_pos hsidlt]
      rcases scan_closed sts0 sts wf0 dn inv hall hlen hs (hs.drop at_) at_ sid rfl
          hat hrun hgood with ⟨hnone, hempty⟩ |
        ⟨j, sid2, e, tl, hscan2, hrun3, hgood3, hjle, hjgt, houts2, hspec⟩
      · rw [hsf, hnone] at hov
        rw [rawStreamAux, hov, hmieq, hempty]
        rfl
      · rw [hsf, hscan2] at hov
        rw [rawStreamAux, hov]
        have hih := ih j sid2 1 hjle hrun3 hgood3 (by rw [houts2]; simp)
        show (⟨e.1, e.2, j⟩ : RawMatch) :: rawStreamAux sts 1 hs fuel j sid2 1 = _
        rw [hih, houts2, hmieq, hspec]
        simp only [List.map_nil, List.nil_append, List.take_succ_cons,
          List.drop_succ_cons, List.drop_zero]

/-- The whole position-by-position stream is shorter than the iteration
fuel `FindOverlappingIter` effectively gets. -/
theorem specStreamFrom_length_le (sts : List ACState) (startId : Nat) (hs : List Tok) :
    (specStreamFrom sts startId hs 0).length ≤ iterFuelOf sts hs := by
  rw [specStreamFrom, iterFuelOf]
  rw [List.length_flatMap]
  have hbound : ∀ x ∈ (List.range' 0 (hs.length + 1 - 0)).map
      (List.length ∘ posMatches sts startId hs), x ≤ maxOutputs sts := by
    intro x hx
    obtain ⟨j, _, hj2⟩ := List.mem_map.mp hx
    rw [← hj2]
    show (posMatches sts startId hs j).length ≤ maxOutputs sts
    have hpm : posMatches sts startId hs j =
        (match runState sts startId (hs.take j) startId with
          | none => []
          | some s => (getState sts s).outputs.map
              (fun e => (⟨e.1, e.2, j⟩ : RawMatch))) := rfl
    rw [hpm]
    match hr : runState sts startId (hs.take j) startId with
    | none => simp
    | some s =>
      show ((getState sts s).outputs.map (fun e => (⟨e.1, e.2, j⟩ : RawMatch))).length ≤ _
      rw [List.length_map]
      exact outputs_le_maxOutputs sts s
  have hsum := List.sum_le_card_nsmul _ (maxOutputs sts) hbound
  rw [List.length_map, List.length_range'] at hsum
  have hmul : (hs.length + 1 - 0) * maxOutputs sts ≤
      (hs.length + 2) * (maxOutputs sts + 2) :=
    Nat.mul_le_mul (by omega) (by omega)
  calc ((List.range' 0 (hs.length + 1 - 0)).map
        (List.length ∘ posMatches sts startId hs)).sum
      ≤ (hs.length + 1 - 0) * maxOutputs sts := by
        have hh : (hs.length + 1 - 0) • maxOutputs sts =
            (hs.length + 1 - 0) * maxOutputs sts := rfl
        rw [← hh]
        exact hsum
    _ ≤ (hs.length + 2) * (maxOutputs sts + 2) := hmul

/-- `find_overlapping_iter`'s raw-match stream equals the whole
position-by-position stream: the outputs of the scanner state at every
position, in position order. -/
theorem findOverlappingRaw_closed (cc : CharClass) (wfuel bfuel : Nat)
    (patterns : List (List Char)) (nfa : ACNFA)
    (h : compileWith cc wfuel bfuel patterns = some nfa) (hay : List Char) :
    findOverlappingRaw cc nfa hay =
      specStreamFrom nfa.states 1 (hayTokens cc hay) 0 := by
  obtain ⟨hstart, hcount, sts0, dn, wf0, hlen, hinv, h0dn, halldn, horg, hterm, hpre⟩ :=
    compileWith_sound cc wfuel bfuel patterns nfa h
  have hs0 : specStreamFrom nfa.states 1 (hayTokens cc hay) 0 =
      (((getState nfa.states 1).outputs.drop 0).map
          (fun e => (⟨e.1, e.2, 0⟩ : RawMatch)))
        ++ specStreamFrom nfa.states 1 (hayTokens cc hay) 1 := by
    rw [specStreamFrom_cons nfa.states 1 (hayTokens cc hay) 0 (by omega)]
    congr 1
  have hfr : findOverlappingRaw cc nfa hay =
      rawStreamAux nfa.states nfa.start_id (hayTokens cc hay)
        (iterFuelOf nfa.states (hayTokens cc hay)) 0 nfa.start_id 0 := rfl
  rw [hfr, hstart]
  rw [rawStream_closed sts0 nfa.states wf0 dn hinv halldn hlen (hayTokens cc hay)
    (iterFuelOf nfa.states (hayTokens cc hay)) 0 1 0 (by omega) rfl
    (goodState_init sts0) (by omega)]
  rw [← hs0]
  exact List.take_of_length_le (specStreamFrom_length_le nfa.states 1 (hayTokens cc hay))

/-- Claim C6: every overlapping occurrence of every pattern is reported.
If a pattern's token sequence is a suffix of the haystack tokens ending
at position `p` (tokens `0..p`), then the overlapping search emits a raw
match for that pattern with token-end `p + 1`. -/
theorem c6_every_overlapping_occurrence_reported
    (cc : CharClass) (wfuel bfuel : Nat) (patterns : List (List Char)) (nfa : ACNFA)
    (h : compileWith cc wfuel bfuel patterns = some nfa) (hay : List Char)
    (p : Nat) (hp : p < (hayTokens cc hay).length)
    (j : Nat) (hj : j < patterns.length)
    (hsuf : unicodeWordsModel cc (patterns.get ⟨j, hj⟩) <:+
      (hayTokens cc hay).take (p + 1)) :
    (⟨j, (unicodeWordsModel cc (patterns.get ⟨j, hj⟩)).length, p + 1⟩ : RawMatch) ∈
      findOverlappingRaw cc nfa hay := by
  obtain ⟨hstart, hcount, sts0, dn, wf0, hlen, hinv, h0dn, halldn, horg, hterm, hpre⟩ :=
    compileWith_sound cc wfuel bfuel patterns nfa h
  have hlen2 := wf0.len2
  rw [findOverlappingRaw_closed cc wfuel bfuel patterns nfa h hay]
  obtain ⟨s2, hrun, hgood⟩ :=
    runState_good sts0 nfa.states wf0 dn hinv halldn hlen
      ((hayTokens cc hay).take (p + 1)) [] 1 (goodState_init sts0)
  rw [List.nil_append] at hgood
  obtain ⟨ws, hws, hwssuf, hwsmax⟩ := hgood
  obtain ⟨v, hv1, hv2⟩ := hterm j hj
  have hqws : unicodeWordsModel cc (patterns.get ⟨j, hj⟩) <:+ ws := by
    refine List.suffix_of_suffix_length_le hsuf hwssuf ?_
    exact hwsmax _ hsuf (by rw [hv1]; rfl)
  obtain ⟨hs20, hs2lt, _⟩ := follow_tgt sts0 wf0 ws 1 s2 (by omega) (by omega) hws
  have hmem : (j, (unicodeWordsModel cc (patterns.get ⟨j, hj⟩)).length) ∈
      (getState nfa.states s2).outputs := by
    by_cases hq : unicodeWordsModel cc (patterns.get ⟨j, hj⟩) = []
    · -- an empty tokenization sits at the start state and is propagated
      -- to every state by `copy_empty_matches`
      have hv1' : v = 1 := by
        rw [hq, follow] at hv1
        exact (Option.some.inj hv1).symm
      rw [hv1'] at hv2
      by_cases hs21 : s2 = 1
      · rw [hs21, hinv.out1]
        exact hv2
      · have hs22 : 2 ≤ s2 := by
          rcases Nat.lt_or_ge s2 2 with hlt | hge
          · interval_cases s2
            · exact absurd rfl hs20
            · exact absurd rfl hs21
          · exact hge
        exact hinv.lbD1 s2 (halldn s2 hs22 hs2lt) hs20 _ hv2
    · -- a nonempty tokenization's terminal state is a suffix state
      have hv2' : 2 ≤ v :=
        (follow_tgt sts0 wf0 _ 1 v (by omega) (by omega) hv1).2.2 hq
      have hs21 : s2 ≠ 1 := by
        intro hcon
        rw [hcon] at hws
        have := path_to_one sts0 wf0 ws hws
        rw [this] at hqws
        exact hq (List.suffix_nil.mp hqws)
      have hs22 : 2 ≤ s2 := by
        rcases Nat.lt_or_ge s2 2 with hlt | hge
        · interval_cases s2
          · exact absurd rfl hs20
          · exact absurd rfl hs21
        · exact hge
      exact hinv.lbq s2 (Or.inr (halldn s2 hs22 hs2lt)) hs20 ws hws v _ hv1 hqws
        (by omega) _ hv2
  rw [specStreamFrom]
  refine List.mem_flatMap.mpr ⟨p + 1, ?_, ?_⟩
  · rw [List.mem_range'_1]
    omega
  · have hpm : posMatches nfa.states 1 (hayTokens cc hay) (p + 1) =
        (match runState nfa.states 1 ((hayTokens cc hay).take (p + 1)) 1 with
          | none => []
          | some s => (getState nfa.states s).outputs.map
              (fun e => (⟨e.1, e.2, p + 1⟩ : RawMatch))) := rfl
    rw [hpm, hrun]
    show _ ∈ (getState nfa.states s2).outputs.map
        (fun e => (⟨e.1, e.2, p + 1⟩ : RawMatch))
    exact List.mem_map.mpr ⟨_, hmem, rfl⟩

/-- Concrete instantiation of C6: on the haystack "ab cd", the pattern
"ab cd" (tokens `[ab, cd]`, a suffix of the tokens ending at position 1)
is reported with token-end 2. -/
theorem c6_every_overlapping_occurrence_reported_witness :
    compileWith asciiCC 9 9 demoPats = some demoNFA ∧
    (⟨0, 2, 2⟩ : RawMatch) ∈
      findOverlappingRaw asciiCC demoNFA ['a', 'b', ' ', 'c', 'd'] :=
  ⟨demo_compiles,
   c6_every_overlapping_occurrence_reported asciiCC 9 9 demoPats demoNFA demo_compiles
     ['a', 'b', ' ', 'c', 'd'] 1 (by decide) 0 (by decide) (by decide)⟩

/-- Concrete instantiation of C10: from state 3 of the demo automaton
(a match state with no transitions) on token `cd`, the next-state walk
terminates on a valid non-sentinel state. -/
theorem c10_next_state_total_valid_nonfail_witness :
    compileWith asciiCC 9 9 demoPats = some demoNFA ∧ (3 : Nat) < demoNFA.states.length ∧
    ∃ r, nextStateFueled demoNFA.states demoNFA.start_id ['c', 'd']
        (walkFuelOf demoNFA.states) 3 = some r ∧ r ≠ 0 ∧ r < demoNFA.states.length :=
  ⟨demo_compiles, by decide,
   c10_next_state_total_valid_nonfail asciiCC 9 9 demoPats demoNFA demo_compiles 3
     (by decide) ['c', 'd']⟩

/-- `SimpleFinderIter::next` only emits a pair when the datum lookup at
the match's pattern id succeeds, and pairs exactly that datum. -/
theorem attachData_mem (D : Type) (datas : List D) :
    ∀ (ms : List CharMatch) (md : CharMatch × D), md ∈ attachData D datas ms →
      datas.get? md.1.pattern = some md.2 := by
  intro ms
  induction ms with
  | nil =>
    intro md hmd
    cases hmd
  | cons m ms2 ih =>
    intro md hmd
    rw [attachData] at hmd
    match hg : datas.get? m.pattern with
    | none =>
      rw [hg] at hmd
      cases hmd
    | some d =>
      rw [hg] at hmd
      rcases List.mem_cons.mp hmd with rfl | hmd2
      · exact hg
      · exact ih md hmd2

/-- Claim C9: every match returned by `find_all` of a finder built from
`k` (pattern, datum) pairs carries a pattern id in `[0, k)`, and the
datum paired with it is exactly the datum supplied alongside the pattern
inserted at that (0-based) position. -/
theorem c9_find_all_pattern_id_and_datum
    (cc : CharClass) (D : Type) (pats : List (List Char × D)) (nfa : ACNFA)
    (datas : List D) (h : simpleFinderNew cc D pats = some (nfa, datas))
    (hay : List Char) :
    ∀ md ∈ findAll cc D nfa datas hay,
      md.1.pattern < pats.length ∧
      (pats.map (fun q => q.2)).get? md.1.pattern = some md.2 := by
  have h2 : (match compileNFA cc (pats.map (fun p => p.1)) with
      | none => none
      | some nfa2 => some (nfa2, pats.map (fun p => p.2))) = some (nfa, datas) := h
  have hd : datas = pats.map (fun q => q.2) := by
    match hc : compileNFA cc (pats.map (fun p => p.1)) with
    | none =>
      rw [hc] at h2
      cases h2
    | some nfa2 =>
      rw [hc] at h2
      exact (congrArg Prod.snd (Option.some.inj h2)).symm
  intro md hmd
  have hget := attachData_mem D datas (findOverlapping cc nfa hay) md hmd
  obtain ⟨hlt, _⟩ := List.get?_eq_some.mp hget
  constructor
  · rw [hd] at hlt
    simpa using hlt
  · rw [← hd]
    exact hget

/-- Concrete instantiation of C9 on the demo finder with data 10, 20. -/
theorem c9_find_all_pattern_id_and_datum_witness :
    simpleFinderNew asciiCC Nat [(['a', 'b', ' ', 'c', 'd'], 10), (['c', 'd'], 20)] =
      some (demoNFA, [10, 20]) ∧
    ∀ md ∈ findAll asciiCC Nat demoNFA [10, 20] ['a', 'b', ' ', 'c', 'd'],
      md.1.pattern < ([(['a', 'b', ' ', 'c', 'd'], 10), (['c', 'd'], 20)]
        : List (List Char × Nat)).length ∧
      (([(['a', 'b', ' ', 'c', 'd'], 10), (['c', 'd'], 20)]
        : List (List Char × Nat)).map (fun q => q.2)).get? md.1.pattern = some md.2 :=
  ⟨by rfl,
   c9_find_all_pattern_id_and_datum asciiCC Nat
     [(['a', 'b', ' ', 'c', 'd'], 10), (['c', 'd'], 20)] demoNFA [10, 20] (by rfl)
     ['a', 'b', ' ', 'c', 'd']⟩

/-- Modelled from the spec: `f` is the state whose token path is the
longest proper suffix of `w` that is itself a prefix of some pattern's
token sequence (the start state, path `[]`, when no such suffix
exists). -/
def SpecFail (pats : List (List Tok)) (sts : List ACState) (w : List Tok) (f : Nat) : Prop :=
  ∃ wf, follow sts 1 wf = some f ∧ wf ≠ w ∧ wf <:+ w ∧
    (wf = [] ∨ ∃ p ∈ pats, wf <+: p) ∧
    ∀ w2, w2 <:+ w → w2 ≠ w → (∃ p ∈ pats, w2 <+: p) → w2.length ≤ wf.length

/-- Claim C7: after compilation, for every non-start state `v` with token
path `w`: `fail(v) ≠ v`; `fail(v)` is the state of the longest proper
suffix of `w` that is a prefix of some pattern (the start state if
none); and `v`'s output list contains all outputs of its failure
ancestor as well as its own terminal records. -/
theorem c7_failure_links_and_match_propagation
    (cc : CharClass) (wfuel bfuel : Nat) (patterns : List (List Char)) (nfa : ACNFA)
    (h : compileWith cc wfuel bfuel patterns = some nfa) :
    ∀ w v, follow nfa.states 1 w = some v → v ≠ 1 →
      (getState nfa.states v).fail ≠ v ∧
      SpecFail (patterns.map (unicodeWordsModel cc)) nfa.states w
        ((getState nfa.states v).fail) ∧
      (∀ e ∈ (getState nfa.states ((getState nfa.states v).fail)).outputs,
        e ∈ (getState nfa.states v).outputs) ∧
      (∀ j, ∀ hj : j < patterns.length,
        unicodeWordsModel cc (patterns.get ⟨j, hj⟩) = w →
        (j, w.length) ∈ (getState nfa.states v).outputs) := by
  obtain ⟨hstart, hcount, sts0, dn, wf0, hlen, hinv, h0dn, halldn, horg, hterm, hpre⟩ :=
    compileWith_sound cc wfuel bfuel patterns nfa h
  have hlen2 := wf0.len2
  have hfoleq : ∀ (x : List Tok) (u : Nat), follow nfa.states u x = follow sts0 u x :=
    follow_congr nfa.states sts0 hinv.trans_eq
  -- trie paths are exactly the prefixes of pattern token sequences
  have hbridge : ∀ w2 : List Tok, (follow sts0 1 w2).isSome ↔
      (w2 = [] ∨ ∃ p ∈ patterns.map (unicodeWordsModel cc), w2 <+: p) := by
    intro w2
    constructor
    · intro hsome
      match hv : follow sts0 1 w2 with
      | none => rw [hv] at hsome; cases hsome
      | some u => exact hpre w2 u hv
    · intro hcase
      rcases hcase with rfl | ⟨p, hp, hpref⟩
      · rw [follow]
        rfl
      · obtain ⟨pat, hpat, hpeq⟩ := List.mem_map.mp hp
        obtain ⟨i, hieq⟩ := List.mem_iff_get.mp hpat
        obtain ⟨vj, hvj1, _⟩ := hterm i.1 i.2
        obtain ⟨rest, hrest⟩ := hpref
        have hppath : follow sts0 1 p = some vj := by
          rw [← hpeq, ← hieq]
          show follow sts0 1 (unicodeWordsModel cc (patterns.get ⟨i.1, i.2⟩)) = some vj
          exact hvj1
        refine follow_isSome_front sts0 w2 rest 1 ?_
        rw [hrest, hppath]
        rfl
  intro w v hw hv1
  have hw0 : follow sts0 1 w = some v := by rw [← hfoleq]; exact hw
  obtain ⟨hv0, hvlt, _⟩ := follow_tgt sts0 wf0 w 1 v (by omega) (by omega) hw0
  have hv2 : 2 ≤ v := by
    rcases Nat.lt_or_ge v 2 with hlt | hge
    · interval_cases v
      · exact absurd rfl hv0
      · exact absurd rfl hv1
    · exact hge
  have hvdn : v ∈ dn := halldn v hv2 hvlt
  obtain ⟨hlps, hflt, hf0⟩ := hinv.failq v (Or.inr hvdn) hv0 w hw0
  obtain ⟨wf, hwf1, hwf2, hwf3, hwf4⟩ := hlps
  refine ⟨?_, ?_, ?_, ?_⟩
  · -- fail(v) = v would make w its own proper suffix
    intro hcon
    rw [hcon] at hwf1
    exact hwf2 (follow_inj sts0 wf0 wf.length wf w v le_rfl hwf1 hw0)
  · refine ⟨wf, by rw [hfoleq]; exact hwf1, hwf2, hwf3, ?_, ?_⟩
    · rcases (hbridge wf).mp (by rw [hwf1]; rfl) with hnil | hpref
      · exact Or.inl hnil
      · exact Or.inr hpref
    · intro w2 hs2 hne2 hpref2
      exact hwf4 w2 hs2 hne2 ((hbridge w2).mpr (Or.inr hpref2))
  · -- all outputs of the failure ancestor are propagated
    intro e he
    obtain ⟨u2, wu2, hp2, hs2, he2⟩ :=
      hinv.ub ((getState nfa.states v).fail) hf0 wf hwf1 e he
    by_cases hu21 : u2 = 1
    · rw [hu21] at he2
      exact hinv.lbD1 v hvdn hv0 e he2
    · exact hinv.lbq v (Or.inr hvdn) hv0 w hw0 u2 wu2 hp2 (hs2.trans hwf3) hu21 e he2
  · -- the state's own terminal records are present
    intro j hj hjw
    obtain ⟨vj, hvj1, hvj2⟩ := hterm j hj
    rw [hjw] at hvj1 hvj2
    have hvv : vj = v := Option.some.inj (hvj1.symm.trans hw0)
    rw [hvv] at hvj2
    exact hinv.lbq v (Or.inr hvdn) hv0 w hw0 v w hw0 (List.suffix_refl w) hv1 _ hvj2

/-- Concrete instantiation of C7 at state 3 of the demo automaton (path
`[ab, cd]`): its failure link is state 4 (path `[cd]`, a prefix of the
pattern "cd"), not itself, and state 4's output is propagated. -/
theorem c7_failure_links_and_match_propagation_witness :
    compileWith asciiCC 9 9 demoPats = some demoNFA ∧
    follow demoNFA.states 1 [['a', 'b'], ['c', 'd']] = some 3 ∧
    ((getState demoNFA.states 3).fail ≠ 3 ∧
      SpecFail (demoPats.map (unicodeWordsModel asciiCC)) demoNFA.states
        [['a', 'b'], ['c', 'd']] ((getState demoNFA.states 3).fail) ∧
      (∀ e ∈ (getState demoNFA.states ((getState demoNFA.states 3).fail)).outputs,
        e ∈ (getState demoNFA.states 3).outputs) ∧
      (∀ j, ∀ hj : j < demoPats.length,
        unicodeWordsModel asciiCC (demoPats.get ⟨j, hj⟩) = [['a', 'b'], ['c', 'd']] →
        (j, ([['a', 'b'], ['c', 'd']] : List Tok).length) ∈
          (getState demoNFA.states 3).outputs)) :=
  ⟨demo_compiles, by rfl,
   c7_failure_links_and_match_propagation asciiCC 9 9 demoPats demoNFA demo_compiles
     [['a', 'b'], ['c', 'd']] 3 (by rfl) (by decide)⟩

/-- Modelled from the spec: the claimed coordinate remap
`char_start = offsets[end - len]`, `char_end = offsets[end - 1]`,
`char_len = char_end - char_start`, reported as
`(pid, char_len, char_end)`. -/
def specRemap (offsets : List Nat) (m : RawMatch) : Option CharMatch :=
  match offsets.get? (m.endPos - m.len) with
  | none => none
  | some s =>
    match offsets.get? (m.endPos - 1) with
    | none => none
    | some e => some ⟨m.pattern, e - s, e⟩

/-- The reported stream runs in lockstep with the raw stream: element
`i` of the reported stream is exactly the facade's remap
(`offsets[end] − 1`, not the claimed `offsets[end − 1]`) of element `i`
of the raw stream. -/
theorem iter_raw_lockstep (sts : List ACState) (startId : Nat) (hs : List Tok)
    (offsets : List Nat) :
    ∀ (fuel at_ sid mi i : Nat) (m2 : CharMatch),
      (findIterAux sts startId hs offsets fuel at_ sid mi).get? i = some m2 →
      ∃ m, (rawStreamAux sts startId hs fuel at_ sid mi).get? i = some m ∧
        remap offsets m = some m2 := by
  intro fuel
  induction fuel with
  | zero =>
    intro at_ sid mi i m2 hm
    rw [findIterAux] at hm
    cases hm
  | succ fuel ih =>
    intro at_ sid mi i m2 hm
    rw [findIterAux] at hm
    rw [rawStreamAux]
    match hov : overlappingFindAt sts startId hs at_ sid mi with
    | none =>
      rw [hov] at hm
      cases hm
    | some (m, sid2, mi2) =>
      rw [hov] at hm
      have hm2 : (match remap offsets m with
          | none => []
          | some mm =>
            mm :: findIterAux sts startId hs offsets fuel m.endPos sid2 mi2).get? i
          = some m2 := hm
      match hrm : remap offsets m with
      | none =>
        rw [hrm] at hm2
        cases hm2
      | some mm =>
        rw [hrm] at hm2
        match i with
        | 0 =>
          refine ⟨m, rfl, ?_⟩
          rw [hrm]
          have : mm = m2 := Option.some.inj hm2
          rw [this]
        | i + 1 =>
          exact ih m.endPos sid2 mi2 i m2 hm2

/-- Claim C2 (amended): element `i` of `find_all`'s reported stream is
the facade remap (`end_idx = offsets[end] − 1` in `u32` arithmetic) of
element `i` of the raw token-coordinate stream. -/
theorem c2_reported_matches_are_remapped_raw_matches
    (cc : CharClass) (nfa : ACNFA) (hay : List Char) :
    ∀ i m2, (findOverlapping cc nfa hay).get? i = some m2 →
      ∃ m, (findOverlappingRaw cc nfa hay).get? i = some m ∧
        remap (offsetsOf cc hay) m = some m2 := by
  intro i m2 hm
  exact iter_raw_lockstep nfa.states nfa.start_id (hayTokens cc hay)
    (offsetsOf cc hay) (iterFuelOf nfa.states (hayTokens cc hay)) 0 nfa.start_id 0 i m2 hm

/-- The remap the claim describes differs from the code on the pattern
"foo" against the haystack "foo": the raw match is `(0, 1, 1)` (one
token), the code reports `(0, 3, 3)` via `offsets[end] − 1 = 4 − 1`, but
the claimed `offsets[end − 1] = offsets[0] = 0` would report
`(0, 0, 0)`. -/
theorem c2_counterexample :
    ∃ nfa, compileWith asciiCC 4 4 [['f', 'o', 'o']] = some nfa ∧
      findOverlappingRaw asciiCC nfa ['f', 'o', 'o'] = [⟨0, 1, 1⟩] ∧
      findOverlapping asciiCC nfa ['f', 'o', 'o'] = [⟨0, 3, 3⟩] ∧
      offsetsOf asciiCC ['f', 'o', 'o'] = [0, 4] ∧
      specRemap (offsetsOf asciiCC ['f', 'o', 'o']) ⟨0, 1, 1⟩ = some ⟨0, 0, 0⟩ ∧
      remap (offsetsOf asciiCC ['f', 'o', 'o']) ⟨0, 1, 1⟩ = some ⟨0, 3, 3⟩ ∧
      (⟨0, 3, 3⟩ : CharMatch) ≠ ⟨0, 0, 0⟩ :=
  ⟨⟨1, 1, 1,
    [⟨[], 1, []⟩, ⟨[(['f', 'o', 'o'], 2)], 1, []⟩, ⟨[], 1, [(0, 1)]⟩]⟩,
   by rfl, by rfl, by rfl, by rfl, by rfl, by rfl, by decide⟩

/-- Concrete instantiation of the amended C2 on the demo finder and the
haystack "ab cd": the first reported match `(0, 5, 5)` is the remap of
the first raw match. -/
theorem c2_reported_matches_are_remapped_raw_matches_witness :
    (findOverlapping asciiCC demoNFA ['a', 'b', ' ', 'c', 'd']).get? 0 =
      some ⟨0, 5, 5⟩ ∧
    ∃ m, (findOverlappingRaw asciiCC demoNFA ['a', 'b', ' ', 'c', 'd']).get? 0 =
        some m ∧
      remap (offsetsOf asciiCC ['a', 'b', ' ', 'c', 'd']) m = some ⟨0, 5, 5⟩ :=
  ⟨by rfl,
   c2_reported_matches_are_remapped_raw_matches asciiCC demoNFA
     ['a', 'b', ' ', 'c', 'd'] 0 ⟨0, 5, 5⟩ (by rfl)⟩

/-! ## Offset-map facts (for claim C5) -/

/-- Chunks produced by the boundary iterator are nonempty and their
lengths sum to the input length. -/
theorem boundariesAux_facts (cc : CharClass) :
    ∀ (s : List Char) (acc : List Char) (a : Char),
      (∀ ch ∈ boundariesAux cc acc a s, ch ≠ []) ∧
      ((boundariesAux cc acc a s).map List.length).sum = acc.length + 1 + s.length := by
  intro s
  induction s with
  | nil =>
    intro acc a
    rw [boundariesAux]
    constructor
    · intro ch hch
      have hch2 : ch = acc ++ [a] := by simpa using hch
      rw [hch2]
      simp
    · simp
  | cons b s2 ih =>
    intro acc a
    rw [boundariesAux]
    by_cases hbr : breakBetween cc a b
    · rw [if_pos hbr]
      constructor
      · intro ch hch
        rcases List.mem_cons.mp hch with rfl | hch2
        · simp
        · exact (ih [] b).1 ch hch2
      · have hsum := (ih [] b).2
        simp at hsum ⊢
        omega
    · rw [if_neg hbr]
      constructor
      · exact (ih (acc ++ [a]) b).1
      · have hsum := (ih (acc ++ [a]) b).2
        simp at hsum ⊢
        omega

/-- The boundary chunks of a string are nonempty and their lengths sum
to the string length. -/
theorem unicodeWordBoundaries_facts (cc : CharClass) (s : List Char) :
    (∀ ch ∈ unicodeWordBoundaries cc s, ch ≠ []) ∧
    ((unicodeWordBoundaries cc s).map List.length).sum = s.length := by
  cases s with
  | nil =>
    rw [unicodeWordBoundaries]
    exact ⟨fun ch hch => absurd hch (List.not_mem_nil ch), rfl⟩
  | cons c s2 =>
    rw [unicodeWordBoundaries]
    have h := boundariesAux_facts cc s2 [] c
    refine ⟨h.1, ?_⟩
    rw [h.2]
    simp
    omega

/-- The offset tagging of nonempty chunks yields strictly separated
offsets: each entry's offset plus its chunk length is at most the next
entry's offset, and all stay within the total length bound. -/
theorem indicesInnerAux_facts :
    ∀ (chunks : List (List Char)) (off L : Nat),
      off + (chunks.map List.length).sum ≤ L → L < U32 →
      (∀ ch ∈ chunks, ch ≠ []) →
      List.Pairwise (fun p q => p.1 + p.2.length ≤ q.1) (indicesInnerAux off chunks) ∧
      (∀ p ∈ indicesInnerAux off chunks, off ≤ p.1 ∧ p.1 + p.2.length ≤ L) := by
  intro chunks
  induction chunks with
  | nil =>
    intro off L _ _ _
    rw [indicesInnerAux]
    exact ⟨List.Pairwise.nil, fun p hp => absurd hp (List.not_mem_nil p)⟩
  | cons ch rest ih =>
    intro off L hsum hU hne
    rw [indicesInnerAux]
    have hsum2 : off + ch.length + ((rest.map List.length).sum) ≤ L := by
      simp at hsum
      omega
    have hmod : (off + ch.length) % U32 = off + ch.length := by
      apply Nat.mod_eq_of_lt
      omega
    have hrest := ih ((off + ch.length) % U32) L (by rw [hmod]; omega) hU
      (fun c hc => hne c (List.mem_cons_of_mem _ hc))
    constructor
    · refine List.pairwise_cons.mpr ⟨?_, hrest.1⟩
      intro q hq
      have := (hrest.2 q hq).1
      rw [hmod] at this
      show off + ch.length ≤ q.1
      omega
    · intro p hp
      rcases List.mem_cons.mp hp with rfl | hp2
      · exact ⟨le_refl _, by show off + ch.length ≤ L; omega⟩
      · have := hrest.2 p hp2
        rw [hmod] at this
        exact ⟨by omega, this.2⟩

/-- The trim step keeps each token's character interval inside its
chunk's interval (with no `u32` wrap below the bound). -/
theorem trimIdx_facts (cc : CharClass) (p : Nat × List Char) (L : Nat)
    (hb : p.1 + p.2.length ≤ L) (hU : L < U32) :
    p.1 ≤ (trimIdx cc p).1 ∧ (trimIdx cc p).1 + (trimIdx cc p).2.length ≤ p.1 + p.2.length := by
  have htlen : (trimStart cc p.2).length ≤ p.2.length := by
    rw [trimStart]
    exact (p.2.dropWhile_sublist cc.isWs).length_le
  have htlen2 : (trimEnd cc (trimStart cc p.2)).length ≤ (trimStart cc p.2).length := by
    rw [trimEnd]
    have := ((trimStart cc p.2).reverse.dropWhile_sublist cc.isWs).length_le
    simpa using this
  have hremoved : p.2.length - (trimStart cc p.2).length ≤ p.2.length := by omega
  have hmod1 : (p.2.length - (trimStart cc p.2).length) % U32 =
      p.2.length - (trimStart cc p.2).length := Nat.mod_eq_of_lt (by omega)
  have hti : trimIdx cc p =
      ((p.1 + (p.2.length - (trimStart cc p.2).length) % U32) % U32,
        trimEnd cc (trimStart cc p.2)) := rfl
  rw [hti, hmod1]
  have hmod2 : (p.1 + (p.2.length - (trimStart cc p.2).length)) % U32 =
      p.1 + (p.2.length - (trimStart cc p.2).length) := Nat.mod_eq_of_lt (by omega)
  rw [hmod2]
  constructor
  · simp
  · show p.1 + (p.2.length - (trimStart cc p.2).length) +
      (trimEnd cc (trimStart cc p.2)).length ≤ p.1 + p.2.length
    omega

/-- The offset-tagged token list: tokens are nonempty, intervals are
strictly separated and contained in `[0, s.length]`. -/
theorem tokensWithOffsets_facts (cc : CharClass) (s : List Char) (hU : s.length < U32) :
    List.Pairwise (fun p q => p.1 + p.2.length ≤ q.1) (tokensWithOffsets cc s) ∧
    (∀ p ∈ tokensWithOffsets cc s, p.1 + p.2.length ≤ s.length ∧ p.2 ≠ []) := by
  obtain ⟨hne, hsum⟩ := unicodeWordBoundaries_facts cc s
  obtain ⟨hpw, hbnd⟩ := indicesInnerAux_facts (unicodeWordBoundaries cc s) 0 s.length
    (by omega) hU hne
  have hmapped : List.Pairwise (fun p q => p.1 + p.2.length ≤ q.1)
      ((indicesInnerAux 0 (unicodeWordBoundaries cc s)).map (trimIdx cc)) := by
    refine List.pairwise_map.mpr (hpw.imp_of_mem ?_)
    intro p q hp hq hpq
    obtain ⟨hp1, hp2⟩ := trimIdx_facts cc p s.length (hbnd p hp).2 hU
    obtain ⟨hq1, hq2⟩ := trimIdx_facts cc q s.length (hbnd q hq).2 hU
    omega
  have hmapbnd : ∀ tp ∈ (indicesInnerAux 0 (unicodeWordBoundaries cc s)).map (trimIdx cc),
      tp.1 + tp.2.length ≤ s.length := by
    intro tp htp
    obtain ⟨p, hp, hpe⟩ := List.mem_map.mp htp
    obtain ⟨_, hp2⟩ := trimIdx_facts cc p s.length (hbnd p hp).2 hU
    rw [← hpe]
    have := (hbnd p hp).2
    omega
  constructor
  · exact List.Pairwise.sublist (List.filter_sublist _) hmapped
  · intro p hp
    have hp2 := List.mem_of_mem_filter hp
    have hp3 := List.of_mem_filter hp
    refine ⟨hmapbnd p hp2, ?_⟩
    intro hcon
    rw [hcon] at hp3
    simp at hp3

/-- A strictly increasing list of naturals grows at least as fast as its
index. -/
theorem pairwise_lt_le_get (l : List Nat) (hp : l.Pairwise (· < ·)) :
    ∀ (i : Nat) (hi : i < l.length), i ≤ l.get ⟨i, hi⟩ := by
  intro i
  induction i with
  | zero =>
    intro hi
    exact Nat.zero_le _
  | succ i ih =>
    intro hi
    have hlt := List.pairwise_iff_get.mp hp ⟨i, by omega⟩ ⟨i + 1, hi⟩ (by simp)
    have := ih (by omega)
    omega

/-- The offset map: strictly increasing entries, all at most
`char_count + 1`, one entry per token plus the sentinel. -/
theorem offsetsOf_facts (cc : CharClass) (hay : List Char)
    (hsmall : hay.length + 1 < U32) :
    (offsetsOf cc hay).Pairwise (· < ·) ∧
    (∀ o ∈ offsetsOf cc hay, o ≤ hay.length + 1) ∧
    (offsetsOf cc hay).length = (hayTokens cc hay).length + 1 := by
  obtain ⟨hpw, hbnd⟩ := tokensWithOffsets_facts cc hay (by omega)
  have hsent : (hay.length + 1) % U32 = hay.length + 1 := Nat.mod_eq_of_lt hsmall
  have hoff : offsetsOf cc hay =
      (tokensWithOffsets cc hay).map (fun p => p.1) ++ [hay.length + 1] := by
    rw [offsetsOf, hsent]
  refine ⟨?_, ?_, ?_⟩
  · rw [hoff]
    refine List.pairwise_append.mpr ⟨?_, by simp, ?_⟩
    · refine List.pairwise_map.mpr (hpw.imp_of_mem ?_)
      intro p q hp hq hpq
      have h1 := List.length_pos_of_ne_nil (hbnd p hp).2
      show p.1 < q.1
      omega
    · intro o ho b hb
      obtain ⟨p, hp, hpe⟩ := List.mem_map.mp ho
      have hble : b = hay.length + 1 := by simpa using hb
      have h1 := List.length_pos_of_ne_nil (hbnd p hp).2
      have h2 := (hbnd p hp).1
      omega
  · intro o ho
    rw [hoff] at ho
    rcases List.mem_append.mp ho with ho | ho
    · obtain ⟨p, hp, hpe⟩ := List.mem_map.mp ho
      have h2 := (hbnd p hp).1
      omega
    · have : o = hay.length + 1 := by simpa using ho
      omega
  · rw [hoff, hayTokens]
    simp

/-- When every pattern tokenizes to a nonempty token sequence, every raw
match has a positive token length bounded by its token-end, which is
bounded by the token count. -/
theorem rawStream_bounds
    (cc : CharClass) (wfuel bfuel : Nat) (patterns : List (List Char)) (nfa : ACNFA)
    (h : compileWith cc wfuel bfuel patterns = some nfa)
    (hne : ∀ p ∈ patterns, unicodeWordsModel cc p ≠ []) (hay : List Char) :
    ∀ m ∈ findOverlappingRaw cc nfa hay,
      1 ≤ m.len ∧ m.len ≤ m.endPos ∧ m.endPos ≤ (hayTokens cc hay).length := by
  obtain ⟨hstart, hcount, sts0, dn, wf0, hlen, hinv, h0dn, halldn, horg, hterm, hpre⟩ :=
    compileWith_sound cc wfuel bfuel patterns nfa h
  have hlen2 := wf0.len2
  have hown1 : ∀ e, e ∈ (getState sts0 1).outputs → False := by
    intro e he
    obtain ⟨j, hj, _, _, hef⟩ := horg 1 e he
    have hnil := path_to_one sts0 wf0 _ hef
    exact hne (patterns.get ⟨j, hj⟩) (List.get_mem _ _ _) hnil
  intro m hm
  rw [findOverlappingRaw_closed cc wfuel bfuel patterns nfa h hay] at hm
  rw [specStreamFrom] at hm
  obtain ⟨j, hjmem, hmj⟩ := List.mem_flatMap.mp hm
  have hjle : j ≤ (hayTokens cc hay).length := by
    rw [List.mem_range'_1] at hjmem
    omega
  obtain ⟨s2, hrun, hgood⟩ :=
    runState_good sts0 nfa.states wf0 dn hinv halldn hlen
      ((hayTokens cc hay).take j) [] 1 (goodState_init sts0)
  rw [List.nil_append] at hgood
  have hpm : posMatches nfa.states 1 (hayTokens cc hay) j =
      (match runState nfa.states 1 ((hayTokens cc hay).take j) 1 with
        | none => []
        | some s => (getState nfa.states s).outputs.map
            (fun e => (⟨e.1, e.2, j⟩ : RawMatch))) := rfl
  rw [hpm, hrun] at hmj
  have hmj2 : m ∈ (getState nfa.states s2).outputs.map
      (fun e => (⟨e.1, e.2, j⟩ : RawMatch)) := hmj
  obtain ⟨e, he, hme⟩ := List.mem_map.mp hmj2
  obtain ⟨ws, hws, hwssuf, hwsmax⟩ := hgood
  have hs21 : s2 ≠ 1 := by
    intro hcon
    rw [hcon, hinv.out1] at he
    exact hown1 e he
  obtain ⟨hs20, hs2lt, _⟩ := follow_tgt sts0 wf0 ws 1 s2 (by omega) (by omega) hws
  obtain ⟨u2, wu2, hp2, hsuf2, he2⟩ := hinv.ub s2 hs20 ws hws e he
  obtain ⟨j2, hj2, _, he22, hef⟩ := horg u2 e he2
  have hwu2 : wu2 = unicodeWordsModel cc (patterns.get ⟨j2, hj2⟩) :=
    follow_inj sts0 wf0 wu2.length wu2 _ u2 le_rfl hp2 hef
  have he2len : e.2 = wu2.length := by rw [hwu2, ← he22]
  have hq2ne : wu2 ≠ [] := by
    rw [hwu2]
    exact hne _ (List.get_mem _ _ _)
  have hlen1 : 1 ≤ e.2 := by
    rw [he2len]
    exact List.length_pos_of_ne_nil hq2ne
  have hlenle : e.2 ≤ j := by
    rw [he2len]
    have h1 : wu2.length ≤ ws.length := List.IsSuffix.length_le hsuf2
    have h2 : ws.length ≤ ((hayTokens cc hay).take j).length :=
      List.IsSuffix.length_le hwssuf
    have h3 : ((hayTokens cc hay).take j).length ≤ j := by
      rw [List.length_take]
      omega
    omega
  rw [← hme]
  exact ⟨hlen1, hlenle, hjle⟩

/-- `SimpleFinderIter::next` only forwards matches of the underlying
iterator. -/
theorem attachData_proj (D : Type) (datas : List D) :
    ∀ (ms : List CharMatch) (md : CharMatch × D), md ∈ attachData D datas ms →
      md.1 ∈ ms := by
  intro ms
  induction ms with
  | nil =>
    intro md hmd
    cases hmd
  | cons m ms2 ih =>
    intro md hmd
    rw [attachData] at hmd
    match hg : datas.get? m.pattern with
    | none =>
      rw [hg] at hmd
      cases hmd
    | some d =>
      rw [hg] at hmd
      rcases List.mem_cons.mp hmd with rfl | hmd2
      · exact List.mem_cons_self _ _
      · exact List.mem_cons_of_mem _ (ih md hmd2)

/-- Claim C5 (amended): when every pattern tokenizes to at least one
token and the haystack is small enough that no `u32` offset wraps, every
match reported by `find_all` satisfies
`start ≤ end ≤ char_count(haystack) + 1` (in fact `end ≤ char_count`),
and the remap arithmetic never underflows. -/
theorem c5_reported_matches_contained
    (cc : CharClass) (wfuel bfuel : Nat) (patterns : List (List Char)) (nfa : ACNFA)
    (h : compileWith cc wfuel bfuel patterns = some nfa)
    (hne : ∀ p ∈ patterns, unicodeWordsModel cc p ≠ [])
    (hay : List Char) (hsmall : hay.length + 1 < U32)
    (D : Type) (datas : List D) :
    ∀ md ∈ findAll cc D nfa datas hay,
      md.1.start ≤ md.1.endPos ∧ md.1.endPos ≤ hay.length + 1 := by
  have hcc : U32 < U64 := by decide
  intro md hmd
  have hm2mem : md.1 ∈ findOverlapping cc nfa hay :=
    attachData_proj D datas (findOverlapping cc nfa hay) md hmd
  obtain ⟨i, hi⟩ := List.mem_iff_get?.mp hm2mem
  obtain ⟨m, hmi, hrm⟩ := iter_raw_lockstep nfa.states nfa.start_id (hayTokens cc hay)
    (offsetsOf cc hay) (iterFuelOf nfa.states (hayTokens cc hay)) 0 nfa.start_id 0
    i md.1 hi
  have hmmem : m ∈ findOverlappingRaw cc nfa hay := List.get?_mem hmi
  obtain ⟨hl1, hl2, hl3⟩ := rawStream_bounds cc wfuel bfuel patterns nfa h hne hay m hmmem
  obtain ⟨hopw, hobnd, holen⟩ := offsetsOf_facts cc hay hsmall
  have hNle : (hayTokens cc hay).length ≤ hay.length + 1 := by
    have hg := pairwise_lt_le_get (offsetsOf cc hay) hopw (hayTokens cc hay).length
      (by omega)
    have hbn := hobnd ((offsetsOf cc hay).get ⟨(hayTokens cc hay).length, by omega⟩)
      (List.get_mem _ _ _)
    omega
  have hidx1 : ((m.endPos + U64 - m.len) % U64) % U32 = m.endPos - m.len := by
    have h1 : m.endPos + U64 - m.len = (m.endPos - m.len) + U64 := by omega
    rw [h1, Nat.add_mod_right, Nat.mod_eq_of_lt (show m.endPos - m.len < U64 by omega)]
    exact Nat.mod_eq_of_lt (by omega)
  have hidx2 : m.endPos % U32 = m.endPos := Nat.mod_eq_of_lt (by omega)
  have hlt1 : m.endPos - m.len < (offsetsOf cc hay).length := by omega
  have hlt2 : m.endPos < (offsetsOf cc hay).length := by omega
  have hunf : remap (offsetsOf cc hay) m =
      (match (offsetsOf cc hay).get? (((m.endPos + U64 - m.len) % U64) % U32) with
        | none => none
        | some s =>
          match (offsetsOf cc hay).get? (m.endPos % U32) with
          | none => none
          | some e0 =>
            some ⟨m.pattern, ((e0 + U32 - 1) % U32 + U32 - s) % U32,
              (e0 + U32 - 1) % U32⟩) := rfl
  rw [hunf, hidx1, hidx2, List.get?_eq_get hlt1, List.get?_eq_get hlt2] at hrm
  have hmd1 : md.1 = ⟨m.pattern,
      (((offsetsOf cc hay).get ⟨m.endPos, hlt2⟩ + U32 - 1) % U32 + U32
        - (offsetsOf cc hay).get ⟨m.endPos - m.len, hlt1⟩) % U32,
      ((offsetsOf cc hay).get ⟨m.endPos, hlt2⟩ + U32 - 1) % U32⟩ :=
    (Option.some.inj hrm).symm
  have hslt : (offsetsOf cc hay).get ⟨m.endPos - m.len, hlt1⟩ <
      (offsetsOf cc hay).get ⟨m.endPos, hlt2⟩ :=
    List.pairwise_iff_get.mp hopw _ _ (by simp [Fin.mk_lt_mk]; omega)
  have hs0le : (offsetsOf cc hay).get ⟨m.endPos - m.len, hlt1⟩ ≤ hay.length + 1 :=
    hobnd _ (List.get_mem _ _ _)
  have he0le : (offsetsOf cc hay).get ⟨m.endPos, hlt2⟩ ≤ hay.length + 1 :=
    hobnd _ (List.get_mem _ _ _)
  have hg2m : ((offsetsOf cc hay).get ⟨m.endPos, hlt2⟩ + U32 - 1) % U32 =
      (offsetsOf cc hay).get ⟨m.endPos, hlt2⟩ - 1 := by
    have h1 : (offsetsOf cc hay).get ⟨m.endPos, hlt2⟩ + U32 - 1 =
        ((offsetsOf cc hay).get ⟨m.endPos, hlt2⟩ - 1) + U32 := by omega
    rw [h1, Nat.add_mod_right]
    exact Nat.mod_eq_of_lt (by omega)
  rw [hg2m] at hmd1
  have hlenm : (((offsetsOf cc hay).get ⟨m.endPos, hlt2⟩ - 1) + U32
      - (offsetsOf cc hay).get ⟨m.endPos - m.len, hlt1⟩) % U32 =
      ((offsetsOf cc hay).get ⟨m.endPos, hlt2⟩ - 1)
        - (offsetsOf cc hay).get ⟨m.endPos - m.len, hlt1⟩ := by
    have h1 : ((offsetsOf cc hay).get ⟨m.endPos, hlt2⟩ - 1) + U32
        - (offsetsOf cc hay).get ⟨m.endPos - m.len, hlt1⟩ =
        (((offsetsOf cc hay).get ⟨m.endPos, hlt2⟩ - 1)
          - (offsetsOf cc hay).get ⟨m.endPos - m.len, hlt1⟩) + U32 := by omega
    rw [h1, Nat.add_mod_right]
    exact Nat.mod_eq_of_lt (by omega)
  rw [hlenm] at hmd1
  rw [hmd1]
  constructor
  · show (((offsetsOf cc hay).get ⟨m.endPos, hlt2⟩ - 1) + U64
        - (((offsetsOf cc hay).get ⟨m.endPos, hlt2⟩ - 1)
          - (offsetsOf cc hay).get ⟨m.endPos - m.len, hlt1⟩)) % U64 ≤
      (offsetsOf cc hay).get ⟨m.endPos, hlt2⟩ - 1
    have h1 : ((offsetsOf cc hay).get ⟨m.endPos, hlt2⟩ - 1) + U64
        - (((offsetsOf cc hay).get ⟨m.endPos, hlt2⟩ - 1)
          - (offsetsOf cc hay).get ⟨m.endPos - m.len, hlt1⟩) =
        (offsetsOf cc hay).get ⟨m.endPos - m.len, hlt1⟩ + U64 := by omega
    rw [h1, Nat.add_mod_right, Nat.mod_eq_of_lt (by omega)]
    omega
  · show (offsetsOf cc hay).get ⟨m.endPos, hlt2⟩ - 1 ≤ hay.length + 1
    omega

/-- The empty-pattern run violates the claimed containment: the first
match of `find_all` for the pattern set `[("", 9)]` on `"a b"` has
`end = 2^32 - 1`, far beyond `char_count + 1 = 4`. -/
theorem c5_counterexample :
    (match simpleFinderNew asciiCC Nat [("".toList, 9)] with
      | none => none
      | some (nfa, datas) => (findAll asciiCC Nat nfa datas "a b".toList).head?) =
      some (⟨0, 4294967295, 4294967295⟩, 9) ∧
    ¬((4294967295 : Nat) ≤ "a b".toList.length + 1) :=
  ⟨by rfl, by decide⟩

/-- Concrete instantiation of the amended C5 on the demo finder. -/
theorem c5_reported_matches_contained_witness :
    compileWith asciiCC 9 9 demoPats = some demoNFA ∧
    ∀ md ∈ findAll asciiCC Nat demoNFA [10, 20] ['a', 'b', ' ', 'c', 'd'],
      md.1.start ≤ md.1.endPos ∧
      md.1.endPos ≤ (['a', 'b', ' ', 'c', 'd'] : List Char).length + 1 :=
  ⟨demo_compiles,
   c5_reported_matches_contained asciiCC 9 9 demoPats demoNFA demo_compiles
     (by decide) ['a', 'b', ' ', 'c', 'd'] (by decide) Nat [10, 20]⟩
